import Mathlib

/-!
# fields-identify: contact-card field extraction (`src/app.js`)

A shallow embedding of `src/app.js` and the properties of its specification.

Modelling conventions.

* A JavaScript string is a `List Char` (`Str`).  The program only tests
  characters against the classes `\s`, `\d`, `\w` and against ASCII literals;
  both halves of a surrogate pair are outside `\s`, `\d` and `\w`, exactly as
  the code point they encode, so nothing the program does can tell code
  points from UTF-16 code units.
* A confidence is an exact rational (`ℚ`).
* The regular expressions of the program are sequences of atoms (a character
  class, an optional class, a greedy repetition of a class, the assertion
  `\b`); `matchAt` is the backtracking matcher of ECMAScript restricted to
  that fragment and `replaceAll` is `String.prototype.replace` with a global
  regular expression.
* `String.prototype.toLowerCase` is driven by the Unicode tables; it is a
  parameter (`lc`) of the functions that call it, and `asciiLower` is its
  restriction to ASCII, used for concrete lines.
* The tagger (`ner`) is a parameter: a function from a text to a token
  sequence that may fail.  The loading of the model by `initNER` is part of
  it: a model that did not load fails the first call.
* The handler of `POST /extract` takes the call `re(ocrLines)` as a
  parameter and reads `req.body` as `bodyParser.json()` leaves it: an object
  or an array when a JSON text was parsed, `undefined` when none was and the
  parser left the property unset.
-/

namespace FieldsIdentify

/-! ## Strings and character classes -/

/-- A JavaScript string. -/
abbrev Str := List Char

/-- The class `\s` of ECMAScript: WhiteSpace and LineTerminator code points. -/
def isSpace (c : Char) : Bool :=
  let n := c.toNat
  (0x09 ≤ n && n ≤ 0x0D) || n == 0x20 || n == 0xA0 || n == 0x1680 ||
  (0x2000 ≤ n && n ≤ 0x200A) || n == 0x2028 || n == 0x2029 || n == 0x202F ||
  n == 0x205F || n == 0x3000 || n == 0xFEFF

/-- The class `\S`. -/
def isNonSpace (c : Char) : Bool := !isSpace c

/-- The class `\d`: the ASCII digits. -/
def isDigit (c : Char) : Bool :=
  let n := c.toNat
  0x30 ≤ n && n ≤ 0x39

/-- The class `\w` (no `u` flag): ASCII letters, ASCII digits and `_`. -/
def isWordChar (c : Char) : Bool :=
  let n := c.toNat
  (0x41 ≤ n && n ≤ 0x5A) || (0x61 ≤ n && n ≤ 0x7A) || (0x30 ≤ n && n ≤ 0x39) || n == 0x5F

/-- The class of one literal character. -/
def isChar (a : Char) (c : Char) : Bool := c == a

/-- ASCII lower-casing of one character. -/
def asciiLowerChar (c : Char) : Char :=
  if 0x41 ≤ c.toNat ∧ c.toNat ≤ 0x5A then Char.ofNat (c.toNat + 32) else c

/-- ASCII upper-casing of one character. -/
def asciiUpperChar (c : Char) : Char :=
  if 0x61 ≤ c.toNat ∧ c.toNat ≤ 0x7A then Char.ofNat (c.toNat - 32) else c

/-- The class of one ASCII letter under the `i` flag without the `u` flag:
Canonicalize upper-cases a character but never maps a character outside ASCII
to one inside, so the letter matches its two ASCII cases only. -/
def isCharCI (a : Char) (c : Char) : Bool :=
  c == asciiLowerChar a || c == asciiUpperChar a

/-- The restriction of `toLowerCase` to ASCII. -/
def asciiLower (s : Str) : Str := s.map asciiLowerChar

/-! ## Regular expressions -/

/-- One atom of a regular expression of the program. -/
inductive Atom where
  /-- one character of the class -/
  | cls (p : Char → Bool)
  /-- the class, optional and greedy: `p?` -/
  | opt (p : Char → Bool)
  /-- the class repeated greedily at least `min` times: `p{min,}` -/
  | rep (p : Char → Bool) (min : Nat)
  /-- the assertion `\b` -/
  | wordB

/-- A regular expression: its atoms in sequence. -/
abbrev Regex := List Atom

/-- Whether the (optional) character is a word character; no character, at
either end of the input, counts as a non-word character. -/
def isWordAt : Option Char → Bool
  | none => false
  | some c => isWordChar c

/-- Greedy repetition of the class `p`, at least `min` times, followed by the
continuation `k`: take one more character while possible, and give the
characters back one at a time when what follows fails.  The result is the
number of characters matched, repetition and continuation together. -/
def repGo (p : Char → Bool) (k : Option Char → Str → Option Nat) :
    Nat → Option Char → Str → Option Nat
  | min, prev, [] => if min = 0 then k prev [] else none
  | min, prev, c :: t =>
    if p c then
      match repGo p k (min - 1) (some c) t with
      | some n => some (n + 1)
      | none => if min = 0 then k prev (c :: t) else none
    else if min = 0 then k prev (c :: t) else none

/-- Backtracking match of a regular expression at one position: `prev` is the
character before the position (none at the start of the input), the string is
the input from the position on; the result is the length of the match. -/
def matchAt : Regex → Option Char → Str → Option Nat
  | [], _, _ => some 0
  | Atom.cls _ :: _, _, [] => none
  | Atom.cls p :: r, _, c :: t =>
    if p c then (matchAt r (some c) t).map (· + 1) else none
  | Atom.opt _ :: r, prev, [] => matchAt r prev []
  | Atom.opt p :: r, prev, c :: t =>
    if p c then
      match matchAt r (some c) t with
      | some n => some (n + 1)
      | none => matchAt r prev (c :: t)
    else matchAt r prev (c :: t)
  | Atom.rep p min :: r, prev, s => repGo p (matchAt r) min prev s
  | Atom.wordB :: r, prev, s =>
    if isWordAt prev != isWordAt s.head? then matchAt r prev s else none

/-- The scan of `replace` with a global regular expression: `skip` characters
of the current match are still to be dropped; otherwise the expression is
tried at the current position, a match is replaced by `repl` and the scan
goes on after it (one character further after an empty match). -/
def replaceGo (re : Regex) (repl : Str) : Nat → Option Char → Str → Str
  | _, prev, [] =>
    match matchAt re prev [] with
    | some _ => repl
    | none => []
  | skip + 1, _, c :: t => replaceGo re repl skip (some c) t
  | 0, prev, c :: t =>
    match matchAt re prev (c :: t) with
    | some 0 => repl ++ c :: replaceGo re repl 0 (some c) t
    | some (n + 1) => repl ++ replaceGo re repl n (some c) t
    | none => c :: replaceGo re repl 0 (some c) t

/-- The call `s.replace(re, repl)` for a global regular expression. -/
def replaceAll (re : Regex) (repl : Str) (s : Str) : Str :=
  replaceGo re repl 0 none s

/-- The scan of `re.test(s)`, from a position on. -/
def testGo (re : Regex) : Option Char → Str → Bool
  | prev, [] => (matchAt re prev []).isSome
  | prev, c :: t => (matchAt re prev (c :: t)).isSome || testGo re (some c) t

/-- The call `re.test(s)`: the expression matches somewhere in `s`. -/
def test (re : Regex) (s : Str) : Bool := testGo re none s

/-- The call `s.trim()`. -/
def trim (s : Str) : Str :=
  ((s.dropWhile isSpace).reverse.dropWhile isSpace).reverse

/-- The call `s.startsWith(pat)`. -/
def startsWith (s pat : Str) : Bool := pat.isPrefixOf s

/-- The call `s.includes(pat)`. -/
def includes : Str → Str → Bool
  | [], pat => pat.isEmpty
  | c :: t, pat => pat.isPrefixOf (c :: t) || includes t pat

/-- The call `s.replace(pat, repl)` for a string pattern: the first
occurrence only. -/
def replaceFirst (pat repl : Str) : Str → Str
  | [] => if pat.isEmpty then repl else []
  | c :: t =>
    if pat.isPrefixOf (c :: t) then repl ++ (c :: t).drop pat.length
    else c :: replaceFirst pat repl t

/-- The call `xs.join(sep)`. -/
def join (sep : Str) : List Str → Str
  | [] => []
  | [x] => x
  | x :: y :: r => x ++ sep ++ join sep (y :: r)

/-- A sequence of literal characters as a regular expression. -/
def lit (s : Str) : Regex := s.map (fun a => Atom.cls (isChar a))

/-- A sequence of literal letters under the `i` flag. -/
def litCI (s : Str) : Regex := s.map (fun a => Atom.cls (isCharCI a))

/-! ## The regular expressions of the program -/

/-- The expression `/\S+@\S+\.\S+/`. -/
def emailRe : Regex :=
  [Atom.rep isNonSpace 1, Atom.cls (isChar '@'), Atom.rep isNonSpace 1,
   Atom.cls (isChar '.'), Atom.rep isNonSpace 1]

/-- The expression `/https?:\/\/\S+/`. -/
def urlRe : Regex :=
  lit "http".toList ++ [Atom.opt (isChar 's')] ++ lit "://".toList ++ [Atom.rep isNonSpace 1]

/-- The expression `/www\.\S+/`. -/
def wwwRe : Regex := lit "www.".toList ++ [Atom.rep isNonSpace 1]

/-- The class `[\d\-\)\( ]`. -/
def isPhoneChar (c : Char) : Bool :=
  isDigit c || c == '-' || c == ')' || c == '(' || c == ' '

/-- The expression `/(\+?\d[\d\-\)\( ]{5,}\d)/`. -/
def phoneRe : Regex :=
  [Atom.opt (isChar '+'), Atom.cls isDigit, Atom.rep isPhoneChar 5, Atom.cls isDigit]

/-- The expression `/\d+/`. -/
def digitsRe : Regex := [Atom.rep isDigit 1]

/-- The expression `/\d/`. -/
def digitRe : Regex := [Atom.cls isDigit]

/-- The expression `new RegExp("\\b" + word + "\\b", "ig")`. -/
def wordRe (word : Str) : Regex := [Atom.wordB] ++ litCI word ++ [Atom.wordB]

/-- The expression `/\s+/`. -/
def spacesRe : Regex := [Atom.rep isSpace 1]

/-- The expression `/\s*##/`. -/
def hashesRe : Regex := [Atom.rep isSpace 0] ++ lit "##".toList

/-! ## `cleanName` -/

/-- The array `noiseWords` of `cleanName`. -/
def noiseWords : List Str :=
  ["contact".toList, "ph".toList, "tel".toList, "phone".toList, "mobile".toList]

/-- The function `cleanName` on a string that passed the guard `!line`. -/
def cleanSteps (line : Str) : Str :=
  let line := replaceAll emailRe [] line
  let line := replaceAll urlRe [] line
  let line := replaceAll wwwRe [] line
  let line := replaceAll phoneRe [] line
  let line := replaceAll digitsRe [] line
  let line := noiseWords.foldl (fun line word => replaceAll (wordRe word) [] line) line
  trim (replaceAll spacesRe [' '] line)

/-- The function `cleanName`; `none` is the argument `undefined`, which like
the empty string is falsy and gives the empty string. -/
def cleanName : Option Str → Str
  | none => []
  | some line => if line.isEmpty then [] else cleanSteps line

/-! ## `isAddress` and `isDesignation` -/

/-- The array `addressKeywords` of `isAddress`. -/
def addressKeywords : List Str :=
  ["road".toList, "phase".toList, "sector".toList, "street".toList, "extn".toList,
   "block".toList, "complex".toList, "tower".toList, "floor".toList, "plot".toList]

/-- The function `isAddress`; `lc` is `toLowerCase`. -/
def isAddress (lc : Str → Str) (line : Str) : Bool :=
  let hasNumbers := test digitRe line
  let hasKeyword := addressKeywords.any (fun k => includes (lc line) k)
  hasNumbers && hasKeyword

/-- The array `keywords` of `isDesignation`. -/
def designationKeywords : List Str :=
  ["lead".toList, "manager".toList, "director".toList, "chief".toList, "head".toList,
   "engineer".toList, "developer".toList, "designer".toList, "consultant".toList,
   "analyst".toList, "specialist".toList, "coordinator".toList, "executive".toList,
   "officer".toList, "president".toList, "vp".toList, "founder".toList]

/-- The function `isDesignation`; `lc` is `toLowerCase`. -/
def isDesignation (lc : Str → Str) (line : Str) : Bool :=
  designationKeywords.any (fun k => includes (lc line) k)

/-! ## `mergeEntities` -/

/-- A token of the tagger: its tag (`entity`), its text (`word`), its
confidence (`score`) and its position in the tokenised text (`index`). -/
structure Token where
  entity : Str
  word : Str
  score : ℚ
  index : Nat
  deriving DecidableEq

/-- An entity span, as pushed on `results`. -/
structure Span where
  text : Str
  score : ℚ
  deriving DecidableEq

/-- The text of a closed span:
`currentTokens.join(" ").replace(/\s*##/g, "").replace(/\s+/g, " ").trim()`. -/
def spanText (currentTokens : List Str) : Str :=
  trim (replaceAll spacesRe [' '] (replaceAll hashesRe [] (join [' '] currentTokens)))

/-- The score of a closed span:
`currentScores.reduce((a, b) => a + b, 0) / currentScores.length`. -/
def spanScore (currentScores : List ℚ) : ℚ :=
  currentScores.foldl (fun a b => a + b) 0 / (currentScores.length : ℚ)

/-- The object pushed on `results` when a span is closed. -/
def closeSpan (currentTokens : List Str) (currentScores : List ℚ) : Span :=
  { text := spanText currentTokens, score := spanScore currentScores }

/-- The statement `currentTokens[currentTokens.length - 1] += frag`; it is
only reached with a non-empty `currentTokens`. -/
def appendToLast (currentTokens : List Str) (frag : Str) : List Str :=
  match currentTokens.getLast? with
  | some last => currentTokens.dropLast ++ [last ++ frag]
  | none => currentTokens

/-- The variables of the loop of `mergeEntities`; `α` is what is pushed on
`results` for a closed span. -/
structure MergeState (α : Type) where
  results : List α
  currentTokens : List Str
  currentScores : List ℚ

/-- The tag starts with `"B-" + targetType`. -/
def isBegin (targetType : Str) (e : Token) : Bool :=
  startsWith e.entity ("B-".toList ++ targetType)

/-- The tag starts with `"I-" + targetType`. -/
def isInside (targetType : Str) (e : Token) : Bool :=
  startsWith e.entity ("I-".toList ++ targetType)

/-- One iteration of the loop of `mergeEntities`, with `close` building what
is pushed on `results`. -/
def mergeStep {α : Type} (close : List Str → List ℚ → α) (targetType : Str)
    (st : MergeState α) (e : Token) : MergeState α :=
  if isBegin targetType e then
    { results :=
        if st.currentTokens.length > 0 then
          st.results ++ [close st.currentTokens st.currentScores]
        else st.results
      currentTokens := [e.word]
      currentScores := [e.score] }
  else if isInside targetType e && st.currentTokens.length != 0 then
    { results := st.results
      currentTokens :=
        if startsWith e.word "##".toList then
          appendToLast st.currentTokens (replaceFirst "##".toList [] e.word)
        else st.currentTokens ++ [e.word]
      currentScores := st.currentScores ++ [e.score] }
  else if st.currentTokens.length > 0 then
    { results := st.results ++ [close st.currentTokens st.currentScores]
      currentTokens := []
      currentScores := [] }
  else st

/-- The span still open after the loop is closed too. -/
def mergeFinish {α : Type} (close : List Str → List ℚ → α) (st : MergeState α) : List α :=
  if st.currentTokens.length > 0 then
    st.results ++ [close st.currentTokens st.currentScores]
  else st.results

/-- The function `mergeEntities` with `close` in place of the object literal
pushed on `results`. -/
def mergeWith {α : Type} (close : List Str → List ℚ → α) (entities : List Token)
    (targetType : Str) : List α :=
  mergeFinish close (entities.foldl (mergeStep close targetType) ⟨[], [], []⟩)

/-- The function `mergeEntities`. -/
def mergeEntities (entities : List Token) (targetType : Str) : List Span :=
  mergeWith closeSpan entities targetType

/-! ## `re` -/

/-- The object `extracted` of `re`: the four buckets of lines. -/
structure Extracted where
  persons : List Str
  companies : List Str
  locations : List Str
  designations : List Str

/-- The object returned by `re`; `none` in `company` is `undefined`. -/
structure Result where
  name : Str
  company : Option Str
  address : List Str
  designation : List Str
  deriving DecidableEq

/-- One iteration of the inner loop of `re` over the tokens of a line: the
pair is (`type`, `score`), `none` being `undefined`. -/
def typeStep (st : Option Str × ℚ) (entity : Token) : Option Str × ℚ :=
  if startsWith entity.entity "B-".toList && entity.index == 1 then
    if entity.score > st.2 then (some (entity.entity.drop 2), entity.score) else st
  else st

/-- The variable `type` after the inner loop of `re`. -/
def dominantType (result : List Token) : Option Str :=
  (result.foldl typeStep (none, 0)).1

/-- The tagged line goes to `locations`: the test
`result.length !== 0 && result[0].entity === "B-LOC"`. -/
def startsWithLoc (result : List Token) : Bool :=
  result.length != 0 && (result.head?.map (fun e => e.entity) == some "B-LOC".toList)

/-- The body of the loop of `re` over the lines, after the tagger has returned
`result` for `line`. -/
def lineStep (lc : Str → Str) (extracted : Extracted) (line : Str) (result : List Token) :
    Extracted :=
  let type := dominantType result
  let extracted :=
    if startsWithLoc result then
      { extracted with locations := extracted.locations ++ [line] }
    else if isDesignation lc line then
      { extracted with designations := extracted.designations ++ [line] }
    else if isAddress lc line then
      { extracted with locations := extracted.locations ++ [line] }
    else extracted
  if type = some "PER".toList then
    { extracted with persons := extracted.persons ++ [line] }
  else if type = some "ORG".toList then
    { extracted with companies := extracted.companies ++ [line] }
  else extracted

/-- The loop of `re` over the lines; a failure of the tagger ends it. -/
def scanLines (lc : Str → Str) (ner : Str → Option (List Token)) :
    Extracted → List Str → Option Extracted
  | extracted, [] => some extracted
  | extracted, line :: rest =>
    match ner line with
    | none => none
    | some result => scanLines lc ner (lineStep lc extracted line result) rest

/-- One iteration of the loop of `re` over `mergedCompanies`: the pair is
(`bestCompany`, `bestScore`). -/
def bestStep (st : Str × ℚ) (c : Span) : Str × ℚ :=
  if c.score > st.2 then (c.text, c.score) else st

/-- The variable `bestCompany` after the loop over `mergedCompanies`. -/
def bestCompany (mergedCompanies : List Span) : Str :=
  (mergedCompanies.foldl bestStep ([], 0)).1

/-- The variable `mergedCompanies`: `none` is `undefined`. -/
def mergedCompaniesOf (companyResult : List Token) : Option (List Span) :=
  if companyResult.length > 1 then some (mergeEntities companyResult "ORG".toList) else none

/-- The variable `resCompany`; `bestCompany` is not read. -/
def resCompany (companies : List Str) (mergedCompanies : Option (List Span)) : Option Str :=
  if companies.length = 1 then companies.head?
  else (mergedCompanies.bind (fun m => m.head?)).map (fun c => c.text)

/-- The function `re`; `lc` is `toLowerCase` and `ner` the tagger, `none`
being a call that throws. -/
def re (lc : Str → Str) (ner : Str → Option (List Token)) (ocrLines : List Str) :
    Option Result :=
  match scanLines lc ner ⟨[], [], [], []⟩ ocrLines with
  | none => none
  | some extracted =>
    let companyText := join [' '] extracted.companies
    match ner companyText with
    | none => none
    | some companyResult =>
      some
        { name := cleanName extracted.persons.head?
          company := resCompany extracted.companies (mergedCompaniesOf companyResult)
          address := extracted.locations
          designation := extracted.designations }

/-! ## The spans of `mergeEntities`, token by token -/

/-- The tokens of the spans of a sequence, in the words of the specification:
each Begin token of the type opens a span, which takes the Inside tokens of
the type that follow it directly. -/
def spanGroups (targetType : Str) : List Token → List (List Token)
  | [] => []
  | e :: rest =>
    if isBegin targetType e then
      (e :: rest.takeWhile (isInside targetType)) :: spanGroups targetType rest
    else spanGroups targetType rest

/-- The update of `currentTokens` by an absorbed Inside token. -/
def absorbWord (currentTokens : List Str) (e : Token) : List Str :=
  if startsWith e.word "##".toList then
    appendToLast currentTokens (replaceFirst "##".toList [] e.word)
  else currentTokens ++ [e.word]

/-- The array `currentTokens` of a span made of the given tokens. -/
def groupWords : List Token → List Str
  | [] => []
  | e :: inside => inside.foldl absorbWord [e.word]

/-- What is pushed on `results` for a span made of the given tokens. -/
def closeGroup {α : Type} (close : List Str → List ℚ → α) (g : List Token) : α :=
  close (groupWords g) (g.map (fun e => e.score))

/-- The tokens before a position leave a span open: going back from the
position over Inside tokens of the type, the first other token is a Begin
token of the type. -/
def openAfter (targetType : Str) (before : List Token) : Bool :=
  match (before.reverse.dropWhile (isInside targetType)).head? with
  | some b => isBegin targetType b
  | none => false

/-- The token at position `i` is an Inside token of the type that arrives
while no span is open. -/
def orphanAt (targetType : Str) (ts : List Token) (i : Nat) : Bool :=
  match ts[i]? with
  | some e => isInside targetType e && !openAfter targetType (ts.take i)
  | none => false

/-- The number of Inside tokens of the type that arrive while no span is
open. -/
def orphanCount (targetType : Str) (ts : List Token) : Nat :=
  ((List.range ts.length).filter (orphanAt targetType ts)).length

/-- The number of tokens whose tag starts neither with `"B-" + targetType`
nor with `"I-" + targetType`. -/
def otherCount (targetType : Str) (ts : List Token) : Nat :=
  (ts.filter (fun e => !isBegin targetType e && !isInside targetType e)).length

/-- The number of tokens of the type before the first Begin token of the
type. -/
def leadingCount (targetType : Str) (ts : List Token) : Nat :=
  ((ts.takeWhile (fun e => !isBegin targetType e)).filter (isInside targetType)).length

/-- The number of tokens absorbed into the spans: a span absorbs one token for
each confidence pushed on `currentScores`. -/
def absorbedCount (ts : List Token) (targetType : Str) : Nat :=
  (mergeWith (fun _ currentScores => currentScores.length) ts targetType).sum

/-- A tagger that never fails. -/
def totalTagger (tag : Str → List Token) : Str → Option (List Token) :=
  fun text => some (tag text)

/-- The line goes to `locations`. -/
def toLocations (lc : Str → Str) (tag : Str → List Token) (line : Str) : Bool :=
  startsWithLoc (tag line) || (!isDesignation lc line && isAddress lc line)

/-- The line goes to `designations`. -/
def toDesignations (lc : Str → Str) (tag : Str → List Token) (line : Str) : Bool :=
  !startsWithLoc (tag line) && isDesignation lc line

/-- The buckets of `re` after the loop over the lines, for a tagger that never
fails. -/
def bucketsOf (lc : Str → Str) (tag : Str → List Token) (lines : List Str) : Extracted :=
  { persons := lines.filter (fun line => dominantType (tag line) = some "PER".toList)
    companies := lines.filter (fun line => dominantType (tag line) = some "ORG".toList)
    locations := lines.filter (toLocations lc tag)
    designations := lines.filter (toDesignations lc tag) }

/-- A tagger for the lines "Acme" and "Globex": each line is one ORG token,
and in the joined text "Acme Globex" the second company has the higher
confidence. -/
def twoCompanyTagger (text : Str) : List Token :=
  if text = "Acme".toList then [⟨"B-ORG".toList, "Acme".toList, 9 / 10, 1⟩]
  else if text = "Globex".toList then [⟨"B-ORG".toList, "Globex".toList, 9 / 10, 1⟩]
  else if text = "Acme Globex".toList then
    [⟨"B-ORG".toList, "Acme".toList, 1 / 2, 1⟩, ⟨"B-ORG".toList, "Globex".toList, 9 / 10, 2⟩]
  else []

/-- The lines of the card of the end-to-end scenario. -/
def cardLines : List Str :=
  ["John Smith".toList, "Senior Software Engineer".toList, "Acme Corp".toList,
   "123 Main Street, Sector 5".toList, "john@acme.com +1-555-123-4567".toList]

/-- A tagger for the card: it finds the person and the company, nothing
else. -/
def cardTagger (text : Str) : List Token :=
  if text = "John Smith".toList then
    [⟨"B-PER".toList, "John".toList, 9 / 10, 1⟩, ⟨"I-PER".toList, "Smith".toList, 4 / 5, 2⟩]
  else if text = "Acme Corp".toList then
    [⟨"B-ORG".toList, "Acme".toList, 9 / 10, 1⟩, ⟨"I-ORG".toList, "Corp".toList, 4 / 5, 2⟩]
  else []

/-- The character before the position reached after the characters `l`, when
`prev` was the character before them. -/
def lastOf (prev : Option Char) (l : Str) : Option Char :=
  match l.getLast? with
  | some c => some c
  | none => prev

/-- The object returned by `re` for the card of the end-to-end scenario under
`cardTagger`. -/
def cardResult : Result :=
  { name := "John Smith".toList
    company := some "Acme Corp".toList
    address := ["123 Main Street, Sector 5".toList]
    designation := ["Senior Software Engineer".toList] }

/-- Every whitespace character of the string is a plain space followed by a
character that is not whitespace. -/
def spaceOK : Str → Bool
  | [] => true
  | c :: t =>
    (if isSpace c then
      c == ' ' && (match t with
        | d :: _ => !isSpace d
        | [] => false)
    else true) && spaceOK t

/-- The string is in the form `replace(/\s+/g, " ").trim()` leaves: it does
not start or end with whitespace, and its whitespace is single plain
spaces. -/
def normalized (s : Str) : Bool :=
  (match s with
    | c :: _ => !isSpace c
    | [] => true) && spaceOK s

/-- The word with a leading `##` continuation marker removed. -/
def stripMarker (w : Str) : Str :=
  if startsWith w "##".toList then w.drop 2 else w

/-- What an Inside word adds to the text of its span, in the words of the
specification: a continuation fragment is appended without a space, any other
word after exactly one space. -/
def wordPiece (e : Token) : Str :=
  if startsWith e.word "##".toList then stripMarker e.word else ' ' :: e.word

/-- The text of a span made of the given tokens, in the words of the
specification: the words in order, markers stripped, fragments appended
without a space and the other Inside words after one space. -/
def joinedText : List Token → Str
  | [] => []
  | b :: inside => stripMarker b.word ++ (inside.map wordPiece).flatten

/-- Some suffix of the run, at least `m` characters in, satisfies `K`. -/
def anySuffix (K : Str → Bool) : Nat → Str → Bool
  | m, [] => m == 0 && K []
  | m, c :: t => (m == 0 && K (c :: t)) || anySuffix K (m - 1) t

/-- The run starts with a character of the class `q` and goes on with
`K`. -/
def consK (q : Char → Bool) (K : Str → Bool) : Str → Bool
  | [] => false
  | c :: t => q c && K t

/-- A run of non-whitespace characters has the shape of `/\S+@\S+\.\S+/` from
its first character on: a character, an `@` further on, a character, a `.`
further on, and a character after it. -/
def emailShape : Str → Bool :=
  anySuffix (consK (isChar '@')
    (anySuffix (consK (isChar '.') (fun r => decide (1 ≤ r.length))) 1)) 1

/-- Some position of the string starts a piece of a run of non-whitespace
characters that satisfies `K`. -/
def hasRun (K : Str → Bool) : Str → Bool
  | [] => K []
  | c :: t => K ((c :: t).takeWhile isNonSpace) || hasRun K t

/-- The matcher `k` depends only on the run of non-whitespace characters at
the position: it succeeds when the run satisfies `K` and then takes the whole
run. -/
def RunComplete (k : Option Char → Str → Option Nat) (K : Str → Bool) : Prop :=
  ∀ prev s, k prev s =
    if K (s.takeWhile isNonSpace) = true then some (s.takeWhile isNonSpace).length else none

/-- The first string is the second with some characters deleted, none of them
whitespace. -/
inductive DelNS : Str → Str → Prop where
  | nil : DelNS [] []
  | keep (c : Char) {out s : Str} : DelNS out s → DelNS (c :: out) (c :: s)
  | drop (c : Char) {out s : Str} : isNonSpace c = true → DelNS out s → DelNS out (c :: s)

/-- Every class of the expression lies inside the class `q`. -/
def atomsIn (q : Char → Bool) (re : Regex) : Prop :=
  ∀ a ∈ re, match a with
    | Atom.cls p => ∀ c, p c = true → q c = true
    | Atom.opt p => ∀ c, p c = true → q c = true
    | Atom.rep p _ => ∀ c, p c = true → q c = true
    | Atom.wordB => True

/-- The two strings have the same length and, position by position, the
character of the second is the letter of the first in one of its two cases. -/
def ciEq : Str → Str → Bool
  | [], [] => true
  | a :: w, c :: r => isCharCI a c && ciEq w r
  | _, _ => false

/-- The string goes on with the letters of `w`, in any case, and then with a
word boundary; `prev` is the character before. -/
def ciPrefixEnd : Str → Option Char → Str → Bool
  | [], prev, s => isWordAt prev != isWordAt s.head?
  | _ :: _, _, [] => false
  | a :: w, _, c :: t => isCharCI a c && ciPrefixEnd w (some c) t

/-- A non-empty word of characters whose two cases are word characters. -/
def wordLike (w : Str) : Bool :=
  !w.isEmpty && w.all (fun a => isWordChar (asciiLowerChar a) && isWordChar (asciiUpperChar a))

/-- The word `w` occurs in the string as a whole word, in any case; `b` tells
whether the character before the string is a word character. -/
def hasWord (w : Str) : Bool → Str → Bool
  | _, [] => false
  | b, c :: t => (!b && ciEq w ((c :: t).takeWhile isWordChar)) || hasWord w (isWordChar c) t

/-- Every whitespace character of the string is a plain space, and it is not
followed by whitespace. -/
def weakOK : Str → Bool
  | [] => true
  | c :: t =>
    (if isSpace c then
      c == ' ' && (match t with
        | d :: _ => !isSpace d
        | [] => true)
    else true) && weakOK t

/-- The tagger's output is not empty and the tag of its first token is
`B-LOC`, in the words of the specification. -/
def firstIsLoc : List Token → Bool
  | [] => false
  | e :: _ => decide (e.entity = "B-LOC".toList)

/-- The token has a Begin tag at position 1: its tag starts with `"B-"` and
its index is 1. -/
def beginsLine (e : Token) : Bool :=
  startsWith e.entity "B-".toList && e.index == 1

/-! ## The handler of `POST /extract` -/

/-- A JSON value. -/
inductive Json where
  | null
  | bool (b : Bool)
  | num (n : ℚ)
  | str (s : Str)
  | arr (items : List Json)
  | obj (fields : List (Str × Json))

/-- The value `req.body` when the handler runs: the JSON text parsed by
`bodyParser.json()`, an object or an array, or `undefined` when the request
carried no JSON body and the parser left `req.body` unset. -/
inductive Body where
  | undefined
  | obj (fields : List (Str × Json))
  | arr (items : List Json)

/-- The property `ocrLines` of the body, `none` being `undefined`; of two
entries with the same key `JSON.parse` keeps the last; the body `undefined`
has no property to read. -/
def ocrLinesOf : Body → Option Json
  | Body.undefined => none
  | Body.obj fields =>
    (fields.reverse.find? (fun kv => kv.1 == "ocrLines".toList)).map (fun kv => kv.2)
  | Body.arr _ => none

/-- The conversion of a JSON value to a boolean: `!v` is its negation. -/
def truthy : Json → Bool
  | Json.null => false
  | Json.bool b => b
  | Json.num n => n != 0
  | Json.str s => !s.isEmpty
  | Json.arr _ => true
  | Json.obj _ => true

/-- The call `Array.isArray(v)`. -/
def isArray : Json → Bool
  | Json.arr _ => true
  | _ => false

/-- The elements of an array; the handler only reads them after
`Array.isArray`. -/
def itemsOf : Json → List Json
  | Json.arr items => items
  | _ => []

/-- The body of a response: an error message or a result. -/
inductive Payload (ρ : Type) where
  | error (message : Str)
  | result (r : ρ)
  deriving DecidableEq

/-- A response: its status and its JSON body. -/
structure Response (ρ : Type) where
  status : Nat
  payload : Payload ρ
  deriving DecidableEq

/-- The handler of `POST /extract`; `run` is the call `re(ocrLines)`, `none`
being a call that throws, which the `catch` turns into the status 500.  On the
body `undefined` the statement `const { ocrLines } = req.body` throws inside
the `try`, and the `catch` answers as well. -/
def extractHandler {ρ : Type} (run : List Json → Option ρ) (body : Body) : Response ρ :=
  match body, ocrLinesOf body with
  | Body.undefined, _ => ⟨500, Payload.error "Internal server error".toList⟩
  | _, none => ⟨400, Payload.error "ocrLines must be an array".toList⟩
  | _, some ocrLines =>
    if !truthy ocrLines || !isArray ocrLines then
      ⟨400, Payload.error "ocrLines must be an array".toList⟩
    else
      match run (itemsOf ocrLines) with
      | some result => ⟨200, Payload.result result⟩
      | none => ⟨500, Payload.error "Internal server error".toList⟩

/-- The elements of an array when all of them are strings. -/
def stringsOf : List Json → Option (List Str)
  | [] => some []
  | Json.str s :: rest => (stringsOf rest).map (fun lines => s :: lines)
  | _ :: _ => none

/-- The call `re(ocrLines)` of the handler: `re` on an array of strings; what
the call does on an array with other elements is the parameter `other`. -/
def reCall (lc : Str → Str) (ner : Str → Option (List Token))
    (other : List Json → Option Result) (ocrLines : List Json) : Option Result :=
  match stringsOf ocrLines with
  | some lines => re lc ner lines
  | none => other ocrLines

/-- A tagger that fails on the line "Acme Corp" and is `cardTagger` on every
other text. -/
def failingTagger (text : Str) : Option (List Token) :=
  if text = "Acme Corp".toList then none else some (cardTagger text)

/-- The scan of `s.match(re)` for a global regular expression: the matched
pieces, found as `replace` finds them. -/
def matchesGo (re : Regex) : Nat → Option Char → Str → List Str
  | _, prev, [] =>
    match matchAt re prev [] with
    | some _ => [[]]
    | none => []
  | skip + 1, _, c :: t => matchesGo re skip (some c) t
  | 0, prev, c :: t =>
    match matchAt re prev (c :: t) with
    | some 0 => [] :: matchesGo re 0 (some c) t
    | some (n + 1) => (c :: t).take (n + 1) :: matchesGo re n (some c) t
    | none => matchesGo re 0 (some c) t

/-- The pieces of `s` that `s.replace(re, repl)` replaces, for a global
regular expression: the matches of `s.match(re)`. -/
def matchesOf (re : Regex) (s : Str) : List Str :=
  matchesGo re 0 none s

/-- The value of `line` in `cleanName` when it reaches the rule for telephone
numbers: after the rules for e-mail addresses, `http(s)://` addresses and
`www.` hosts. -/
def beforePhone (line : Str) : Str :=
  replaceAll wwwRe [] (replaceAll urlRe [] (replaceAll emailRe [] line))

/-! # Properties -/

theorem isInside_of_isBegin {T : Str} {e : Token} (h : isBegin T e = true) :
    isInside T e = false := by
  unfold isBegin startsWith at h
  unfold isInside startsWith
  cases he : e.entity with
  | nil => simp [he] at h
  | cons c t =>
    rw [he] at h
    simp at h
    obtain ⟨h1, _⟩ := h
    subst h1
    simp [List.isPrefixOf]

theorem appendToLast_ne_nil {toks : List Str} (frag : Str) (h : toks ≠ []) :
    appendToLast toks frag ≠ [] := by
  unfold appendToLast
  cases hl : toks.getLast? with
  | none => simpa using h
  | some last => simp

theorem absorbWord_ne_nil {toks : List Str} (e : Token) (h : toks ≠ []) :
    absorbWord toks e ≠ [] := by
  unfold absorbWord
  split
  · exact appendToLast_ne_nil _ h
  · simp

theorem spanGroups_dropWhile (T : Str) (ts : List Token) :
    spanGroups T (ts.dropWhile (isInside T)) = spanGroups T ts := by
  induction ts with
  | nil => rfl
  | cons e rest ih =>
    by_cases hi : isInside T e = true
    · have hb : isBegin T e = false := by
        cases hb : isBegin T e with
        | false => rfl
        | true => rw [isInside_of_isBegin hb] at hi; cases hi
      simp [List.dropWhile, hi, ih, spanGroups, hb]
    · simp [List.dropWhile, hi]

/-- The loop of `mergeEntities` from any state: the open span, if any, takes
the Inside tokens that come first, and the rest gives the spans of its own
groups. -/
theorem mergeFinish_foldl {α : Type} (close : List Str → List ℚ → α) (T : Str)
    (ts : List Token) (st : MergeState α) :
    mergeFinish close (ts.foldl (mergeStep close T) st) =
      if st.currentTokens = [] then
        st.results ++ (spanGroups T ts).map (closeGroup close)
      else
        st.results ++
          close ((ts.takeWhile (isInside T)).foldl absorbWord st.currentTokens)
            (st.currentScores ++ (ts.takeWhile (isInside T)).map (fun e => e.score)) ::
          (spanGroups T (ts.dropWhile (isInside T))).map (closeGroup close) := by
  induction ts generalizing st with
  | nil =>
    cases hc : st.currentTokens with
    | nil => simp [mergeFinish, hc, spanGroups]
    | cons a l => simp [mergeFinish, hc, spanGroups]
  | cons e rest ih =>
    rw [List.foldl_cons, ih]
    by_cases hb : isBegin T e = true
    · have hi := isInside_of_isBegin hb
      cases hc : st.currentTokens with
      | nil =>
        simp [mergeStep, hb, hc, spanGroups, closeGroup, groupWords, spanGroups_dropWhile]
      | cons a l =>
        simp [mergeStep, hb, hc, hi, spanGroups, closeGroup, groupWords, spanGroups_dropWhile]
    · by_cases hi : isInside T e = true
      · cases hc : st.currentTokens with
        | nil =>
          simp [mergeStep, hb, hc, hi, spanGroups]
        | cons a l =>
          have hne : absorbWord (a :: l) e ≠ [] := absorbWord_ne_nil e (by simp)
          have hstep : mergeStep close T st e =
              { results := st.results, currentTokens := absorbWord (a :: l) e,
                currentScores := st.currentScores ++ [e.score] } := by
            simp [mergeStep, hb, hi, hc, absorbWord]
          rw [hstep]
          simp [hne, hi, List.takeWhile, List.dropWhile]
      · cases hc : st.currentTokens with
        | nil =>
          simp [mergeStep, hb, hc, hi, spanGroups]
        | cons a l =>
          simp [mergeStep, hb, hc, hi, spanGroups, List.takeWhile, List.dropWhile]

/-- The spans of `mergeEntities` are its groups, closed one by one. -/
theorem mergeWith_eq_groups {α : Type} (close : List Str → List ℚ → α) (ts : List Token)
    (T : Str) : mergeWith close ts T = (spanGroups T ts).map (closeGroup close) := by
  unfold mergeWith
  rw [mergeFinish_foldl]
  simp

theorem takeWhile_append_of_not {α : Type} (p : α → Bool) (xs ys : List α) (o : α)
    (h : p o = false) : (xs ++ o :: ys).takeWhile p = xs.takeWhile p := by
  induction xs with
  | nil => simp [List.takeWhile, h]
  | cons x xs ih =>
    by_cases hx : p x = true
    · simp [List.takeWhile, hx, ih]
    · simp [List.takeWhile, hx]

theorem spanGroups_append (T : Str) (xs ys : List Token) (o : Token)
    (hb : isBegin T o = false) (hi : isInside T o = false) :
    spanGroups T (xs ++ o :: ys) = spanGroups T xs ++ spanGroups T ys := by
  induction xs with
  | nil => simp [spanGroups, hb]
  | cons x xs ih =>
    by_cases hx : isBegin T x = true
    · simp [spanGroups, hx, ih, takeWhile_append_of_not _ _ _ _ hi]
    · simp [spanGroups, hx, ih]

/-- C2: a token whose tag starts neither with "B-"+T nor with "I-"+T splits
the sequence: the spans of `xs ++ [o] ++ ys` are the spans of `xs` followed by
the spans of `ys`, each side built and scored on its own. -/
theorem mergeEntities_split (T : Str) (xs ys : List Token) (o : Token)
    (hb : isBegin T o = false) (hi : isInside T o = false) :
    mergeEntities (xs ++ [o] ++ ys) T = mergeEntities xs T ++ mergeEntities ys T := by
  unfold mergeEntities
  rw [mergeWith_eq_groups, mergeWith_eq_groups, mergeWith_eq_groups, List.append_assoc,
    List.singleton_append, spanGroups_append T xs ys o hb hi, List.map_append]

/-- C2 at the tokens B-ORG "Acme", O "the", B-ORG "Globex": two spans, "Acme"
and "Globex", each with the confidence of its own token. -/
theorem mergeEntities_split_witness :
    (isBegin "ORG".toList ⟨"O".toList, "the".toList, 1 / 2, 2⟩ = false ∧
      isInside "ORG".toList ⟨"O".toList, "the".toList, 1 / 2, 2⟩ = false) ∧
    mergeEntities ([⟨"B-ORG".toList, "Acme".toList, 9 / 10, 1⟩] ++
        [⟨"O".toList, "the".toList, 1 / 2, 2⟩] ++
        [⟨"B-ORG".toList, "Globex".toList, 4 / 5, 3⟩]) "ORG".toList =
      mergeEntities [⟨"B-ORG".toList, "Acme".toList, 9 / 10, 1⟩] "ORG".toList ++
        mergeEntities [⟨"B-ORG".toList, "Globex".toList, 4 / 5, 3⟩] "ORG".toList ∧
    mergeEntities [⟨"B-ORG".toList, "Acme".toList, 9 / 10, 1⟩] "ORG".toList ++
        mergeEntities [⟨"B-ORG".toList, "Globex".toList, 4 / 5, 3⟩] "ORG".toList =
      [⟨"Acme".toList, 9 / 10⟩, ⟨"Globex".toList, 4 / 5⟩] :=
  ⟨⟨by decide, by decide⟩,
    mergeEntities_split "ORG".toList _ _ _ (by decide) (by decide), by decide!⟩

theorem foldl_add_eq_sum (l : List ℚ) (a : ℚ) :
    l.foldl (fun a b => a + b) a = a + l.sum := by
  induction l generalizing a with
  | nil => simp
  | cons x l ih => simp [ih, add_assoc]

theorem spanScore_eq (l : List ℚ) : spanScore l = l.sum / (l.length : ℚ) := by
  simp [spanScore, foldl_add_eq_sum]

theorem spanGroups_shape (T : Str) (ts : List Token) :
    ∀ g ∈ spanGroups T ts, ∃ b inside, g = b :: inside ∧ isBegin T b = true ∧
      ∀ e ∈ inside, isInside T e = true := by
  induction ts with
  | nil => simp [spanGroups]
  | cons x xs ih =>
    intro g hg
    by_cases hx : isBegin T x = true
    · simp only [spanGroups, hx, if_true, List.mem_cons] at hg
      rcases hg with rfl | hg
      · exact ⟨x, _, rfl, hx, fun e he => (List.mem_takeWhile_imp he)⟩
      · exact ih g hg
    · simp only [spanGroups, hx] at hg
      exact ih g hg

/-- C3: the scores of the spans of `mergeEntities` are, span by span, the
arithmetic means of the confidences of the tokens of the span, sum over count,
where the tokens of a span are its Begin token and the Inside tokens that
follow it directly (a group is never empty). -/
theorem mergeEntities_score_mean (ts : List Token) (T : Str) :
    (mergeEntities ts T).map (fun s => s.score) =
        (spanGroups T ts).map
          (fun g => (g.map (fun e => e.score)).sum / (g.length : ℚ)) ∧
      ∀ g ∈ spanGroups T ts, ∃ b inside, g = b :: inside ∧ isBegin T b = true ∧
        ∀ e ∈ inside, isInside T e = true := by
  refine ⟨?_, spanGroups_shape T ts⟩
  unfold mergeEntities
  rw [mergeWith_eq_groups, List.map_map]
  apply List.map_congr_left
  intro g _
  simp [closeGroup, closeSpan, spanScore_eq]

theorem openAfter_nil (T : Str) : openAfter T [] = false := rfl

theorem openAfter_snoc (T : Str) (ts : List Token) (e : Token) :
    openAfter T (ts ++ [e]) = (isBegin T e || (isInside T e && openAfter T ts)) := by
  unfold openAfter
  rw [List.reverse_append]
  by_cases hi : isInside T e = true
  · have hb : isBegin T e = false := by
      cases hb : isBegin T e with
      | false => rfl
      | true => rw [isInside_of_isBegin hb] at hi; cases hi
    simp [List.dropWhile, hi, hb]
  · simp [List.dropWhile, hi]

theorem orphanAt_snoc_lt (T : Str) (ts : List Token) (e : Token) (i : Nat)
    (h : i < ts.length) : orphanAt T (ts ++ [e]) i = orphanAt T ts i := by
  unfold orphanAt
  rw [List.getElem?_append_left h, List.take_append_of_le_length (Nat.le_of_lt h)]

theorem orphanAt_snoc_length (T : Str) (ts : List Token) (e : Token) :
    orphanAt T (ts ++ [e]) ts.length = (isInside T e && !openAfter T ts) := by
  unfold orphanAt
  simp

theorem orphanCount_snoc (T : Str) (ts : List Token) (e : Token) :
    orphanCount T (ts ++ [e]) =
      orphanCount T ts + (if (isInside T e && !openAfter T ts) = true then 1 else 0) := by
  unfold orphanCount
  rw [List.length_append, List.length_singleton, List.range_succ, List.filter_append,
    List.length_append]
  congr 1
  · congr 1
    apply List.filter_congr
    intro i hi
    exact orphanAt_snoc_lt T ts e i (List.mem_range.mp hi)
  · simp only [List.filter_cons, List.filter_nil, orphanAt_snoc_length]
    split <;> simp

theorem otherCount_snoc (T : Str) (ts : List Token) (e : Token) :
    otherCount T (ts ++ [e]) =
      otherCount T ts + (if (!isBegin T e && !isInside T e) = true then 1 else 0) := by
  unfold otherCount
  rw [List.filter_append, List.length_append]
  congr 1
  simp only [List.filter_cons, List.filter_nil]
  split <;> simp

/-- The loop of `mergeEntities` with the number of confidences of a span in
place of the span: after any tokens, a span is open exactly when the tokens
leave one open, and every token is counted once. -/
theorem count_invariant (T : Str) (ts : List Token) :
    let st := ts.foldl (mergeStep (fun (_ : List Str) (sc : List ℚ) => sc.length) T) ⟨[], [], []⟩
    (st.currentTokens ≠ [] ↔ openAfter T ts = true) ∧
      (st.currentTokens = [] → st.currentScores = []) ∧
      st.results.sum + st.currentScores.length + otherCount T ts + orphanCount T ts =
        ts.length := by
  induction ts using List.reverseRecOn with
  | nil => simp [openAfter, otherCount, orphanCount]
  | append_singleton ts e ih =>
    simp only [List.foldl_append, List.foldl_cons, List.foldl_nil]
    generalize ts.foldl (mergeStep (fun (_ : List Str) (sc : List ℚ) => sc.length) T)
      ⟨[], [], []⟩ = st at ih
    obtain ⟨hopen, hnil, hcount⟩ := ih
    rw [openAfter_snoc, orphanCount_snoc, otherCount_snoc, List.length_append,
      List.length_singleton]
    by_cases hb : isBegin T e = true
    · have hi := isInside_of_isBegin hb
      cases hc : st.currentTokens with
      | nil =>
        have := hnil hc
        simp [mergeStep, hb, hi, hc] 
        simp [this] at hcount
        omega
      | cons a l =>
        simp [mergeStep, hb, hi, hc]
        omega
    · by_cases hi : isInside T e = true
      · cases hc : st.currentTokens with
        | nil =>
          have h1 := hnil hc
          have h2 : openAfter T ts = false := by
            cases ho : openAfter T ts with
            | false => rfl
            | true => exact absurd hc (hopen.mpr ho)
          simp [mergeStep, hb, hi, hc, h2]
          simp [h1] at hcount
          refine ⟨h1, ?_⟩
          simp [h1]
          omega
        | cons a l =>
          have h2 : openAfter T ts = true := hopen.mp (by simp [hc])
          have hne : absorbWord (a :: l) e ≠ [] := absorbWord_ne_nil e (by simp)
          have hstep : mergeStep (fun (_ : List Str) (sc : List ℚ) => sc.length) T st e =
              { results := st.results, currentTokens := absorbWord (a :: l) e,
                currentScores := st.currentScores ++ [e.score] } := by
            simp [mergeStep, hb, hi, hc, absorbWord]
          rw [hstep]
          simp [hb, hi, h2, hne]
          omega
      · cases hc : st.currentTokens with
        | nil =>
          have h1 := hnil hc
          simp [mergeStep, hb, hi, hc]
          simp [h1] at hcount
          refine ⟨h1, ?_⟩
          simp [h1]
          omega
        | cons a l =>
          simp [mergeStep, hb, hi, hc]
          omega

/-- C4, as amended: every token is absorbed into one span, or its tag is not
of the type, or it is an Inside token of the type that arrives while no span
is open (no Begin token of the type before it, or a token that is not of the
type between the last Begin token and it): the three counts add up to the
length of the sequence. -/
theorem mergeEntities_token_count (ts : List Token) (T : Str) :
    absorbedCount ts T + otherCount T ts + orphanCount T ts = ts.length := by
  have h := count_invariant T ts
  simp only at h
  obtain ⟨_, hnil, hcount⟩ := h
  unfold absorbedCount mergeWith mergeFinish
  generalize ts.foldl (mergeStep (fun (_ : List Str) (sc : List ℚ) => sc.length) T)
    ⟨[], [], []⟩ = st at hnil hcount
  cases hc : st.currentTokens with
  | nil =>
    have h1 := hnil hc
    simp [h1] at hcount
    simp
    omega
  | cons a l =>
    simp
    omega

/-- C4 fails as stated: in B-ORG "a", O "x", I-ORG "b" the last token is of
the type and comes after the first Begin token, yet no span absorbs it: one
token absorbed, one of another type, none before the first Begin token, out of
three. -/
theorem mergeEntities_token_count_counterexample :
    absorbedCount
        [⟨"B-ORG".toList, "a".toList, 1, 1⟩, ⟨"O".toList, "x".toList, 1, 2⟩,
          ⟨"I-ORG".toList, "b".toList, 1, 3⟩] "ORG".toList +
      otherCount "ORG".toList
        [⟨"B-ORG".toList, "a".toList, 1, 1⟩, ⟨"O".toList, "x".toList, 1, 2⟩,
          ⟨"I-ORG".toList, "b".toList, 1, 3⟩] +
      leadingCount "ORG".toList
        [⟨"B-ORG".toList, "a".toList, 1, 1⟩, ⟨"O".toList, "x".toList, 1, 2⟩,
          ⟨"I-ORG".toList, "b".toList, 1, 3⟩] ≠
    [(⟨"B-ORG".toList, "a".toList, 1, 1⟩ : Token), ⟨"O".toList, "x".toList, 1, 2⟩,
      ⟨"I-ORG".toList, "b".toList, 1, 3⟩].length := by
  decide

theorem lineStep_eq (lc : Str → Str) (tag : Str → List Token) (ex : Extracted) (line : Str) :
    lineStep lc ex line (tag line) =
      { persons := ex.persons ++ [line].filter
          (fun line => dominantType (tag line) = some "PER".toList)
        companies := ex.companies ++ [line].filter
          (fun line => dominantType (tag line) = some "ORG".toList)
        locations := ex.locations ++ [line].filter (toLocations lc tag)
        designations := ex.designations ++ [line].filter (toDesignations lc tag) } := by
  have e1 : ("PER".toList : Str) = ['P', 'E', 'R'] := rfl
  have e2 : ("ORG".toList : Str) = ['O', 'R', 'G'] := rfl
  unfold lineStep toLocations toDesignations
  rw [e1, e2]
  by_cases hp : dominantType (tag line) = some ['P', 'E', 'R']
  · by_cases h1 : startsWithLoc (tag line) = true
    · simp [hp, h1, List.filter]
    · by_cases h2 : isDesignation lc line = true
      · simp [hp, h1, h2, List.filter]
      · by_cases h3 : isAddress lc line = true <;> simp [hp, h1, h2, h3, List.filter]
  · by_cases ho : dominantType (tag line) = some ['O', 'R', 'G']
    · by_cases h1 : startsWithLoc (tag line) = true
      · simp [ho, h1, List.filter]
      · by_cases h2 : isDesignation lc line = true
        · simp [ho, h1, h2, List.filter]
        · by_cases h3 : isAddress lc line = true <;> simp [ho, h1, h2, h3, List.filter]
    · by_cases h1 : startsWithLoc (tag line) = true
      · simp [hp, ho, h1, List.filter]
      · by_cases h2 : isDesignation lc line = true
        · simp [hp, ho, h1, h2, List.filter]
        · by_cases h3 : isAddress lc line = true <;> simp [hp, ho, h1, h2, h3, List.filter]

/-- The loop of `re` over the lines, for a tagger that never fails: it ends,
and each bucket has received its lines in order. -/
theorem scanLines_total (lc : Str → Str) (tag : Str → List Token) (lines : List Str)
    (ex : Extracted) :
    scanLines lc (totalTagger tag) ex lines =
      some
        { persons := ex.persons ++ (bucketsOf lc tag lines).persons
          companies := ex.companies ++ (bucketsOf lc tag lines).companies
          locations := ex.locations ++ (bucketsOf lc tag lines).locations
          designations := ex.designations ++ (bucketsOf lc tag lines).designations } := by
  induction lines generalizing ex with
  | nil => simp [scanLines, bucketsOf]
  | cons line rest ih =>
    simp only [scanLines, totalTagger]
    have h := ih (lineStep lc ex line (tag line))
    simp only [totalTagger] at h
    rw [h, lineStep_eq]
    simp only [bucketsOf, List.append_assoc, ← List.filter_append, List.singleton_append]

/-- The function `re` for a tagger that never fails: it returns, and its
fields are read off the buckets. -/
theorem re_total (lc : Str → Str) (tag : Str → List Token) (lines : List Str) :
    re lc (totalTagger tag) lines =
      some
        { name := cleanName (bucketsOf lc tag lines).persons.head?
          company := resCompany (bucketsOf lc tag lines).companies
            (mergedCompaniesOf (tag (join [' '] (bucketsOf lc tag lines).companies)))
          address := (bucketsOf lc tag lines).locations
          designation := (bucketsOf lc tag lines).designations } := by
  unfold re
  rw [scanLines_total]
  simp [totalTagger]

/-- C6: when exactly one line has dominant type "ORG", `re` returns and its
company is that line verbatim, whatever the tagger returns for the joined
companies text. -/
theorem re_single_company (lc : Str → Str) (tag : Str → List Token) (lines : List Str)
    (l : Str)
    (h : lines.filter (fun line => dominantType (tag line) = some "ORG".toList) = [l]) :
    ∃ r, re lc (totalTagger tag) lines = some r ∧ r.company = some l := by
  refine ⟨_, re_total lc tag lines, ?_⟩
  simp only [bucketsOf, h, resCompany]
  simp

/-- C6 on the card of the end-to-end scenario: "Acme Corp" is the only line
of dominant type "ORG" and is the company returned. -/
theorem re_single_company_witness :
    cardLines.filter (fun line => dominantType (cardTagger line) = some "ORG".toList) =
        ["Acme Corp".toList] ∧
      ∃ r, re asciiLower (totalTagger cardTagger) cardLines = some r ∧
        r.company = some "Acme Corp".toList :=
  ⟨by decide!, re_single_company asciiLower cardTagger cardLines "Acme Corp".toList (by decide!)⟩

/-- C5 at the lines "Acme" and "Globex": two lines go to companies, the
spans of the joined text are "Acme" with score 1/2 and "Globex" with score
9/10, the loop over the spans finds "Globex" as `bestCompany`, and `re`
returns "Acme", the first span, as the company. -/
theorem re_company_first_not_best :
    (bucketsOf asciiLower twoCompanyTagger ["Acme".toList, "Globex".toList]).companies =
        ["Acme".toList, "Globex".toList] ∧
      mergeEntities (twoCompanyTagger "Acme Globex".toList) "ORG".toList =
        [⟨"Acme".toList, 1 / 2⟩, ⟨"Globex".toList, 9 / 10⟩] ∧
      bestCompany (mergeEntities (twoCompanyTagger "Acme Globex".toList) "ORG".toList) =
        "Globex".toList ∧
      (re asciiLower (totalTagger twoCompanyTagger) ["Acme".toList, "Globex".toList]).map
        (fun r => r.company) = some (some "Acme".toList) := by
  decide!

theorem includes_iff (s pat : Str) : includes s pat = true ↔ pat <:+: s := by
  induction s with
  | nil => simp [includes, List.isEmpty_iff]
  | cons c t ih =>
    rw [includes, Bool.or_eq_true, ih, List.infix_cons_iff, List.isPrefixOf_iff_prefix]

theorem matchAt_cls_single (p : Char → Bool) (prev : Option Char) (s : Str) :
    (matchAt [Atom.cls p] prev s).isSome = (s.head?.map p == some true) := by
  cases s with
  | nil => simp [matchAt]
  | cons c t =>
    by_cases h : p c = true <;> simp [matchAt, h]

theorem testGo_cls_single (p : Char → Bool) (prev : Option Char) (s : Str) :
    testGo [Atom.cls p] prev s = s.any p := by
  induction s generalizing prev with
  | nil => simp [testGo, matchAt]
  | cons c t ih =>
    rw [testGo, ih, matchAt_cls_single]
    by_cases h : p c = true <;> simp [h]

theorem isDigit_iff (c : Char) : isDigit c = true ↔ c ∈ "0123456789".toList := by
  constructor
  · intro h
    simp only [isDigit, Bool.and_eq_true, decide_eq_true_eq] at h
    obtain ⟨h1, h2⟩ := h
    have hc : c = Char.ofNat c.toNat := by simp
    rw [hc]
    generalize c.toNat = n at h1 h2
    interval_cases n <;> decide
  · intro h
    simp at h
    rcases h with h | h | h | h | h | h | h | h | h | h <;> subst h <;> decide

/-- C10: `isAddress(line)` is true exactly when the line contains a digit 0-9
and the lower-cased line contains one of the ten address keywords; and the
line "123 Main Street, Sector 5" is an address. -/
theorem isAddress_iff (lc : Str → Str) (line : Str) :
    (isAddress lc line = true ↔
      (∃ c ∈ line, c ∈ "0123456789".toList) ∧
        ∃ k ∈ ["road".toList, "phase".toList, "sector".toList, "street".toList,
            "extn".toList, "block".toList, "complex".toList, "tower".toList,
            "floor".toList, "plot".toList],
          k <:+: lc line) ∧
      isAddress asciiLower "123 Main Street, Sector 5".toList = true := by
  refine ⟨?_, by decide⟩
  unfold isAddress
  simp only [Bool.and_eq_true, test, digitRe, testGo_cls_single, List.any_eq_true,
    isDigit_iff, includes_iff, addressKeywords]

/-! ## The scan of `replace` -/

theorem lastOf_nil (prev : Option Char) : lastOf prev [] = prev := rfl

theorem lastOf_cons (prev : Option Char) (c : Char) (l : Str) :
    lastOf prev (c :: l) = lastOf (some c) l := by
  cases l with
  | nil => rfl
  | cons d l =>
    have h : ∃ x, (d :: l).getLast? = some x := by
      cases hx : (d :: l).getLast? with
      | none => simp at hx
      | some x => exact ⟨x, rfl⟩
    obtain ⟨x, hx⟩ := h
    simp [lastOf, List.getLast?_cons_cons, hx]

/-- Dropping the characters of a match: the scan goes on after them. -/
theorem replaceGo_skip (re : Regex) (repl : Str) (n : Nat) (prev : Option Char) (s : Str) :
    replaceGo re repl n prev s = replaceGo re repl 0 (lastOf prev (s.take n)) (s.drop n) := by
  induction n generalizing prev s with
  | zero => simp [lastOf_nil]
  | succ n ih =>
    cases s with
    | nil => simp [replaceGo, lastOf_nil]
    | cons c t => rw [replaceGo, ih, List.take_succ_cons, List.drop_succ_cons, lastOf_cons]

/-- Induction along the scan of `replace`: an unmatched character is kept, a
match is replaced and the scan goes on after it. -/
theorem replaceGo_induction (re : Regex) (repl : Str)
    (P : Option Char → Str → Str → Prop)
    (hnil : ∀ prev, P prev [] (replaceGo re repl 0 prev []))
    (hnone : ∀ prev c t out, matchAt re prev (c :: t) = none → P (some c) t out →
      P prev (c :: t) (c :: out))
    (hzero : ∀ prev c t out, matchAt re prev (c :: t) = some 0 → P (some c) t out →
      P prev (c :: t) (repl ++ c :: out))
    (hsucc : ∀ prev c t n out, matchAt re prev (c :: t) = some (n + 1) →
      P (lastOf (some c) (t.take n)) (t.drop n) out → P prev (c :: t) (repl ++ out))
    (prev : Option Char) (s : Str) : P prev s (replaceGo re repl 0 prev s) := by
  generalize hlen : s.length = len
  induction len using Nat.strong_induction_on generalizing prev s with
  | _ len ih =>
    cases s with
    | nil => exact hnil prev
    | cons c t =>
      rw [replaceGo]
      cases hm : matchAt re prev (c :: t) with
      | none =>
        exact hnone prev c t _ hm (ih t.length (by simp [← hlen]) _ _ rfl)
      | some k =>
        cases k with
        | zero => exact hzero prev c t _ hm (ih t.length (by simp [← hlen]) _ _ rfl)
        | succ n =>
          simp only
          rw [replaceGo_skip]
          exact hsucc prev c t n _ hm
            (ih (t.drop n).length (by simp [← hlen]; omega) _ _ rfl)

/-- Where the expression matches nowhere, `replace` changes nothing. -/
theorem replaceGo_of_testGo_false (re : Regex) (repl : Str) (prev : Option Char) (s : Str)
    (h : testGo re prev s = false) : replaceGo re repl 0 prev s = s := by
  induction s generalizing prev with
  | nil =>
    simp only [testGo] at h
    cases hm : matchAt re prev [] with
    | none => simp [replaceGo, hm]
    | some n => simp [hm] at h
  | cons c t ih =>
    simp only [testGo, Bool.or_eq_false_iff] at h
    cases hm : matchAt re prev (c :: t) with
    | none => simp [replaceGo, hm, ih _ h.2]
    | some n => simp [hm] at h

theorem replaceAll_of_test_false (re : Regex) (repl : Str) (s : Str)
    (h : test re s = false) : replaceAll re repl s = s :=
  replaceGo_of_testGo_false re repl none s h

/-- Every character of the result of `replace` comes from the input or from
the replacement. -/
theorem mem_replaceGo (re : Regex) (repl : Str) (prev : Option Char) (s : Str) :
    ∀ x ∈ replaceGo re repl 0 prev s, x ∈ s ∨ x ∈ repl := by
  refine replaceGo_induction re repl (fun _ s out => ∀ x ∈ out, x ∈ s ∨ x ∈ repl)
    ?_ ?_ ?_ ?_ prev s
  · intro prev x hx
    rw [replaceGo] at hx
    split at hx
    · exact Or.inr hx
    · simp at hx
  · intro prev c t out _ ih x hx
    rcases List.mem_cons.mp hx with rfl | hx
    · simp
    · rcases ih x hx with h | h
      · exact Or.inl (List.mem_cons_of_mem _ h)
      · exact Or.inr h
  · intro prev c t out _ ih x hx
    rcases List.mem_append.mp hx with hx | hx
    · exact Or.inr hx
    · rcases List.mem_cons.mp hx with rfl | hx
      · simp
      · rcases ih x hx with h | h
        · exact Or.inl (List.mem_cons_of_mem _ h)
        · exact Or.inr h
  · intro prev c t n out _ ih x hx
    rcases List.mem_append.mp hx with hx | hx
    · exact Or.inr hx
    · rcases ih x hx with h | h
      · exact Or.inl (List.mem_cons_of_mem _ (List.mem_of_mem_drop h))
      · exact Or.inr h

theorem mem_replaceAll (re : Regex) (repl : Str) (s : Str) :
    ∀ x ∈ replaceAll re repl s, x ∈ s ∨ x ∈ repl :=
  mem_replaceGo re repl none s

theorem mem_trim (s : Str) : ∀ x ∈ trim s, x ∈ s := by
  intro x hx
  unfold trim at hx
  rw [List.mem_reverse] at hx
  have h1 := (List.dropWhile_sublist (p := isSpace) (l := (s.dropWhile isSpace).reverse)).subset hx
  rw [List.mem_reverse] at h1
  exact (List.dropWhile_sublist _).subset h1

/-- A greedy repetition that ends the expression takes the whole run of the
class, when the run is long enough. -/
theorem repGo_accept (p : Char → Bool) (m : Nat) (prev : Option Char) (s : Str) :
    repGo p (matchAt []) m prev s =
      if m ≤ (s.takeWhile p).length then some (s.takeWhile p).length else none := by
  induction s generalizing m prev with
  | nil => cases m <;> simp [repGo, matchAt]
  | cons c t ih =>
    by_cases hp : p c = true
    · simp only [repGo, hp, if_true, ih, List.takeWhile_cons_of_pos hp, List.length_cons]
      by_cases hm : m - 1 ≤ (t.takeWhile p).length
      · simp only [hm, if_true]
        have : m ≤ (t.takeWhile p).length + 1 := by omega
        simp [this]
      · simp only [hm, if_false]
        have h1 : ¬ m ≤ (t.takeWhile p).length + 1 := by omega
        have h2 : m ≠ 0 := by omega
        simp [h1, h2]
    · simp only [Bool.not_eq_true] at hp
      cases m <;> simp [repGo, hp, matchAt, List.takeWhile]

theorem matchAt_rep_single (p : Char → Bool) (m : Nat) (prev : Option Char) (s : Str) :
    matchAt [Atom.rep p m] prev s =
      if m ≤ (s.takeWhile p).length then some (s.takeWhile p).length else none := by
  rw [matchAt, repGo_accept]

/-! ## `cleanName`: digits -/

theorem replaceAll_digitsRe_no_digit (s : Str) :
    ∀ x ∈ replaceAll digitsRe [] s, isDigit x = false := by
  refine replaceGo_induction digitsRe [] (fun _ _ out => ∀ x ∈ out, isDigit x = false)
    ?_ ?_ ?_ ?_ none s
  · intro prev x hx
    simp [replaceGo, digitsRe, matchAt_rep_single] at hx
  · intro prev c t out hm ih x hx
    rcases List.mem_cons.mp hx with rfl | hx
    · simp only [digitsRe, matchAt_rep_single] at hm
      cases hd : isDigit x with
      | false => rfl
      | true => simp [List.takeWhile, hd] at hm
    · exact ih x hx
  · intro prev c t out hm
    simp only [digitsRe, matchAt_rep_single] at hm
    split at hm
    · simp only [Option.some.injEq] at hm
      omega
    · cases hm
  · intro prev c t n out _ ih x hx
    exact ih x (by simpa using hx)

theorem foldl_replaceAll_mem (words : List Str) (s : Str) :
    ∀ x ∈ words.foldl (fun line word => replaceAll (wordRe word) [] line) s, x ∈ s := by
  induction words generalizing s with
  | nil => intro x hx; exact hx
  | cons w ws ih =>
    intro x hx
    have h := ih _ x hx
    rcases mem_replaceAll _ _ _ x h with h | h
    · exact h
    · simp at h

theorem cleanSteps_no_digit (s : Str) : ∀ x ∈ cleanSteps s, isDigit x = false := by
  intro x hx
  unfold cleanSteps at hx
  simp only at hx
  have h1 := mem_trim _ x hx
  rcases mem_replaceAll _ _ _ x h1 with h2 | h2
  · exact replaceAll_digitsRe_no_digit _ x (foldl_replaceAll_mem _ _ x h2)
  · simp only [List.mem_singleton] at h2
    subst h2
    decide

theorem cleanName_all_no_digit (x : Option Str) : ∀ c ∈ cleanName x, isDigit c = false := by
  intro c hc
  cases x with
  | none => simp [cleanName] at hc
  | some line =>
    simp only [cleanName] at hc
    split at hc
    · simp at hc
    · exact cleanSteps_no_digit line c hc

/-- C9: the output of `cleanName` contains no digit 0-9, for every input, and
so the name returned by `re` contains no digit, for every tagger and all
lines. -/
theorem cleanName_no_digit (x : Option Str) (lc : Str → Str)
    (ner : Str → Option (List Token)) (lines : List Str) (r : Result) :
    (∀ c ∈ cleanName x, c ∉ "0123456789".toList) ∧
      (re lc ner lines = some r → ∀ c ∈ r.name, c ∉ "0123456789".toList) := by
  constructor
  · intro c hc hd
    have := cleanName_all_no_digit x c hc
    rw [(isDigit_iff c).mpr hd] at this
    cases this
  · intro hr c hc hd
    unfold re at hr
    split at hr
    · cases hr
    · simp only at hr
      split at hr
      · cases hr
      · simp only [Option.some.injEq] at hr
        subst hr
        have := cleanName_all_no_digit _ c hc
        rw [(isDigit_iff c).mpr hd] at this
        cases this

/-- C9 on the card of the end-to-end scenario, and on a line of digits and
letters. -/
theorem cleanName_no_digit_witness :
    re asciiLower (totalTagger cardTagger) cardLines = some cardResult ∧
      (∀ c ∈ cleanName (some "J0hn 42 Sm1th".toList), c ∉ "0123456789".toList) ∧
      ∀ c ∈ cardResult.name, c ∉ "0123456789".toList :=
  ⟨by decide!,
    (cleanName_no_digit (some "J0hn 42 Sm1th".toList) asciiLower (totalTagger cardTagger)
      cardLines cardResult).1,
    (cleanName_no_digit (some "J0hn 42 Sm1th".toList) asciiLower (totalTagger cardTagger)
      cardLines cardResult).2 (by decide!)⟩

/-! ## What a match needs -/

theorem repGo_none_of {q : Char → Bool} (p : Char → Bool)
    (k : Option Char → Str → Option Nat)
    (hk : ∀ prev s, (∀ c ∈ s, q c = false) → k prev s = none)
    (m : Nat) (prev : Option Char) (s : Str) (hs : ∀ c ∈ s, q c = false) :
    repGo p k m prev s = none := by
  induction s generalizing m prev with
  | nil => simp [repGo, hk prev [] hs]
  | cons c t ih =>
    have ht : ∀ x ∈ t, q x = false := fun x hx => hs x (List.mem_cons_of_mem _ hx)
    simp [repGo, ih _ _ ht, hk prev (c :: t) hs]

/-- An expression with a one-character atom of class `q` matches nowhere in a
string without a character of that class. -/
theorem matchAt_none_of_cls {q : Char → Bool} (re : Regex) (hq : Atom.cls q ∈ re)
    (prev : Option Char) (s : Str) (hs : ∀ c ∈ s, q c = false) :
    matchAt re prev s = none := by
  induction re generalizing prev s with
  | nil => simp at hq
  | cons a r ih =>
    cases a with
    | cls p =>
      cases s with
      | nil => simp [matchAt]
      | cons c t =>
        have ht : ∀ x ∈ t, q x = false := fun x hx => hs x (List.mem_cons_of_mem _ hx)
        rcases List.mem_cons.mp hq with h | h
        · have hpq : q = p := by injection h
          subst hpq
          simp [matchAt, hs c (List.mem_cons_self _ _)]
        · simp [matchAt, ih h _ t ht]
    | opt p =>
      have hr : Atom.cls q ∈ r := by
        rcases List.mem_cons.mp hq with h | h
        · cases h
        · exact h
      cases s with
      | nil => simp [matchAt, ih hr _ [] hs]
      | cons c t =>
        have ht : ∀ x ∈ t, q x = false := fun x hx => hs x (List.mem_cons_of_mem _ hx)
        simp [matchAt, ih hr _ t ht, ih hr _ (c :: t) hs]
    | rep p m =>
      have hr : Atom.cls q ∈ r := by
        rcases List.mem_cons.mp hq with h | h
        · cases h
        · exact h
      rw [matchAt]
      exact repGo_none_of p _ (fun prev s hs => ih hr prev s hs) m prev s hs
    | wordB =>
      have hr : Atom.cls q ∈ r := by
        rcases List.mem_cons.mp hq with h | h
        · cases h
        · exact h
      simp [matchAt, ih hr prev s hs]

theorem testGo_false_of_cls {q : Char → Bool} (re : Regex) (hq : Atom.cls q ∈ re)
    (prev : Option Char) (s : Str) (hs : ∀ c ∈ s, q c = false) :
    testGo re prev s = false := by
  induction s generalizing prev with
  | nil => simp [testGo, matchAt_none_of_cls re hq prev [] hs]
  | cons c t ih =>
    have ht : ∀ x ∈ t, q x = false := fun x hx => hs x (List.mem_cons_of_mem _ hx)
    simp [testGo, matchAt_none_of_cls re hq prev (c :: t) hs, ih _ ht]

/-! ## Whitespace in normal form -/

theorem replaceGo_spacesRe_of_spaceOK (prev : Option Char) (s : Str)
    (h : spaceOK s = true) : replaceGo spacesRe [' '] 0 prev s = s := by
  induction s generalizing prev with
  | nil => simp [replaceGo, spacesRe, matchAt_rep_single]
  | cons c t ih =>
    simp only [spaceOK, Bool.and_eq_true] at h
    obtain ⟨hc, ht⟩ := h
    by_cases hs : isSpace c = true
    · simp only [hs, if_true, Bool.and_eq_true, beq_iff_eq] at hc
      obtain ⟨hc1, hc2⟩ := hc
      subst hc1
      cases t with
      | nil => simp at hc2
      | cons d t' =>
        simp only [Bool.not_eq_true'] at hc2
        have hm : matchAt spacesRe prev (' ' :: d :: t') = some 1 := by
          simp [spacesRe, matchAt_rep_single, List.takeWhile, hs, hc2]
        rw [replaceGo, hm]
        simp only [zero_add]
        rw [ih _ ht]
        rfl
    · have hm : matchAt spacesRe prev (c :: t) = none := by
        simp [spacesRe, matchAt_rep_single, List.takeWhile, hs]
      rw [replaceGo, hm]
      simp only
      rw [ih _ ht]

theorem spaceOK_getLast (s : Str) (h : spaceOK s = true) :
    ∀ c, s.getLast? = some c → isSpace c = false := by
  induction s with
  | nil => simp
  | cons c t ih =>
    simp only [spaceOK, Bool.and_eq_true] at h
    obtain ⟨hc, ht⟩ := h
    cases t with
    | nil =>
      intro x hx
      simp at hx
      subst hx
      by_cases hs : isSpace c = true
      · simp [hs] at hc
      · simpa using hs
    | cons d t' =>
      intro x hx
      rw [List.getLast?_cons_cons] at hx
      exact ih ht x hx

theorem dropWhile_eq_self_of_head {α : Type} (p : α → Bool) (l : List α)
    (h : ∀ c, l.head? = some c → p c = false) : l.dropWhile p = l := by
  cases l with
  | nil => rfl
  | cons c t => simp [List.dropWhile, h c rfl]

theorem trim_of_normalized (s : Str) (h : normalized s = true) : trim s = s := by
  simp only [normalized, Bool.and_eq_true] at h
  obtain ⟨h1, h2⟩ := h
  unfold trim
  have hd : s.dropWhile isSpace = s := by
    apply dropWhile_eq_self_of_head
    intro c hc
    cases s with
    | nil => simp at hc
    | cons d t =>
      simp at hc
      subst hc
      simpa using h1
  rw [hd, dropWhile_eq_self_of_head, List.reverse_reverse]
  intro c hc
  rw [List.head?_reverse] at hc
  exact spaceOK_getLast s h2 c hc

/-- On a string in normal form, `replace(/\s+/g, " ").trim()` changes
nothing. -/
theorem normalize_of_normalized (s : Str) (h : normalized s = true) :
    trim (replaceAll spacesRe [' '] s) = s := by
  have h2 : spaceOK s = true := by
    simp only [normalized, Bool.and_eq_true] at h
    exact h.2
  rw [replaceAll, replaceGo_spacesRe_of_spaceOK none s h2, trim_of_normalized s h]

/-! ## The text of a span of clean words -/

theorem isBegin_of_isInside {T : Str} {e : Token} (h : isInside T e = true) :
    isBegin T e = false := by
  cases hb : isBegin T e with
  | false => rfl
  | true => rw [isInside_of_isBegin hb] at h; cases h

theorem spanGroups_of_all_inside (T : Str) (ts : List Token)
    (h : ∀ e ∈ ts, isInside T e = true) : spanGroups T ts = [] := by
  induction ts with
  | nil => rfl
  | cons e rest ih =>
    have he := isBegin_of_isInside (h e (List.mem_cons_self _ _))
    simp [spanGroups, he, ih (fun x hx => h x (List.mem_cons_of_mem _ hx))]

theorem takeWhile_of_all {α : Type} (p : α → Bool) (l : List α) (h : ∀ e ∈ l, p e = true) :
    l.takeWhile p = l := by
  induction l with
  | nil => rfl
  | cons e rest ih =>
    simp [List.takeWhile, h e (List.mem_cons_self _ _),
      ih (fun x hx => h x (List.mem_cons_of_mem _ hx))]

/-- One Begin token followed by Inside tokens gives exactly one span. -/
theorem mergeWith_single_run {α : Type} (close : List Str → List ℚ → α) (T : Str)
    (b : Token) (inside : List Token) (hb : isBegin T b = true)
    (hi : ∀ e ∈ inside, isInside T e = true) :
    mergeWith close (b :: inside) T = [closeGroup close (b :: inside)] := by
  rw [mergeWith_eq_groups]
  simp [spanGroups, hb, takeWhile_of_all _ _ hi, spanGroups_of_all_inside T inside hi]

theorem join_append_singleton (sep : Str) (toks : List Str) (w : Str) (h : toks ≠ []) :
    join sep (toks ++ [w]) = join sep toks ++ sep ++ w := by
  induction toks with
  | nil => exact absurd rfl h
  | cons x r ih =>
    cases r with
    | nil => simp [join]
    | cons y r' =>
      have := ih (by simp)
      simp only [List.cons_append, join, List.append_assoc] at this ⊢
      exact congrArg (fun z => x ++ (sep ++ z)) this

theorem join_appendToLast (sep : Str) (toks : List Str) (frag : Str) (h : toks ≠ []) :
    join sep (appendToLast toks frag) = join sep toks ++ frag := by
  induction toks with
  | nil => exact absurd rfl h
  | cons x r ih =>
    cases r with
    | nil => simp [appendToLast, join]
    | cons y r' =>
      have h1 := ih (by simp)
      have hl : ∃ z, (y :: r').getLast? = some z := by
        cases hz : (y :: r').getLast? with
        | none => simp at hz
        | some z => exact ⟨z, rfl⟩
      obtain ⟨z, hz⟩ := hl
      have hx : (x :: y :: r').getLast? = some z := by
        rw [List.getLast?_cons_cons]; exact hz
      simp only [appendToLast, hz] at h1
      simp only [appendToLast, hx, List.dropLast_cons₂]
      have hne : (y :: r').dropLast ++ [z ++ frag] ≠ [] := by simp
      cases hd : (y :: r').dropLast ++ [z ++ frag] with
      | nil => exact absurd hd hne
      | cons u v =>
        rw [hd] at h1
        simp only [List.cons_append, join, hd, h1, List.append_assoc]

theorem replaceFirst_of_startsWith (pat : Str) (w : Str) (h : startsWith w pat = true)
    (hp : pat ≠ []) : replaceFirst pat [] w = w.drop pat.length := by
  cases w with
  | nil =>
    cases pat with
    | nil => exact absurd rfl hp
    | cons a p => simp [startsWith, List.isPrefixOf] at h
  | cons c t =>
    unfold startsWith at h
    simp [replaceFirst, h]

theorem join_absorbWord (toks : List Str) (e : Token) (h : toks ≠ []) :
    join [' '] (absorbWord toks e) = join [' '] toks ++ wordPiece e := by
  unfold absorbWord wordPiece stripMarker
  by_cases hf : startsWith e.word "##".toList = true
  · rw [if_pos hf, if_pos hf, if_pos hf, join_appendToLast _ _ _ h,
      replaceFirst_of_startsWith _ _ hf (by decide)]
    rfl
  · rw [if_neg hf, if_neg hf, join_append_singleton _ _ _ h]
    simp

theorem join_foldl_absorbWord (toks : List Str) (inside : List Token) (h : toks ≠ []) :
    join [' '] (inside.foldl absorbWord toks) =
      join [' '] toks ++ (inside.map wordPiece).flatten := by
  induction inside generalizing toks with
  | nil => simp
  | cons e rest ih =>
    rw [List.foldl_cons, ih _ (absorbWord_ne_nil e h), join_absorbWord _ _ h]
    simp

theorem spaceOK_append_of_clean (a r : Str) (ha : ∀ c ∈ a, isSpace c = false) :
    spaceOK (a ++ r) = spaceOK r := by
  induction a with
  | nil => rfl
  | cons c t ih =>
    have hc := ha c (List.mem_cons_self _ _)
    simp [spaceOK, hc, ih (fun x hx => ha x (List.mem_cons_of_mem _ hx))]

theorem spaceOK_space_word (w r : Str) (hw : ∀ c ∈ w, isSpace c = false) (hne : w ≠ []) :
    spaceOK (' ' :: (w ++ r)) = spaceOK r := by
  cases w with
  | nil => exact absurd rfl hne
  | cons d t =>
    have hd := hw d (List.mem_cons_self _ _)
    have hsp : isSpace ' ' = true := by decide
    have := spaceOK_append_of_clean (d :: t) r hw
    simp only [List.cons_append] at this
    simp only [spaceOK, List.cons_append, hsp, hd, if_true, this]
    simp [spaceOK, hd] at this ⊢
    exact this

theorem stripMarker_of_not {w : Str} (h : ¬ startsWith w "##".toList = true) :
    stripMarker w = w := by
  unfold stripMarker
  rw [if_neg h]

theorem spaceOK_pieces (inside : List Token)
    (hw : ∀ e ∈ inside, ∀ c ∈ stripMarker e.word, isSpace c = false ∧ c ≠ '#')
    (hne : ∀ e ∈ inside, startsWith e.word "##".toList = false → e.word ≠ []) :
    spaceOK (inside.map wordPiece).flatten = true := by
  induction inside with
  | nil => rfl
  | cons e rest ih =>
    have ih' := ih (fun x hx => hw x (List.mem_cons_of_mem _ hx))
      (fun x hx => hne x (List.mem_cons_of_mem _ hx))
    have he := hw e (List.mem_cons_self _ _)
    simp only [List.map_cons, List.flatten_cons]
    unfold wordPiece
    by_cases hf : startsWith e.word "##".toList = true
    · rw [if_pos hf, spaceOK_append_of_clean _ _ (fun c hc => (he c hc).1)]
      exact ih'
    · rw [if_neg hf]
      rw [stripMarker_of_not hf] at he
      rw [List.cons_append, spaceOK_space_word _ _ (fun c hc => (he c hc).1)
        (hne e (List.mem_cons_self _ _) (by simpa using hf))]
      exact ih'

theorem pieces_no_hash (inside : List Token)
    (hw : ∀ e ∈ inside, ∀ c ∈ stripMarker e.word, isSpace c = false ∧ c ≠ '#') :
    ∀ c ∈ (inside.map wordPiece).flatten, isChar '#' c = false := by
  intro c hc
  simp only [List.mem_flatten, List.mem_map] at hc
  obtain ⟨l, ⟨e, he, rfl⟩, hcl⟩ := hc
  have hwe := hw e he
  unfold wordPiece at hcl
  by_cases hf : startsWith e.word "##".toList = true
  · rw [if_pos hf] at hcl
    simpa [isChar] using (hwe c hcl).2
  · rw [if_neg hf] at hcl
    rw [stripMarker_of_not hf] at hwe
    rcases List.mem_cons.mp hcl with rfl | h
    · decide
    · simpa [isChar] using (hwe c h).2

theorem replaceAll_hashesRe_no_hash (prev : Option Char) (s : Str)
    (h : ∀ c ∈ s, isChar '#' c = false) : replaceGo hashesRe [] 0 prev s = s :=
  replaceGo_of_testGo_false _ _ _ _
    (testGo_false_of_cls hashesRe (by simp [hashesRe, lit]) prev s h)

/-- The step `replace(/\s*##/g, "")` on a word followed by text without `#`:
the marker of the word goes, nothing else. -/
theorem replaceAll_hashesRe_word (w r : Str)
    (hw : ∀ c ∈ stripMarker w, isChar '#' c = false)
    (hr : ∀ c ∈ r, isChar '#' c = false) :
    replaceAll hashesRe [] (w ++ r) = stripMarker w ++ r := by
  by_cases hf : startsWith w "##".toList = true
  · have hw2 : w = '#' :: '#' :: stripMarker w := by
      unfold stripMarker
      rw [if_pos hf]
      unfold startsWith at hf
      rw [List.isPrefixOf_iff_prefix] at hf
      obtain ⟨t, ht⟩ := hf
      rw [← ht]
      rfl
    have hrest : ∀ c ∈ stripMarker w ++ r, isChar '#' c = false := by
      intro c hc
      rcases List.mem_append.mp hc with h | h
      · exact hw c h
      · exact hr c h
    rw [hw2]
    generalize stripMarker w = u at hrest
    have hm : matchAt hashesRe none ('#' :: '#' :: (u ++ r)) = some (1 + 1) := by
      have hsp : isSpace '#' = false := by decide
      simp [hashesRe, lit, matchAt, repGo, isChar, hsp]
    simp only [replaceAll, List.cons_append]
    rw [replaceGo, hm]
    simp only [List.nil_append]
    rw [replaceGo, replaceAll_hashesRe_no_hash _ _ hrest]
    unfold stripMarker
    simp [startsWith]
  · rw [stripMarker_of_not hf] at hw ⊢
    apply replaceAll_hashesRe_no_hash
    intro c hc
    rcases List.mem_append.mp hc with h | h
    · exact hw c h
    · exact hr c h

/-- The text of a span of clean words is the text of the specification. -/
theorem spanText_groupWords (b : Token) (inside : List Token)
    (hw : ∀ e ∈ b :: inside, ∀ c ∈ stripMarker e.word, isSpace c = false ∧ c ≠ '#')
    (hb : stripMarker b.word ≠ [])
    (hne : ∀ e ∈ inside, startsWith e.word "##".toList = false → e.word ≠ []) :
    spanText (groupWords (b :: inside)) = joinedText (b :: inside) := by
  have hwi : ∀ e ∈ inside, ∀ c ∈ stripMarker e.word, isSpace c = false ∧ c ≠ '#' :=
    fun e he => hw e (List.mem_cons_of_mem _ he)
  have hwb := hw b (List.mem_cons_self _ _)
  unfold spanText groupWords joinedText
  rw [join_foldl_absorbWord _ _ (by simp)]
  simp only [join]
  rw [replaceAll_hashesRe_word _ _ (fun c hc => by simpa [isChar] using (hwb c hc).2)
    (pieces_no_hash inside hwi)]
  apply normalize_of_normalized
  unfold normalized
  rw [spaceOK_append_of_clean _ _ (fun c hc => (hwb c hc).1), spaceOK_pieces inside hwi hne]
  cases hu : stripMarker b.word with
  | nil => exact absurd hu hb
  | cons d t =>
    have := (hwb d (by rw [hu]; exact List.mem_cons_self _ _)).1
    simp [this]

/-- C1, as amended: one Begin-T token followed by Inside-T tokens, every word
free of whitespace and of `#` apart from an optional leading `##` marker, the
Begin word non-empty once its marker is stripped and every Inside word that is
not a continuation fragment non-empty: `mergeEntities` returns exactly one
span, and its text is the words in order, markers stripped, a fragment
appended without a space and every other Inside word after exactly one
space. -/
theorem mergeEntities_clean_run (T : Str) (b : Token) (inside : List Token)
    (hb : isBegin T b = true) (hi : ∀ e ∈ inside, isInside T e = true)
    (hw : ∀ e ∈ b :: inside, ∀ c ∈ stripMarker e.word, isSpace c = false ∧ c ≠ '#')
    (hb0 : stripMarker b.word ≠ [])
    (hne : ∀ e ∈ inside, startsWith e.word "##".toList = false → e.word ≠ []) :
    ∃ s, mergeEntities (b :: inside) T = [s] ∧ s.text = joinedText (b :: inside) := by
  refine ⟨_, mergeWith_single_run closeSpan T b inside hb hi, ?_⟩
  exact spanText_groupWords b inside hw hb0 hne

/-- C1 at B-ORG "Acme", I-ORG "##Corp", which gives "AcmeCorp", and at B-ORG
"Acme", I-ORG "Corp", which gives "Acme Corp". -/
theorem mergeEntities_clean_run_witness :
    (joinedText [⟨"B-ORG".toList, "Acme".toList, 9 / 10, 1⟩,
        ⟨"I-ORG".toList, "##Corp".toList, 4 / 5, 2⟩] = "AcmeCorp".toList ∧
      ∃ s, mergeEntities [⟨"B-ORG".toList, "Acme".toList, 9 / 10, 1⟩,
          ⟨"I-ORG".toList, "##Corp".toList, 4 / 5, 2⟩] "ORG".toList = [s] ∧
        s.text = joinedText [⟨"B-ORG".toList, "Acme".toList, 9 / 10, 1⟩,
          ⟨"I-ORG".toList, "##Corp".toList, 4 / 5, 2⟩]) ∧
    (joinedText [⟨"B-ORG".toList, "Acme".toList, 9 / 10, 1⟩,
        ⟨"I-ORG".toList, "Corp".toList, 4 / 5, 2⟩] = "Acme Corp".toList ∧
      ∃ s, mergeEntities [⟨"B-ORG".toList, "Acme".toList, 9 / 10, 1⟩,
          ⟨"I-ORG".toList, "Corp".toList, 4 / 5, 2⟩] "ORG".toList = [s] ∧
        s.text = joinedText [⟨"B-ORG".toList, "Acme".toList, 9 / 10, 1⟩,
          ⟨"I-ORG".toList, "Corp".toList, 4 / 5, 2⟩]) :=
  ⟨⟨by decide,
      mergeEntities_clean_run "ORG".toList ⟨"B-ORG".toList, "Acme".toList, 9 / 10, 1⟩
        [⟨"I-ORG".toList, "##Corp".toList, 4 / 5, 2⟩]
        (by decide) (by decide) (by decide) (by decide) (by decide)⟩,
    ⟨by decide,
      mergeEntities_clean_run "ORG".toList ⟨"B-ORG".toList, "Acme".toList, 9 / 10, 1⟩
        [⟨"I-ORG".toList, "Corp".toList, 4 / 5, 2⟩]
        (by decide) (by decide) (by decide) (by decide) (by decide)⟩⟩

/-- C1 fails as stated: the empty word contains no whitespace and no `#`, yet
for B-ORG "Acme", I-ORG "" the text of the span is "Acme", not "Acme" followed
by one space: `trim` takes the space away. -/
theorem mergeEntities_clean_run_counterexample :
    isBegin "ORG".toList ⟨"B-ORG".toList, "Acme".toList, 9 / 10, 1⟩ = true ∧
    (∀ e ∈ [(⟨"I-ORG".toList, [], 4 / 5, 2⟩ : Token)], isInside "ORG".toList e = true) ∧
    (∀ e ∈ [(⟨"B-ORG".toList, "Acme".toList, 9 / 10, 1⟩ : Token), ⟨"I-ORG".toList, [], 4 / 5, 2⟩],
      ∀ c ∈ stripMarker e.word, isSpace c = false ∧ c ≠ '#') ∧
    (mergeEntities [⟨"B-ORG".toList, "Acme".toList, 9 / 10, 1⟩, ⟨"I-ORG".toList, [], 4 / 5, 2⟩]
      "ORG".toList).map (fun s => s.text) = ["Acme".toList] ∧
    joinedText [⟨"B-ORG".toList, "Acme".toList, 9 / 10, 1⟩, ⟨"I-ORG".toList, [], 4 / 5, 2⟩] =
      "Acme ".toList ∧
    (mergeEntities [⟨"B-ORG".toList, "Acme".toList, 9 / 10, 1⟩, ⟨"I-ORG".toList, [], 4 / 5, 2⟩]
      "ORG".toList).map (fun s => s.text) ≠
      [joinedText [⟨"B-ORG".toList, "Acme".toList, 9 / 10, 1⟩, ⟨"I-ORG".toList, [], 4 / 5, 2⟩]] := by
  decide!

/-! ## Expressions that take a whole run of non-whitespace characters -/

theorem runComplete_rep_accept (m : Nat) :
    RunComplete (matchAt [Atom.rep isNonSpace m]) (fun r => decide (m ≤ r.length)) := by
  intro prev s
  rw [matchAt_rep_single]
  simp

theorem runComplete_cls (q : Char → Bool) (re : Regex) (K : Str → Bool)
    (hq : ∀ c, q c = true → isNonSpace c = true) (h : RunComplete (matchAt re) K) :
    RunComplete (matchAt (Atom.cls q :: re)) (consK q K) := by
  intro prev s
  cases s with
  | nil => simp [matchAt, consK]
  | cons c t =>
    by_cases hc : q c = true
    · have hn := hq c hc
      rw [matchAt, if_pos hc, h (some c) t, List.takeWhile_cons_of_pos hn]
      simp only [consK, hc, Bool.true_and, List.length_cons]
      split <;> simp
    · by_cases hn : isNonSpace c = true
      · rw [matchAt, if_neg hc, List.takeWhile_cons_of_pos hn]
        simp [consK, hc]
      · rw [matchAt, if_neg hc, List.takeWhile_cons_of_neg hn]
        simp [consK]

theorem runComplete_opt (q : Char → Bool) (re : Regex) (K : Str → Bool)
    (hq : ∀ c, q c = true → isNonSpace c = true) (h : RunComplete (matchAt re) K) :
    RunComplete (matchAt (Atom.opt q :: re)) (fun r => consK q K r || K r) := by
  intro prev s
  cases s with
  | nil =>
    rw [matchAt, h prev []]
    simp [consK]
  | cons c t =>
    by_cases hc : q c = true
    · have hn := hq c hc
      rw [matchAt, if_pos hc, h (some c) t, h prev (c :: t), List.takeWhile_cons_of_pos hn]
      simp only [consK, hc, Bool.true_and, List.length_cons, Bool.or_eq_true]
      by_cases h1 : K (List.takeWhile isNonSpace t) = true
      · simp [h1]
      · simp [h1]
    · rw [matchAt, if_neg hc, h prev (c :: t)]
      by_cases hn : isNonSpace c = true
      · simp [List.takeWhile_cons_of_pos hn, consK, hc]
      · simp [List.takeWhile_cons_of_neg hn, consK]

theorem runComplete_rep (re : Regex) (K : Str → Bool) (m : Nat)
    (h : RunComplete (matchAt re) K) :
    RunComplete (matchAt (Atom.rep isNonSpace m :: re)) (anySuffix K m) := by
  intro prev s
  rw [matchAt]
  induction s generalizing m prev with
  | nil =>
    rw [repGo, h prev []]
    by_cases hm : m = 0 <;> simp [anySuffix, hm]
  | cons c t ih =>
    by_cases hn : isNonSpace c = true
    · rw [repGo, if_pos hn, ih, h prev (c :: t), List.takeWhile_cons_of_pos hn]
      simp only [anySuffix, List.length_cons, Bool.or_eq_true, Bool.and_eq_true, beq_iff_eq]
      by_cases h1 : anySuffix K (m - 1) (List.takeWhile isNonSpace t) = true
      · simp [h1]
      · by_cases hm : m = 0
        · subst hm
          simp only [Nat.zero_sub] at h1
          simp [h1]
        · simp [h1, hm]
    · rw [repGo, if_neg hn, h prev (c :: t), List.takeWhile_cons_of_neg hn]
      by_cases hm : m = 0 <;> simp [anySuffix, hm]

theorem isChar_nonSpace (a : Char) (ha : isSpace a = false) :
    ∀ c, isChar a c = true → isNonSpace c = true := by
  intro c hc
  simp only [isChar, beq_iff_eq] at hc
  subst hc
  simp [isNonSpace, ha]

/-- The expression `/\S+@\S+\.\S+/` matches at a position exactly when the
run of non-whitespace characters there has the shape, and takes the whole
run. -/
theorem runComplete_emailRe : RunComplete (matchAt emailRe) emailShape := by
  unfold emailRe emailShape
  apply runComplete_rep
  apply runComplete_cls _ _ _ (isChar_nonSpace '@' (by decide))
  apply runComplete_rep
  apply runComplete_cls _ _ _ (isChar_nonSpace '.' (by decide))
  exact runComplete_rep_accept 1

theorem testGo_runComplete (re : Regex) (K : Str → Bool) (h : RunComplete (matchAt re) K)
    (prev : Option Char) (s : Str) : testGo re prev s = hasRun K s := by
  induction s generalizing prev with
  | nil =>
    rw [testGo, h prev []]
    simp only [List.takeWhile_nil, hasRun]
    split <;> simp_all
  | cons c t ih =>
    rw [testGo, ih, h prev (c :: t), hasRun]
    split <;> simp_all

/-! ## The step that removes e-mail addresses -/

theorem anySuffix_pred (K : Str → Bool) (m : Nat) (r : Str)
    (h : anySuffix K (m + 1) r = true) : anySuffix K m r = true := by
  induction r generalizing m with
  | nil => simp [anySuffix] at h
  | cons c t ih =>
    simp only [anySuffix, Nat.add_one_sub_one, Bool.or_eq_true, Bool.and_eq_true,
      beq_iff_eq] at h ⊢
    rcases h with h | h
    · omega
    · right
      cases m with
      | zero => simpa using h
      | succ m' => simpa using ih m' h

theorem anySuffix_sub_one (K : Str → Bool) (m : Nat) (r : Str)
    (h : anySuffix K m r = true) : anySuffix K (m - 1) r = true := by
  cases m with
  | zero => simpa using h
  | succ m' => simpa using anySuffix_pred K m' r h

theorem emailShape_nil : emailShape [] = false := rfl

theorem emailShape_cons (c : Char) (r : Str) (h : emailShape r = true) :
    emailShape (c :: r) = true := by
  unfold emailShape at h ⊢
  rw [anySuffix]
  simp only [Nat.add_one_sub_one, Bool.or_eq_true]
  right
  exact anySuffix_pred _ 0 r h

theorem matchAt_emailRe (prev : Option Char) (s : Str) :
    matchAt emailRe prev s =
      if emailShape (s.takeWhile isNonSpace) = true then
        some (s.takeWhile isNonSpace).length
      else none :=
  runComplete_emailRe prev s

/-- After the step `replace(/\S+@\S+\.\S+/g, "")` no run has the shape; and a
run without the shape at the current position is kept whole. -/
theorem replaceGo_emailRe_spec (prev : Option Char) (s : Str) :
    hasRun emailShape (replaceGo emailRe [] 0 prev s) = false ∧
      (emailShape (s.takeWhile isNonSpace) = false →
        (replaceGo emailRe [] 0 prev s).takeWhile isNonSpace = s.takeWhile isNonSpace) := by
  refine replaceGo_induction emailRe []
    (fun _ s out => hasRun emailShape out = false ∧
      (emailShape (s.takeWhile isNonSpace) = false →
        out.takeWhile isNonSpace = s.takeWhile isNonSpace)) ?_ ?_ ?_ ?_ prev s
  · intro prev
    simp [replaceGo, matchAt_emailRe, emailShape_nil, hasRun]
  · intro prev c t out hm ih
    obtain ⟨ih1, ih2⟩ := ih
    rw [matchAt_emailRe] at hm
    have hs : emailShape ((c :: t).takeWhile isNonSpace) = false := by
      cases he : emailShape ((c :: t).takeWhile isNonSpace) with
      | false => rfl
      | true => simp [he] at hm
    have h2 : (c :: out).takeWhile isNonSpace = (c :: t).takeWhile isNonSpace := by
      by_cases hn : isNonSpace c = true
      · rw [List.takeWhile_cons_of_pos hn] at hs ⊢
        rw [List.takeWhile_cons_of_pos hn]
        have ht : emailShape (t.takeWhile isNonSpace) = false := by
          cases he : emailShape (t.takeWhile isNonSpace) with
          | false => rfl
          | true => rw [emailShape_cons c _ he] at hs; cases hs
        rw [ih2 ht]
      · rw [List.takeWhile_cons_of_neg hn, List.takeWhile_cons_of_neg hn]
    refine ⟨?_, fun _ => h2⟩
    rw [hasRun, h2, hs, ih1]
    rfl
  · intro prev c t out hm _
    rw [matchAt_emailRe] at hm
    split at hm
    · rename_i he
      simp only [Option.some.injEq, List.length_eq_zero] at hm
      rw [hm, emailShape_nil] at he
      cases he
    · cases hm
  · intro prev c t n out hm ih
    rw [matchAt_emailRe] at hm
    refine ⟨by simpa using ih.1, ?_⟩
    intro hs
    rw [hs] at hm
    simp at hm

theorem test_replaceAll_emailRe (s : Str) : test emailRe (replaceAll emailRe [] s) = false := by
  rw [test, testGo_runComplete emailRe emailShape runComplete_emailRe]
  exact (replaceGo_emailRe_spec none s).1

/-! ## Deleting characters that are not whitespace -/

theorem delNS_refl (s : Str) : DelNS s s := by
  induction s with
  | nil => exact DelNS.nil
  | cons c t ih => exact DelNS.keep c ih

theorem delNS_trans {a b c : Str} (h1 : DelNS a b) (h2 : DelNS b c) : DelNS a c := by
  induction h2 generalizing a with
  | nil => exact h1
  | keep x _ ih =>
    cases h1 with
    | keep _ h => exact DelNS.keep x (ih h)
    | drop _ hx h => exact DelNS.drop x hx (ih h)
  | drop x hx _ ih => exact DelNS.drop x hx (ih h1)

theorem delNS_drop_prefix (l : Str) {out s : Str} (hl : ∀ c ∈ l, isNonSpace c = true)
    (h : DelNS out s) : DelNS out (l ++ s) := by
  induction l with
  | nil => exact h
  | cons c t ih =>
    exact DelNS.drop c (hl c (List.mem_cons_self _ _))
      (ih (fun x hx => hl x (List.mem_cons_of_mem _ hx)))

theorem delNS_takeWhile {out s : Str} (h : DelNS out s) :
    (out.takeWhile isNonSpace).Sublist (s.takeWhile isNonSpace) := by
  induction h with
  | nil => exact List.Sublist.refl _
  | keep c _ ih =>
    by_cases hc : isNonSpace c = true
    · rw [List.takeWhile_cons_of_pos hc, List.takeWhile_cons_of_pos hc]
      exact List.Sublist.cons₂ c ih
    · rw [List.takeWhile_cons_of_neg hc, List.takeWhile_cons_of_neg hc]
  | drop c hc _ ih =>
    rw [List.takeWhile_cons_of_pos hc]
    exact List.Sublist.cons c ih

theorem hasRun_delNS (K : Str → Bool)
    (hK : ∀ r r0 : Str, r.Sublist r0 → K r = true → K r0 = true) {out s : Str}
    (h : DelNS out s) (ho : hasRun K out = true) : hasRun K s = true := by
  induction h with
  | nil => exact ho
  | keep c hd ih =>
    rw [hasRun, Bool.or_eq_true] at ho ⊢
    rcases ho with ho | ho
    · exact Or.inl (hK _ _ (delNS_takeWhile (DelNS.keep c hd)) ho)
    · exact Or.inr (ih ho)
  | drop c hc hd ih =>
    rw [hasRun, Bool.or_eq_true]
    exact Or.inr (ih ho)

theorem anySuffix_consK_sublist (q : Char → Bool) (K : Str → Bool)
    (hK : ∀ r r0 : Str, r.Sublist r0 → K r = true → K r0 = true) (m : Nat) (r r0 : Str)
    (h : r.Sublist r0) (hr : anySuffix (consK q K) m r = true) :
    anySuffix (consK q K) m r0 = true := by
  induction h generalizing m with
  | slnil => exact hr
  | cons x _ ih =>
    rw [anySuffix, Bool.or_eq_true]
    exact Or.inr (anySuffix_sub_one _ _ _ (ih m hr))
  | cons₂ x hs ih =>
    rw [anySuffix, Bool.or_eq_true] at hr ⊢
    rcases hr with hr | hr
    · left
      simp only [Bool.and_eq_true, consK] at hr ⊢
      exact ⟨hr.1, hr.2.1, hK _ _ hs hr.2.2⟩
    · exact Or.inr (ih _ hr)

theorem emailShape_sublist (r r0 : Str) (h : r.Sublist r0) (hr : emailShape r = true) :
    emailShape r0 = true := by
  unfold emailShape at hr ⊢
  refine anySuffix_consK_sublist _ _ ?_ 1 r r0 h hr
  intro a b hab ha
  refine anySuffix_consK_sublist _ _ ?_ 1 a b hab ha
  intro a b hab ha
  simp only [decide_eq_true_eq] at ha ⊢
  exact le_trans ha hab.length_le

theorem repGo_atomsIn (q p : Char → Bool) (hp : ∀ c, p c = true → q c = true)
    (k : Option Char → Str → Option Nat)
    (hk : ∀ prev s n, k prev s = some n → n ≤ s.length ∧ ∀ c ∈ s.take n, q c = true)
    (m : Nat) (prev : Option Char) (s : Str) (n : Nat) (h : repGo p k m prev s = some n) :
    n ≤ s.length ∧ ∀ c ∈ s.take n, q c = true := by
  induction s generalizing m prev n with
  | nil =>
    rw [repGo] at h
    split at h
    · exact hk _ _ _ h
    · cases h
  | cons c t ih =>
    rw [repGo] at h
    split at h
    · rename_i hc
      split at h
      · rename_i n' hn'
        simp only [Option.some.injEq] at h
        subst h
        obtain ⟨h1, h2⟩ := ih _ _ _ hn'
        refine ⟨by simp; omega, ?_⟩
        intro x hx
        rw [List.take_succ_cons] at hx
        rcases List.mem_cons.mp hx with rfl | hx
        · exact hp _ hc
        · exact h2 x hx
      · split at h
        · exact hk _ _ _ h
        · cases h
    · split at h
      · exact hk _ _ _ h
      · cases h

/-- A match lies inside the input, and its characters are in every class
that contains the classes of the expression. -/
theorem matchAt_atomsIn (q : Char → Bool) (re : Regex) (hre : atomsIn q re)
    (prev : Option Char) (s : Str) (n : Nat) (h : matchAt re prev s = some n) :
    n ≤ s.length ∧ ∀ c ∈ s.take n, q c = true := by
  induction re generalizing prev s n with
  | nil =>
    simp only [matchAt, Option.some.injEq] at h
    subst h
    simp
  | cons a r ih =>
    have hr : atomsIn q r := fun b hb => hre b (List.mem_cons_of_mem _ hb)
    have ha := hre a (List.mem_cons_self _ _)
    cases a with
    | cls p =>
      cases s with
      | nil => simp [matchAt] at h
      | cons c t =>
        rw [matchAt] at h
        split at h
        · rename_i hc
          cases hm : matchAt r (some c) t with
          | none => simp [hm] at h
          | some n' =>
            simp only [hm, Option.map_some', Option.some.injEq] at h
            subst h
            obtain ⟨h1, h2⟩ := ih hr _ _ _ hm
            refine ⟨by simp; omega, ?_⟩
            intro x hx
            rw [List.take_succ_cons] at hx
            rcases List.mem_cons.mp hx with rfl | hx
            · exact ha _ hc
            · exact h2 x hx
        · cases h
    | opt p =>
      cases s with
      | nil =>
        rw [matchAt] at h
        exact ih hr _ _ _ h
      | cons c t =>
        rw [matchAt] at h
        split at h
        · rename_i hc
          split at h
          · rename_i n' hn'
            simp only [Option.some.injEq] at h
            subst h
            obtain ⟨h1, h2⟩ := ih hr _ _ _ hn'
            refine ⟨by simp; omega, ?_⟩
            intro x hx
            rw [List.take_succ_cons] at hx
            rcases List.mem_cons.mp hx with rfl | hx
            · exact ha _ hc
            · exact h2 x hx
          · exact ih hr _ _ _ h
        · exact ih hr _ _ _ h
    | rep p m =>
      rw [matchAt] at h
      exact repGo_atomsIn q p ha _ (fun prev s n hk => ih hr prev s n hk) m prev s n h
    | wordB =>
      rw [matchAt] at h
      split at h
      · exact ih hr _ _ _ h
      · cases h

/-- An expression whose classes contain no whitespace: `replace(re, "")`
deletes characters that are not whitespace. -/
theorem delNS_replaceGo (re : Regex) (hre : atomsIn isNonSpace re) (prev : Option Char)
    (s : Str) : DelNS (replaceGo re [] 0 prev s) s := by
  refine replaceGo_induction re [] (fun _ s out => DelNS out s) ?_ ?_ ?_ ?_ prev s
  · intro prev
    rw [replaceGo]
    split <;> exact DelNS.nil
  · intro prev c t out _ ih
    exact DelNS.keep c ih
  · intro prev c t out _ ih
    exact DelNS.keep c ih
  · intro prev c t n out hm ih
    obtain ⟨h1, h2⟩ := matchAt_atomsIn isNonSpace re hre prev (c :: t) (n + 1) hm
    rw [List.take_succ_cons] at h2
    simp only [List.nil_append]
    refine DelNS.drop c (h2 c (List.mem_cons_self _ _)) ?_
    have := delNS_drop_prefix (t.take n)
      (fun x hx => h2 x (List.mem_cons_of_mem _ hx)) ih
    rwa [List.take_append_drop] at this

theorem test_emailRe_delNS {out s : Str} (h : DelNS out s) (hs : test emailRe s = false) :
    test emailRe out = false := by
  rw [test, testGo_runComplete emailRe emailShape runComplete_emailRe] at hs ⊢
  cases ho : hasRun emailShape out with
  | false => rfl
  | true => rw [hasRun_delNS emailShape emailShape_sublist h ho] at hs; cases hs

/-! ## Which characters the expressions of `cleanName` delete -/

theorem atomsIn_nil (q : Char → Bool) : atomsIn q [] := by
  intro a ha
  simp at ha

theorem atomsIn_append (q : Char → Bool) (r1 r2 : Regex) (h1 : atomsIn q r1)
    (h2 : atomsIn q r2) : atomsIn q (r1 ++ r2) := by
  intro a ha
  rcases List.mem_append.mp ha with h | h
  · exact h1 a h
  · exact h2 a h

theorem atomsIn_lit (s : Str) (hs : ∀ a ∈ s, isSpace a = false) : atomsIn isNonSpace (lit s) := by
  intro a ha
  simp only [lit, List.mem_map] at ha
  obtain ⟨x, hx, rfl⟩ := ha
  exact isChar_nonSpace x (hs x hx)

theorem atomsIn_litCI (s : Str)
    (hs : ∀ a ∈ s, isSpace (asciiLowerChar a) = false ∧ isSpace (asciiUpperChar a) = false) :
    atomsIn isNonSpace (litCI s) := by
  intro a ha
  simp only [litCI, List.mem_map] at ha
  obtain ⟨x, hx, rfl⟩ := ha
  intro c hc
  simp only [isCharCI, Bool.or_eq_true, beq_iff_eq] at hc
  rcases hc with rfl | rfl
  · simp [isNonSpace, (hs x hx).1]
  · simp [isNonSpace, (hs x hx).2]

theorem atomsIn_rep_nonSpace (m : Nat) : atomsIn isNonSpace [Atom.rep isNonSpace m] := by
  intro a ha
  simp only [List.mem_singleton] at ha
  subst ha
  exact fun c hc => hc

theorem atomsIn_wordB (q : Char → Bool) : atomsIn q [Atom.wordB] := by
  intro a ha
  simp only [List.mem_singleton] at ha
  subst ha
  trivial

theorem isDigit_nonSpace (c : Char) (h : isDigit c = true) : isNonSpace c = true := by
  rw [isDigit_iff] at h
  simp at h
  rcases h with h | h | h | h | h | h | h | h | h | h <;> subst h <;> decide

theorem atomsIn_urlRe : atomsIn isNonSpace urlRe := by
  unfold urlRe
  refine atomsIn_append _ _ _ (atomsIn_append _ _ _ (atomsIn_append _ _ _ ?_ ?_) ?_) ?_
  · exact atomsIn_lit _ (by decide)
  · intro a ha
    simp only [List.mem_singleton] at ha
    subst ha
    exact isChar_nonSpace 's' (by decide)
  · exact atomsIn_lit _ (by decide)
  · exact atomsIn_rep_nonSpace 1

theorem atomsIn_wwwRe : atomsIn isNonSpace wwwRe := by
  unfold wwwRe
  exact atomsIn_append _ _ _ (atomsIn_lit _ (by decide)) (atomsIn_rep_nonSpace 1)

theorem atomsIn_digitsRe : atomsIn isNonSpace digitsRe := by
  intro a ha
  simp only [digitsRe, List.mem_singleton] at ha
  subst ha
  exact isDigit_nonSpace

theorem atomsIn_wordRe (w : Str) (hw : w ∈ noiseWords) : atomsIn isNonSpace (wordRe w) := by
  unfold wordRe
  refine atomsIn_append _ _ _ (atomsIn_append _ _ _ (atomsIn_wordB _) ?_) (atomsIn_wordB _)
  apply atomsIn_litCI
  simp only [noiseWords, List.mem_cons, List.mem_singleton, List.not_mem_nil, or_false] at hw
  rcases hw with rfl | rfl | rfl | rfl | rfl <;> decide

theorem delNS_mem {out s : Str} (h : DelNS out s) : ∀ c ∈ out, c ∈ s := by
  induction h with
  | nil => intro c hc; exact hc
  | keep x _ ih =>
    intro c hc
    rcases List.mem_cons.mp hc with rfl | hc
    · exact List.mem_cons_self _ _
    · exact List.mem_cons_of_mem _ (ih c hc)
  | drop x _ _ ih =>
    intro c hc
    exact List.mem_cons_of_mem _ (ih c hc)

theorem delNS_foldl_noise (words : List Str) (hw : ∀ w ∈ words, w ∈ noiseWords) (s : Str) :
    DelNS (words.foldl (fun line word => replaceAll (wordRe word) [] line) s) s := by
  induction words generalizing s with
  | nil => exact delNS_refl s
  | cons w ws ih =>
    rw [List.foldl_cons]
    exact delNS_trans (ih (fun x hx => hw x (List.mem_cons_of_mem _ hx)) _)
      (delNS_replaceGo _ (atomsIn_wordRe w (hw w (List.mem_cons_self _ _))) none s)

theorem replaceAll_phoneRe_of_no_digit (s : Str) (h : ∀ c ∈ s, isDigit c = false) :
    replaceAll phoneRe [] s = s :=
  replaceAll_of_test_false _ _ _
    (testGo_false_of_cls phoneRe (by simp [phoneRe]) none s h)

/-! ## Whitespace and runs -/

theorem hasRun_append_left (K : Str → Bool) (l s : Str) (h : hasRun K s = true) :
    hasRun K (l ++ s) = true := by
  induction l with
  | nil => exact h
  | cons c t ih =>
    rw [List.cons_append, hasRun, ih]
    simp

theorem takeWhile_append_space (l w : Str) (hw : ∀ c, w.head? = some c → isSpace c = true) :
    (l ++ w).takeWhile isNonSpace = l.takeWhile isNonSpace := by
  induction l with
  | nil =>
    cases w with
    | nil => rfl
    | cons d w' =>
      have := hw d rfl
      simp [List.takeWhile, isNonSpace, this]
  | cons c t ih =>
    by_cases hc : isNonSpace c = true
    · rw [List.cons_append, List.takeWhile_cons_of_pos hc, List.takeWhile_cons_of_pos hc, ih]
    · rw [List.cons_append, List.takeWhile_cons_of_neg hc, List.takeWhile_cons_of_neg hc]

theorem hasRun_append_space (K : Str → Bool) (s w : Str)
    (hw : ∀ c, w.head? = some c → isSpace c = true) (h : hasRun K s = true) :
    hasRun K (s ++ w) = true := by
  induction s with
  | nil =>
    simp only [hasRun, List.nil_append] at h ⊢
    cases w with
    | nil => exact h
    | cons d w' =>
      have := hw d rfl
      rw [hasRun, List.takeWhile_cons_of_neg (by simp [isNonSpace, this]), h]
      rfl
  | cons c t ih =>
    rw [hasRun, Bool.or_eq_true] at h
    rw [List.cons_append, hasRun, Bool.or_eq_true]
    rcases h with h | h
    · left
      have := takeWhile_append_space (c :: t) w hw
      rw [List.cons_append] at this
      rw [this]
      exact h
    · exact Or.inr (ih h)

theorem hasRun_trim (K : Str → Bool) (s : Str) (h : hasRun K (trim s) = true) :
    hasRun K s = true := by
  unfold trim at h
  have h1 : s = s.takeWhile isSpace ++ s.dropWhile isSpace :=
    (List.takeWhile_append_dropWhile _ _).symm
  generalize s.dropWhile isSpace = u at h h1
  have h2 : u = (u.reverse.dropWhile isSpace).reverse ++ (u.reverse.takeWhile isSpace).reverse := by
    rw [← List.reverse_append, List.takeWhile_append_dropWhile, List.reverse_reverse]
  rw [h1]
  apply hasRun_append_left
  rw [h2]
  apply hasRun_append_space _ _ _ _ h
  intro c hc
  rw [List.head?_reverse] at hc
  have hm : c ∈ u.reverse.takeWhile isSpace := List.mem_of_getLast?_eq_some hc
  exact List.mem_takeWhile_imp hm

theorem hasRun_collapse (K : Str → Bool) (prev : Option Char) (s : Str) :
    (hasRun K (replaceGo spacesRe [' '] 0 prev s) = true → hasRun K s = true) ∧
      (replaceGo spacesRe [' '] 0 prev s).takeWhile isNonSpace = s.takeWhile isNonSpace := by
  refine replaceGo_induction spacesRe [' ']
    (fun _ s out => (hasRun K out = true → hasRun K s = true) ∧
      out.takeWhile isNonSpace = s.takeWhile isNonSpace) ?_ ?_ ?_ ?_ prev s
  · intro prev
    simp [replaceGo, spacesRe, matchAt_rep_single]
  · intro prev c t out hm ih
    obtain ⟨ih1, ih2⟩ := ih
    have hc : isNonSpace c = true := by
      simp only [spacesRe, matchAt_rep_single] at hm
      cases hs : isSpace c with
      | false => simp [isNonSpace, hs]
      | true => simp [List.takeWhile, hs] at hm
    have h2 : (c :: out).takeWhile isNonSpace = (c :: t).takeWhile isNonSpace := by
      rw [List.takeWhile_cons_of_pos hc, List.takeWhile_cons_of_pos hc, ih2]
    refine ⟨?_, h2⟩
    intro h
    rw [hasRun, Bool.or_eq_true] at h ⊢
    rcases h with h | h
    · exact Or.inl (h2 ▸ h)
    · exact Or.inr (ih1 h)
  · intro prev c t out hm
    simp only [spacesRe, matchAt_rep_single] at hm
    split at hm
    · simp only [Option.some.injEq] at hm
      omega
    · cases hm
  · intro prev c t n out hm ih
    obtain ⟨ih1, _⟩ := ih
    have hc : isNonSpace c = false := by
      simp only [spacesRe, matchAt_rep_single] at hm
      cases hs : isSpace c with
      | true => simp [isNonSpace, hs]
      | false => simp [List.takeWhile, hs] at hm
    have hsp : isNonSpace ' ' = false := by decide
    have h2 : ([' '] ++ out).takeWhile isNonSpace = (c :: t).takeWhile isNonSpace := by
      rw [List.singleton_append, List.takeWhile_cons_of_neg (by simp [hsp]),
        List.takeWhile_cons_of_neg (by simp [hc])]
    refine ⟨?_, h2⟩
    intro h
    rw [List.singleton_append, hasRun, Bool.or_eq_true] at h
    rw [hasRun, Bool.or_eq_true]
    rcases h with h | h
    · left
      rw [List.takeWhile_cons_of_neg (by simp [hsp])] at h
      rw [List.takeWhile_cons_of_neg (by simp [hc])]
      exact h
    · right
      have := hasRun_append_left K (t.take n) _ (ih1 h)
      rwa [List.take_append_drop] at this

/-- The step `replace(/\s+/g, " ").trim()` creates no match of the e-mail
expression. -/
theorem test_emailRe_normalize (s : Str) (h : test emailRe s = false) :
    test emailRe (trim (replaceAll spacesRe [' '] s)) = false := by
  rw [test, testGo_runComplete emailRe emailShape runComplete_emailRe] at h ⊢
  cases ho : hasRun emailShape (trim (replaceAll spacesRe [' '] s)) with
  | false => rfl
  | true =>
    have h1 := hasRun_trim _ _ ho
    rw [(hasRun_collapse emailShape none s).1 h1] at h
    cases h

theorem cleanName_some (line : Str) :
    cleanName (some line) = if line.isEmpty = true then [] else cleanSteps line := rfl

/-- C8 fails as stated: the line `x@y.z a@b1     2.c` contains a match of
`/\S+@\S+\.\S+/`, the first step removes `x@y.z`, and the step that removes
telephone numbers then takes `1     2` out of `a@b1     2.c`: the output is
`a@b.c`, a match of the expression. -/
theorem cleanName_no_email_counterexample :
    test emailRe "x@y.z a@b1     2.c".toList = true ∧
      cleanName (some "x@y.z a@b1     2.c".toList) = "a@b.c".toList ∧
      test emailRe (cleanName (some "x@y.z a@b1     2.c".toList)) = true := by
  decide

/-! ## The expressions of the noise words -/

theorem matchAt_litCI_wordB (w : Str) (prev : Option Char) (s : Str) :
    matchAt (litCI w ++ [Atom.wordB]) prev s =
      if ciPrefixEnd w prev s = true then some w.length else none := by
  induction w generalizing prev s with
  | nil =>
    simp only [litCI, List.map_nil, List.nil_append, matchAt, ciPrefixEnd, List.length_nil]
  | cons a w ih =>
    cases s with
    | nil => simp [litCI, matchAt, ciPrefixEnd]
    | cons c t =>
      rw [show litCI (a :: w) ++ [Atom.wordB] =
        Atom.cls (isCharCI a) :: (litCI w ++ [Atom.wordB]) from rfl, matchAt, ih (some c) t]
      by_cases hc : isCharCI a c = true
      · by_cases hp : ciPrefixEnd w (some c) t = true <;> simp [ciPrefixEnd, hc, hp]
      · simp [ciPrefixEnd, hc]

theorem isWordChar_of_isCharCI (a c : Char)
    (ha : (isWordChar (asciiLowerChar a) && isWordChar (asciiUpperChar a)) = true)
    (hc : isCharCI a c = true) : isWordChar c = true := by
  simp only [Bool.and_eq_true] at ha
  simp only [isCharCI, Bool.or_eq_true, beq_iff_eq] at hc
  rcases hc with rfl | rfl
  · exact ha.1
  · exact ha.2

theorem ciEq_nil_right (w : Str) : ciEq w [] = w.isEmpty := by
  cases w <;> rfl

theorem ciPrefixEnd_eq_ciEq (a : Char) (w : Str)
    (hw : ∀ x ∈ a :: w, (isWordChar (asciiLowerChar x) && isWordChar (asciiUpperChar x)) = true)
    (prev : Option Char) (s : Str) :
    ciPrefixEnd (a :: w) prev s = ciEq (a :: w) (s.takeWhile isWordChar) := by
  induction w generalizing a prev s with
  | nil =>
    cases s with
    | nil => rfl
    | cons c t =>
      by_cases hc : isCharCI a c = true
      · have hwc := isWordChar_of_isCharCI a c (hw a (List.mem_cons_self _ _)) hc
        rw [List.takeWhile_cons_of_pos hwc]
        simp only [ciPrefixEnd, ciEq, hc, Bool.true_and, isWordAt, hwc]
        cases t with
        | nil => rfl
        | cons d t' =>
          by_cases hd : isWordChar d = true
          · simp [List.takeWhile, hd, ciEq, isWordAt]
          · simp [List.takeWhile, hd, ciEq, isWordAt]
      · simp only [ciPrefixEnd, hc, Bool.false_and]
        by_cases hwc : isWordChar c = true
        · simp [List.takeWhile_cons_of_pos hwc, ciEq, hc]
        · simp [List.takeWhile_cons_of_neg hwc, ciEq]
  | cons a' w ih =>
    cases s with
    | nil => rfl
    | cons c t =>
      by_cases hc : isCharCI a c = true
      · have hwc := isWordChar_of_isCharCI a c (hw a (List.mem_cons_self _ _)) hc
        rw [List.takeWhile_cons_of_pos hwc]
        rw [ciPrefixEnd, ciEq, ih a' (fun x hx => hw x (List.mem_cons_of_mem _ hx))]
      · simp only [ciPrefixEnd, hc, Bool.false_and]
        by_cases hwc : isWordChar c = true
        · simp [List.takeWhile_cons_of_pos hwc, ciEq, hc]
        · simp [List.takeWhile_cons_of_neg hwc, ciEq]

theorem matchAt_wordB_cons (r : Regex) (prev : Option Char) (s : Str) :
    matchAt (Atom.wordB :: r) prev s =
      if (isWordAt prev != isWordAt s.head?) = true then matchAt r prev s else none := by
  cases s <;> simp [matchAt]

/-- The expression `\bword\b` under the `i` flag matches at a position exactly
when the character before is not a word character and the run of word
characters at the position is the word, in any case. -/
theorem matchAt_wordRe (w : Str) (hw : wordLike w = true) (prev : Option Char) (s : Str) :
    matchAt (wordRe w) prev s =
      if (!isWordAt prev && ciEq w (s.takeWhile isWordChar)) = true then some w.length
      else none := by
  cases w with
  | nil => simp [wordLike] at hw
  | cons a w =>
    have hall : ∀ x ∈ a :: w,
        (isWordChar (asciiLowerChar x) && isWordChar (asciiUpperChar x)) = true := by
      simp only [wordLike, Bool.and_eq_true, List.all_eq_true] at hw
      intro x hx
      simpa using hw.2 x hx
    rw [show wordRe (a :: w) = Atom.wordB :: (litCI (a :: w) ++ [Atom.wordB]) from rfl,
      matchAt_wordB_cons, matchAt_litCI_wordB, ciPrefixEnd_eq_ciEq a w hall]
    by_cases he : ciEq (a :: w) (s.takeWhile isWordChar) = true
    · have hh : isWordAt s.head? = true := by
        cases s with
        | nil => simp [ciEq] at he
        | cons c t =>
          by_cases hwc : isWordChar c = true
          · simpa [isWordAt] using hwc
          · rw [List.takeWhile_cons_of_neg hwc] at he
            simp [ciEq] at he
      by_cases hp : isWordAt prev = true <;> simp [he, hh, hp]
    · simp [he]

theorem testGo_wordRe (w : Str) (hw : wordLike w = true) (prev : Option Char) (s : Str) :
    testGo (wordRe w) prev s = hasWord w (isWordAt prev) s := by
  induction s generalizing prev with
  | nil =>
    rw [testGo, matchAt_wordRe w hw, hasWord]
    cases w with
    | nil => simp [wordLike] at hw
    | cons a w => simp [ciEq]
  | cons c t ih =>
    rw [testGo, ih, matchAt_wordRe w hw, hasWord]
    simp only [isWordAt]
    split <;> simp_all

/-! ## Whole words along the scan of `replace` -/

theorem ciEq_length (w r : Str) (h : ciEq w r = true) : w.length = r.length := by
  induction w generalizing r with
  | nil => cases r with
    | nil => rfl
    | cons c r => simp [ciEq] at h
  | cons a w ih => cases r with
    | nil => simp [ciEq] at h
    | cons c r =>
      simp only [ciEq, Bool.and_eq_true] at h
      simp [ih r h.2]

theorem take_length_takeWhile {α : Type} (p : α → Bool) (l : List α) :
    l.take (l.takeWhile p).length = l.takeWhile p := by
  induction l with
  | nil => rfl
  | cons x t ih =>
    by_cases hx : p x = true
    · simp [List.takeWhile_cons_of_pos hx, ih]
    · simp [List.takeWhile_cons_of_neg hx]

theorem drop_length_takeWhile {α : Type} (p : α → Bool) (l : List α) :
    l.drop (l.takeWhile p).length = l.dropWhile p := by
  induction l with
  | nil => rfl
  | cons x t ih =>
    by_cases hx : p x = true
    · simp [List.takeWhile_cons_of_pos hx, List.dropWhile_cons_of_pos hx, ih]
    · simp [List.takeWhile_cons_of_neg hx, List.dropWhile_cons_of_neg hx]

theorem takeWhile_dropWhile_self {α : Type} (p : α → Bool) (l : List α) :
    (l.dropWhile p).takeWhile p = [] := by
  induction l with
  | nil => rfl
  | cons x t ih =>
    by_cases hx : p x = true
    · simp [List.dropWhile_cons_of_pos hx, ih]
    · simp [List.dropWhile_cons_of_neg hx, List.takeWhile_cons_of_neg hx]

theorem takeWhile_append_head {α : Type} (p : α → Bool) (l w : List α)
    (hw : ∀ c, w.head? = some c → p c = false) : (l ++ w).takeWhile p = l.takeWhile p := by
  induction l with
  | nil =>
    cases w with
    | nil => rfl
    | cons d w' => simp [List.takeWhile, hw d rfl]
  | cons c t ih =>
    by_cases hc : p c = true
    · rw [List.cons_append, List.takeWhile_cons_of_pos hc, List.takeWhile_cons_of_pos hc, ih]
    · rw [List.cons_append, List.takeWhile_cons_of_neg hc, List.takeWhile_cons_of_neg hc]

theorem isWordAt_lastOf (b : Bool) (prev : Option Char) (l : Str) (hp : isWordAt prev = b)
    (hl : ∀ x ∈ l, isWordChar x = b) : isWordAt (lastOf prev l) = b := by
  induction l generalizing prev with
  | nil => exact hp
  | cons c t ih =>
    rw [lastOf_cons]
    exact ih (some c) (hl c (List.mem_cons_self _ _))
      (fun x hx => hl x (List.mem_cons_of_mem _ hx))

theorem hasWord_of_no_word_first (w : Str) (hw : w ≠ []) (b : Bool) (s : Str)
    (hs : s.takeWhile isWordChar = []) : hasWord w b s = hasWord w true s := by
  cases s with
  | nil => rfl
  | cons c t =>
    have : ciEq w [] = false := by
      rw [ciEq_nil_right]
      cases w with
      | nil => exact absurd rfl hw
      | cons _ _ => rfl
    simp [hasWord, hs, this]

theorem hasWord_append_left (w : Str) (prev : Option Char) (l s : Str)
    (h : hasWord w (isWordAt (lastOf prev l)) s = true) :
    hasWord w (isWordAt prev) (l ++ s) = true := by
  induction l generalizing prev with
  | nil => exact h
  | cons c t ih =>
    rw [lastOf_cons] at h
    rw [List.cons_append, hasWord, Bool.or_eq_true]
    exact Or.inr (ih (some c) h)

theorem hasWord_append_right (w : Str) (b : Bool) (s u : Str)
    (hu : ∀ c, u.head? = some c → isWordChar c = false) (h : hasWord w b s = true) :
    hasWord w b (s ++ u) = true := by
  induction s generalizing b with
  | nil => simp [hasWord] at h
  | cons c t ih =>
    rw [hasWord, Bool.or_eq_true] at h
    rw [List.cons_append, hasWord, Bool.or_eq_true]
    rcases h with h | h
    · left
      have := takeWhile_append_head isWordChar (c :: t) u hu
      rw [List.cons_append] at this
      rw [this]
      exact h
    · exact Or.inr (ih _ h)

theorem wordLike_ne_nil {w : Str} (h : wordLike w = true) : w ≠ [] := by
  intro hw
  subst hw
  simp [wordLike] at h

/-- Along the step that removes the word `v`: a run of word characters that
is not removed is kept whole, no whole word `w` appears that was not there,
and no whole word `v` is left. -/
theorem replaceGo_wordRe_spec (v w : Str) (hv : wordLike v = true) (hw : w ≠ [])
    (prev : Option Char) (s : Str) :
    ((isWordAt prev = true ∨ matchAt (wordRe v) prev s = none) →
        (replaceGo (wordRe v) [] 0 prev s).takeWhile isWordChar = s.takeWhile isWordChar) ∧
      (hasWord w (isWordAt prev) (replaceGo (wordRe v) [] 0 prev s) = true →
        hasWord w (isWordAt prev) s = true) ∧
      hasWord v (isWordAt prev) (replaceGo (wordRe v) [] 0 prev s) = false := by
  have hvne := wordLike_ne_nil hv
  refine replaceGo_induction (wordRe v) []
    (fun prev s out =>
      ((isWordAt prev = true ∨ matchAt (wordRe v) prev s = none) →
        out.takeWhile isWordChar = s.takeWhile isWordChar) ∧
      (hasWord w (isWordAt prev) out = true → hasWord w (isWordAt prev) s = true) ∧
      hasWord v (isWordAt prev) out = false) ?_ ?_ ?_ ?_ prev s
  · intro prev
    have hm : matchAt (wordRe v) prev [] = none := by
      rw [matchAt_wordRe v hv]
      cases v with
      | nil => exact absurd rfl hvne
      | cons a v => simp [ciEq]
    simp [replaceGo, hm, hasWord]
  · intro prev c t out hm ih
    obtain ⟨ihA, ihB, ihC⟩ := ih
    have hA : (c :: out).takeWhile isWordChar = (c :: t).takeWhile isWordChar := by
      by_cases hc : isWordChar c = true
      · rw [List.takeWhile_cons_of_pos hc, List.takeWhile_cons_of_pos hc,
          ihA (Or.inl (by simpa [isWordAt] using hc))]
      · rw [List.takeWhile_cons_of_neg hc, List.takeWhile_cons_of_neg hc]
    refine ⟨fun _ => hA, ?_, ?_⟩
    · intro h
      rw [hasWord, Bool.or_eq_true] at h ⊢
      rcases h with h | h
      · exact Or.inl (hA ▸ h)
      · exact Or.inr (ihB h)
    · rw [hasWord, hA]
      simp only [isWordAt] at ihC
      rw [ihC, Bool.or_false]
      rw [matchAt_wordRe v hv] at hm
      cases hcond : (!isWordAt prev && ciEq v ((c :: t).takeWhile isWordChar)) with
      | false => rfl
      | true => simp [hcond] at hm
  · intro prev c t out hm _
    rw [matchAt_wordRe v hv] at hm
    split at hm
    · simp only [Option.some.injEq, List.length_eq_zero] at hm
      exact absurd hm hvne
    · cases hm
  · intro prev c t n out hm ih
    obtain ⟨ihA, ihB, ihC⟩ := ih
    have hm' := hm
    rw [matchAt_wordRe v hv] at hm
    split at hm
    · rename_i hcond
      simp only [Bool.and_eq_true, Bool.not_eq_true'] at hcond
      obtain ⟨hp, he⟩ := hcond
      simp only [Option.some.injEq] at hm
      have hlen := ciEq_length _ _ he
      have hc : isWordChar c = true := by
        by_cases hc : isWordChar c = true
        · exact hc
        · rw [List.takeWhile_cons_of_neg hc, ciEq_nil_right] at he
          cases v with
          | nil => exact absurd rfl hvne
          | cons _ _ => cases he
      rw [List.takeWhile_cons_of_pos hc, List.length_cons] at hlen
      have hn : n = (t.takeWhile isWordChar).length := by omega
      have htake : t.take n = t.takeWhile isWordChar := by
        rw [hn]; exact take_length_takeWhile _ _
      have hdrop : t.drop n = t.dropWhile isWordChar := by
        rw [hn]; exact drop_length_takeWhile _ _
      have hprev : isWordAt (lastOf (some c) (t.take n)) = true := by
        apply isWordAt_lastOf true
        · simpa [isWordAt] using hc
        · intro x hx
          rw [htake] at hx
          exact List.mem_takeWhile_imp hx
      have hout : out.takeWhile isWordChar = [] := by
        rw [ihA (Or.inl hprev), hdrop]
        exact takeWhile_dropWhile_self _ _
      simp only [List.nil_append]
      refine ⟨?_, ?_, ?_⟩
      · intro h
        rcases h with h | h
        · rw [hp] at h; cases h
        · rw [hm'] at h; cases h
      · intro h
        rw [hp] at h ⊢
        rw [hasWord_of_no_word_first w hw false out hout] at h
        rw [hprev] at ihB
        have h2 := ihB h
        have h3 := hasWord_append_left w prev (c :: t.take n) (t.drop n)
          (by rw [lastOf_cons, hprev]; exact h2)
        rw [hp, List.cons_append, List.take_append_drop] at h3
        exact h3
      · rw [hprev] at ihC
        rw [hp, hasWord_of_no_word_first v hvne false out hout]
        exact ihC
    · cases hm

theorem isWordChar_not_space (c : Char) (h : isSpace c = true) : isWordChar c = false := by
  cases hw : isWordChar c with
  | false => rfl
  | true =>
    simp only [isWordChar, Bool.or_eq_true, Bool.and_eq_true, decide_eq_true_eq,
      beq_iff_eq] at hw
    simp only [isSpace, Bool.or_eq_true, Bool.and_eq_true, decide_eq_true_eq,
      beq_iff_eq] at h
    omega

/-- Along the step `replace(/\s+/g, " ")` no whole word appears that was not
there. -/
theorem hasWord_collapse (w : Str) (prev : Option Char) (s : Str) :
    (replaceGo spacesRe [' '] 0 prev s).takeWhile isWordChar = s.takeWhile isWordChar ∧
      (hasWord w (isWordAt prev) (replaceGo spacesRe [' '] 0 prev s) = true →
        hasWord w (isWordAt prev) s = true) := by
  refine replaceGo_induction spacesRe [' ']
    (fun prev s out => out.takeWhile isWordChar = s.takeWhile isWordChar ∧
      (hasWord w (isWordAt prev) out = true → hasWord w (isWordAt prev) s = true))
    ?_ ?_ ?_ ?_ prev s
  · intro prev
    simp [replaceGo, spacesRe, matchAt_rep_single]
  · intro prev c t out _ ih
    obtain ⟨ih1, ih2⟩ := ih
    have hA : (c :: out).takeWhile isWordChar = (c :: t).takeWhile isWordChar := by
      by_cases hc : isWordChar c = true
      · rw [List.takeWhile_cons_of_pos hc, List.takeWhile_cons_of_pos hc, ih1]
      · rw [List.takeWhile_cons_of_neg hc, List.takeWhile_cons_of_neg hc]
    refine ⟨hA, ?_⟩
    intro h
    rw [hasWord, Bool.or_eq_true] at h ⊢
    rcases h with h | h
    · exact Or.inl (hA ▸ h)
    · exact Or.inr (ih2 h)
  · intro prev c t out hm
    simp only [spacesRe, matchAt_rep_single] at hm
    split at hm
    · simp only [Option.some.injEq] at hm
      omega
    · cases hm
  · intro prev c t n out hm ih
    obtain ⟨_, ih2⟩ := ih
    simp only [spacesRe, matchAt_rep_single] at hm
    split at hm
    · simp only [Option.some.injEq] at hm
      have hc : isSpace c = true := by
        cases hs : isSpace c with
        | true => rfl
        | false => simp [List.takeWhile, hs] at hm
      rw [List.takeWhile_cons_of_pos hc, List.length_cons] at hm
      have hn : n = (t.takeWhile isSpace).length := by omega
      have htake : t.take n = t.takeWhile isSpace := by
        rw [hn]; exact take_length_takeWhile _ _
      have hcw := isWordChar_not_space c hc
      have hprev : isWordAt (lastOf (some c) (t.take n)) = false := by
        apply isWordAt_lastOf false
        · simpa [isWordAt] using hcw
        · intro x hx
          rw [htake] at hx
          exact isWordChar_not_space x (List.mem_takeWhile_imp hx)
      have hsp : isWordChar ' ' = false := by decide
      refine ⟨?_, ?_⟩
      · rw [List.singleton_append, List.takeWhile_cons_of_neg (by simp [hsp]),
          List.takeWhile_cons_of_neg (by simp [hcw])]
      · intro h
        rw [List.singleton_append, hasWord, Bool.or_eq_true] at h
        rcases h with h | h
        · rw [List.takeWhile_cons_of_neg (by simp [hsp])] at h
          rw [hasWord, Bool.or_eq_true]
          left
          rw [List.takeWhile_cons_of_neg (by simp [hcw])]
          exact h
        · rw [hsp] at h
          rw [hprev] at ih2
          have h2 := ih2 h
          have h3 := hasWord_append_left w prev (c :: t.take n) (t.drop n)
            (by rw [lastOf_cons, hprev]; exact h2)
          rwa [List.cons_append, List.take_append_drop] at h3
    · cases hm

theorem hasWord_trim (w : Str) (s : Str) (h : hasWord w false (trim s) = true) :
    hasWord w false s = true := by
  unfold trim at h
  have h1 : s = s.takeWhile isSpace ++ s.dropWhile isSpace :=
    (List.takeWhile_append_dropWhile _ _).symm
  have hfront : isWordAt (lastOf none (s.takeWhile isSpace)) = false := by
    apply isWordAt_lastOf false none _ rfl
    intro x hx
    exact isWordChar_not_space x (List.mem_takeWhile_imp hx)
  generalize s.dropWhile isSpace = u at h h1
  have h2 : u = (u.reverse.dropWhile isSpace).reverse ++ (u.reverse.takeWhile isSpace).reverse := by
    rw [← List.reverse_append, List.takeWhile_append_dropWhile, List.reverse_reverse]
  have h3 : hasWord w false u = true := by
    rw [h2]
    apply hasWord_append_right _ _ _ _ _ h
    intro c hc
    rw [List.head?_reverse] at hc
    have hm : c ∈ u.reverse.takeWhile isSpace := List.mem_of_getLast?_eq_some hc
    exact isWordChar_not_space c (List.mem_takeWhile_imp hm)
  rw [h1]
  have := hasWord_append_left w none (s.takeWhile isSpace) u (by rw [hfront]; exact h3)
  simpa [isWordAt] using this

/-! ## The output of `replace(/\s+/g, " ").trim()` is in normal form -/

theorem head?_dropWhile_false {α : Type} (p : α → Bool) (l : List α) (c : α)
    (h : (l.dropWhile p).head? = some c) : p c = false := by
  induction l with
  | nil => simp at h
  | cons x t ih =>
    by_cases hx : p x = true
    · rw [List.dropWhile_cons_of_pos hx] at h
      exact ih h
    · rw [List.dropWhile_cons_of_neg hx] at h
      simp only [List.head?_cons, Option.some.injEq] at h
      subst h
      simpa using hx

theorem weakOK_collapse (prev : Option Char) (s : Str) :
    weakOK (replaceGo spacesRe [' '] 0 prev s) = true ∧
      ((∀ d, s.head? = some d → isSpace d = false) →
        ∀ d, (replaceGo spacesRe [' '] 0 prev s).head? = some d → isSpace d = false) := by
  refine replaceGo_induction spacesRe [' ']
    (fun _ s out => weakOK out = true ∧
      ((∀ d, s.head? = some d → isSpace d = false) →
        ∀ d, out.head? = some d → isSpace d = false)) ?_ ?_ ?_ ?_ prev s
  · intro prev
    simp [replaceGo, spacesRe, matchAt_rep_single, weakOK]
  · intro prev c t out hm ih
    have hc : isSpace c = false := by
      simp only [spacesRe, matchAt_rep_single] at hm
      cases hs : isSpace c with
      | false => rfl
      | true => simp [List.takeWhile, hs] at hm
    refine ⟨by simp [weakOK, hc, ih.1], ?_⟩
    intro _ d hd
    simp only [List.head?_cons, Option.some.injEq] at hd
    subst hd
    exact hc
  · intro prev c t out hm
    simp only [spacesRe, matchAt_rep_single] at hm
    split at hm
    · simp only [Option.some.injEq] at hm
      omega
    · cases hm
  · intro prev c t n out hm ih
    simp only [spacesRe, matchAt_rep_single] at hm
    split at hm
    · simp only [Option.some.injEq] at hm
      have hc : isSpace c = true := by
        cases hs : isSpace c with
        | true => rfl
        | false => simp [List.takeWhile, hs] at hm
      rw [List.takeWhile_cons_of_pos hc, List.length_cons] at hm
      have hn : n = (t.takeWhile isSpace).length := by omega
      have hdrop : t.drop n = t.dropWhile isSpace := by
        rw [hn]; exact drop_length_takeWhile _ _
      have hhead := ih.2 (fun d hd => head?_dropWhile_false isSpace t d (hdrop ▸ hd))
      have hsp : isSpace ' ' = true := by decide
      refine ⟨?_, ?_⟩
      · rw [List.singleton_append]
        cases out with
        | nil => simp [hsp, weakOK]
        | cons d o =>
          have h1 := hhead d rfl
          have h2 := ih.1
          have h3 : weakOK (' ' :: d :: o) = ((' ' == ' ' && !isSpace d) && weakOK (d :: o)) := by
            conv_lhs => unfold weakOK
            simp [hsp]
          rw [h3, h2, h1]
          rfl
      · intro h
        have := h c rfl
        rw [hc] at this
        cases this
    · cases hm

theorem weakOK_tail (c : Char) (t : Str) (h : weakOK (c :: t) = true) : weakOK t = true := by
  simp only [weakOK, Bool.and_eq_true] at h
  exact h.2

theorem weakOK_dropWhile (p : Char → Bool) (s : Str) (h : weakOK s = true) :
    weakOK (s.dropWhile p) = true := by
  induction s with
  | nil => exact h
  | cons c t ih =>
    by_cases hc : p c = true
    · rw [List.dropWhile_cons_of_pos hc]
      exact ih (weakOK_tail c t h)
    · rw [List.dropWhile_cons_of_neg hc]
      exact h

theorem weakOK_append_left (a b : Str) (h : weakOK (a ++ b) = true) : weakOK a = true := by
  induction a with
  | nil => rfl
  | cons c t ih =>
    have ht := ih (weakOK_tail c _ h)
    simp only [List.cons_append, weakOK, Bool.and_eq_true] at h
    simp only [weakOK, Bool.and_eq_true, ht, and_true]
    by_cases hc : isSpace c = true
    · simp only [hc, if_true, Bool.and_eq_true] at h ⊢
      refine ⟨h.1.1, ?_⟩
      cases t with
      | nil => rfl
      | cons d t' => simpa using h.1.2
    · simp [hc]

theorem spaceOK_of_weakOK (s : Str) (h : weakOK s = true)
    (hl : ∀ c, s.getLast? = some c → isSpace c = false) : spaceOK s = true := by
  induction s with
  | nil => rfl
  | cons c t ih =>
    have ht : spaceOK t = true := by
      apply ih (weakOK_tail c t h)
      intro x hx
      cases t with
      | nil => simp at hx
      | cons d t' =>
        apply hl x
        rw [List.getLast?_cons_cons]
        exact hx
    simp only [weakOK, Bool.and_eq_true] at h
    simp only [spaceOK, Bool.and_eq_true, ht, and_true]
    by_cases hc : isSpace c = true
    · simp only [hc, if_true, Bool.and_eq_true] at h ⊢
      refine ⟨h.1.1, ?_⟩
      cases t with
      | nil =>
        have := hl c rfl
        rw [hc] at this
        cases this
      | cons d t' => simpa using h.1.2
    · simp [hc]

theorem normalized_trim (s : Str) (h : weakOK s = true) : normalized (trim s) = true := by
  unfold trim
  have hu := weakOK_dropWhile isSpace s h
  have hhead : ∀ d, (s.dropWhile isSpace).head? = some d → isSpace d = false :=
    fun d hd => head?_dropWhile_false isSpace s d hd
  generalize s.dropWhile isSpace = u at hu hhead
  have h2 : u = (u.reverse.dropWhile isSpace).reverse ++ (u.reverse.takeWhile isSpace).reverse := by
    rw [← List.reverse_append, List.takeWhile_append_dropWhile, List.reverse_reverse]
  have hlast : ∀ c, (u.reverse.dropWhile isSpace).reverse.getLast? = some c →
      isSpace c = false := by
    intro c hc
    rw [List.getLast?_reverse] at hc
    exact head?_dropWhile_false isSpace _ c hc
  generalize (u.reverse.dropWhile isSpace).reverse = v at h2 hlast
  have hv : weakOK v = true := weakOK_append_left v _ (h2 ▸ hu)
  unfold normalized
  rw [spaceOK_of_weakOK v hv hlast, Bool.and_true]
  cases v with
  | nil => rfl
  | cons d v' =>
    have := hhead d (by rw [h2]; rfl)
    simp [this]

/-- The output of `replace(/\s+/g, " ").trim()` is in normal form. -/
theorem normalized_normalize (s : Str) :
    normalized (trim (replaceAll spacesRe [' '] s)) = true :=
  normalized_trim _ (weakOK_collapse none s).1

/-! ## `cleanName` on its own output -/

theorem foldl_noise_no_word (words : List Str) (hwords : ∀ v ∈ words, wordLike v = true)
    (s : Str) :
    (∀ w, w ≠ [] → hasWord w false s = false →
        hasWord w false (words.foldl (fun line word => replaceAll (wordRe word) [] line) s) =
          false) ∧
      ∀ v ∈ words,
        hasWord v false (words.foldl (fun line word => replaceAll (wordRe word) [] line) s) =
          false := by
  induction words generalizing s with
  | nil =>
    refine ⟨fun w _ h => h, ?_⟩
    intro v hv
    simp at hv
  | cons v vs ih =>
    have hv := hwords v (List.mem_cons_self _ _)
    obtain ⟨ih1, ih2⟩ := ih (fun x hx => hwords x (List.mem_cons_of_mem _ hx))
      (replaceAll (wordRe v) [] s)
    rw [List.foldl_cons]
    refine ⟨?_, ?_⟩
    · intro w hw h
      apply ih1 w hw
      cases ho : hasWord w false (replaceAll (wordRe v) [] s) with
      | false => rfl
      | true =>
        have := (replaceGo_wordRe_spec v w hv hw none s).2.1 ho
        simp only [isWordAt] at this
        rw [this] at h
        cases h
    · intro x hx
      rcases List.mem_cons.mp hx with rfl | hx
      · apply ih1 x (wordLike_ne_nil hv)
        exact (replaceGo_wordRe_spec x x hv (wordLike_ne_nil hv) none s).2.2
      · exact ih2 x hx

theorem noiseWords_wordLike : ∀ v ∈ noiseWords, wordLike v = true := by decide

/-- The output of the steps of `cleanName` contains none of the noise words
as a whole word. -/
theorem cleanSteps_no_noise (line : Str) :
    ∀ v ∈ noiseWords, test (wordRe v) (cleanSteps line) = false := by
  intro v hv
  have hl := noiseWords_wordLike v hv
  rw [test, testGo_wordRe v hl]
  simp only [isWordAt]
  unfold cleanSteps
  simp only
  cases ho : hasWord v false (trim (replaceAll spacesRe [' ']
      (noiseWords.foldl (fun line word => replaceAll (wordRe word) [] line)
        (replaceAll digitsRe [] (replaceAll phoneRe [] (replaceAll wwwRe []
          (replaceAll urlRe [] (replaceAll emailRe [] line)))))))) with
  | false => rfl
  | true =>
    have h1 := hasWord_trim v _ ho
    have h2 := (hasWord_collapse v none _).2 h1
    simp only [isWordAt] at h2
    rw [(foldl_noise_no_word noiseWords noiseWords_wordLike _).2 v hv] at h2
    cases h2

theorem testGo_rep_one (p : Char → Bool) (prev : Option Char) (s : Str) :
    testGo [Atom.rep p 1] prev s = s.any p := by
  induction s generalizing prev with
  | nil => simp [testGo, matchAt_rep_single]
  | cons c t ih =>
    rw [testGo, ih, matchAt_rep_single]
    by_cases hc : p c = true
    · simp [List.takeWhile_cons_of_pos hc, hc]
    · simp [List.takeWhile_cons_of_neg hc, hc]

theorem foldl_noise_of_test_false (words : List Str) (s : Str)
    (h : ∀ v ∈ words, test (wordRe v) s = false) :
    words.foldl (fun line word => replaceAll (wordRe word) [] line) s = s := by
  induction words with
  | nil => rfl
  | cons v vs ih =>
    rw [List.foldl_cons, replaceAll_of_test_false _ _ _ (h v (List.mem_cons_self _ _))]
    exact ih (fun x hx => h x (List.mem_cons_of_mem _ hx))

theorem cleanSteps_normalized (line : Str) : normalized (cleanSteps line) = true := by
  unfold cleanSteps
  exact normalized_normalize _

/-- A string on which no step of `cleanName` finds anything is returned
unchanged. -/
theorem cleanSteps_fixed (y : Str) (h1 : test emailRe y = false) (h2 : test urlRe y = false)
    (h3 : test wwwRe y = false) (hd : ∀ c ∈ y, isDigit c = false)
    (hn : ∀ v ∈ noiseWords, test (wordRe v) y = false) (hy : normalized y = true) :
    cleanSteps y = y := by
  have h5 : test digitsRe y = false := by
    rw [test, digitsRe, testGo_rep_one]
    simpa using hd
  unfold cleanSteps
  simp only
  rw [replaceAll_of_test_false _ _ _ h1, replaceAll_of_test_false _ _ _ h2,
    replaceAll_of_test_false _ _ _ h3, replaceAll_phoneRe_of_no_digit _ hd,
    replaceAll_of_test_false _ _ _ h5, foldl_noise_of_test_false _ _ hn,
    normalize_of_normalized _ hy]

/-- C7, as amended: applying `cleanName` to its own output changes nothing
when the first three rules (e-mail addresses, `http(s)://` addresses, `www.`
hosts) find nothing in that output. -/
theorem cleanName_idempotent (x : Option Str)
    (h1 : test emailRe (cleanName x) = false) (h2 : test urlRe (cleanName x) = false)
    (h3 : test wwwRe (cleanName x) = false) :
    cleanName (some (cleanName x)) = cleanName x := by
  rw [cleanName_some (cleanName x)]
  split
  · rename_i he
    exact (List.isEmpty_iff.mp he).symm
  · cases x with
    | none => rfl
    | some line =>
      rw [cleanName_some line] at h1 h2 h3 ⊢
      split
      · rfl
      · rename_i hl
        simp only [hl, if_false] at h1 h2 h3
        exact cleanSteps_fixed _ h1 h2 h3 (cleanSteps_no_digit line) (cleanSteps_no_noise line)
          (cleanSteps_normalized line)

/-- C7 on a line with digits, a telephone number and noise words. -/
theorem cleanName_idempotent_witness :
    (test emailRe (cleanName (some "John Smith 123 ph: +1-555-123-4567".toList)) = false ∧
      test urlRe (cleanName (some "John Smith 123 ph: +1-555-123-4567".toList)) = false ∧
      test wwwRe (cleanName (some "John Smith 123 ph: +1-555-123-4567".toList)) = false) ∧
    cleanName (some "John Smith 123 ph: +1-555-123-4567".toList) = "John Smith :".toList ∧
    cleanName (some (cleanName (some "John Smith 123 ph: +1-555-123-4567".toList))) =
      cleanName (some "John Smith 123 ph: +1-555-123-4567".toList) :=
  ⟨by decide, by decide,
    cleanName_idempotent (some "John Smith 123 ph: +1-555-123-4567".toList)
      (by decide) (by decide) (by decide)⟩

/-- C7 fails as stated: on `ww1w.a` the rule for `www.` hosts finds nothing,
the rule for digits then leaves `www.a`, and a second application removes
it. -/
theorem cleanName_idempotent_counterexample :
    cleanName (some "ww1w.a".toList) = "www.a".toList ∧
      cleanName (some (cleanName (some "ww1w.a".toList))) = [] ∧
      cleanName (some (cleanName (some "ww1w.a".toList))) ≠ cleanName (some "ww1w.a".toList) := by
  decide

/-! ## `isDesignation` and the buckets of `re` -/

/-- C11: `isDesignation(line)` is true exactly when the lower-cased line
contains one of the seventeen job-title keywords; "Senior Software Engineer"
is a designation and "123 Main Street, Sector 5" is not. -/
theorem isDesignation_iff (lc : Str → Str) (line : Str) :
    (isDesignation lc line = true ↔
      ∃ k ∈ ["lead".toList, "manager".toList, "director".toList, "chief".toList,
          "head".toList, "engineer".toList, "developer".toList, "designer".toList,
          "consultant".toList, "analyst".toList, "specialist".toList, "coordinator".toList,
          "executive".toList, "officer".toList, "president".toList, "vp".toList,
          "founder".toList],
        k <:+: lc line) ∧
      isDesignation asciiLower "Senior Software Engineer".toList = true ∧
      isDesignation asciiLower "123 Main Street, Sector 5".toList = false := by
  refine ⟨?_, by decide, by decide⟩
  unfold isDesignation
  simp only [List.any_eq_true, includes_iff, designationKeywords]

theorem startsWithLoc_eq (result : List Token) : startsWithLoc result = firstIsLoc result := by
  cases result with
  | nil => rfl
  | cons e rest =>
    simp only [startsWithLoc, firstIsLoc, List.length_cons, List.head?_cons, Option.map_some']
    by_cases h : e.entity = "B-LOC".toList
    · simp [h]
    · have h2 : (some e.entity == some "B-LOC".toList) = false := by
        simpa using h
      rw [h2]
      simp
      exact h

theorem toLocations_eq (lc : Str → Str) (tag : Str → List Token) :
    toLocations lc tag =
      fun line => firstIsLoc (tag line) || (!isDesignation lc line && isAddress lc line) := by
  funext line
  simp [toLocations, startsWithLoc_eq]

theorem toDesignations_eq (lc : Str → Str) (tag : Str → List Token) :
    toDesignations lc tag =
      fun line => isDesignation lc line && !firstIsLoc (tag line) := by
  funext line
  simp [toDesignations, startsWithLoc_eq, Bool.and_comm]

/-- C12: for a tagger that answers every call, `re` returns and its address
is the input lines, in order and unchanged, whose tagging starts with a B-LOC
token or which are an address and not a designation; so the line "123 Main
Street, Sector 5" is in the address wherever it stands and whatever the tagger
returns. -/
theorem re_address (lc : Str → Str) (tag : Str → List Token) (lines before after : List Str) :
    (∃ r, re lc (totalTagger tag) lines = some r ∧
      r.address = lines.filter
        (fun line => firstIsLoc (tag line) || (!isDesignation lc line && isAddress lc line))) ∧
    ∃ r, re asciiLower (totalTagger tag)
        (before ++ "123 Main Street, Sector 5".toList :: after) = some r ∧
      "123 Main Street, Sector 5".toList ∈ r.address := by
  refine ⟨⟨_, re_total lc tag lines, ?_⟩, ⟨_, re_total asciiLower tag _, ?_⟩⟩
  · simp only [bucketsOf, toLocations_eq]
  · simp only [bucketsOf, toLocations_eq, List.mem_filter, List.mem_append, List.mem_cons,
      true_or, or_true, true_and, Bool.or_eq_true, Bool.and_eq_true]
    right
    decide

/-- C13: for a tagger that answers every call, `re` returns and its
designation is the input lines, in order and unchanged, that are a designation
and whose tagging does not start with a B-LOC token; such a line that is also
an address goes to designation and not to address. -/
theorem re_designation (lc : Str → Str) (tag : Str → List Token) (lines : List Str) :
    ∃ r, re lc (totalTagger tag) lines = some r ∧
      r.designation = lines.filter
        (fun line => isDesignation lc line && !firstIsLoc (tag line)) ∧
      ∀ line ∈ lines, isDesignation lc line = true → isAddress lc line = true →
        firstIsLoc (tag line) = false → line ∈ r.designation ∧ line ∉ r.address := by
  refine ⟨_, re_total lc tag lines, ?_, ?_⟩
  · simp only [bucketsOf, toDesignations_eq]
  · intro line hl hd ha hf
    simp only [bucketsOf, toDesignations_eq, toLocations_eq, List.mem_filter, hl, hd, ha, hf]
    simp

/-- C13 on the card of the end-to-end scenario, where "Senior Software
Engineer" is the designation, and on a line that is both a designation and an
address. -/
theorem re_designation_witness :
    (∃ r, re asciiLower (totalTagger cardTagger) cardLines = some r ∧
      r.designation = ["Senior Software Engineer".toList]) ∧
    ∃ r, re asciiLower (totalTagger cardTagger) ["Head Office, 5 Tower Road".toList] = some r ∧
      "Head Office, 5 Tower Road".toList ∈ r.designation ∧
      "Head Office, 5 Tower Road".toList ∉ r.address := by
  obtain ⟨r1, h1, h2, _⟩ := re_designation asciiLower cardTagger cardLines
  obtain ⟨r2, h3, _, h4⟩ := re_designation asciiLower cardTagger
    ["Head Office, 5 Tower Road".toList]
  refine ⟨⟨r1, h1, ?_⟩, ⟨r2, h3, ?_⟩⟩
  · rw [h2]
    decide
  · exact h4 _ (by simp) (by decide) (by decide) (by decide)

/-- C14: for a tagger that answers every call, `re` returns and its name is
`cleanName` of the first input line of dominant type "PER", and the empty
string when there is none; `cleanName` of `undefined` and of the empty string
is the empty string. -/
theorem re_name (lc : Str → Str) (tag : Str → List Token) (lines : List Str) :
    (∃ r, re lc (totalTagger tag) lines = some r ∧
      r.name = cleanName (lines.find? (fun line => dominantType (tag line) = some "PER".toList)) ∧
      ((∀ line ∈ lines, dominantType (tag line) ≠ some "PER".toList) → r.name = [])) ∧
    cleanName none = [] ∧ cleanName (some []) = [] := by
  refine ⟨⟨_, re_total lc tag lines, ?_, ?_⟩, rfl, rfl⟩
  · simp [bucketsOf]
  · intro h
    have : lines.filter (fun line => decide (dominantType (tag line) = some "PER".toList)) = [] := by
      rw [List.filter_eq_nil_iff]
      intro line hl
      simpa using h line hl
    simp only [bucketsOf, this]
    rfl

/-- C14 on the card of the end-to-end scenario, where the name is "John
Smith", and on lines without a person, where it is empty. -/
theorem re_name_witness :
    (∃ r, re asciiLower (totalTagger cardTagger) cardLines = some r ∧
      r.name = "John Smith".toList) ∧
    ∃ r, re asciiLower (totalTagger cardTagger) ["Acme Corp".toList] = some r ∧ r.name = [] := by
  obtain ⟨⟨r1, h1, h2, _⟩, _⟩ := re_name asciiLower cardTagger cardLines
  obtain ⟨⟨r2, h3, _, h4⟩, _⟩ := re_name asciiLower cardTagger ["Acme Corp".toList]
  refine ⟨⟨r1, h1, ?_⟩, ⟨r2, h3, h4 ?_⟩⟩
  · rw [h2]
    decide!
  · decide!

/-! ## The dominant type of a line -/

/-- The inner loop of `re` keeps the label and the confidence of the best
token so far, among those with a Begin tag at position 1 and a confidence
above 0. -/
theorem typeStep_invariant (result : List Token) :
    let st := result.foldl typeStep (none, 0)
    (st.1 = none → st.2 = 0) ∧
      (∀ t, st.1 = some t →
        ∃ e ∈ result, beginsLine e = true ∧ 0 < e.score ∧ t = e.entity.drop 2 ∧
          e.score = st.2) ∧
      0 ≤ st.2 ∧ ∀ e ∈ result, beginsLine e = true → e.score ≤ st.2 := by
  induction result using List.reverseRecOn with
  | nil => simp
  | append_singleton pre e ih =>
    simp only [List.foldl_append, List.foldl_cons, List.foldl_nil]
    generalize pre.foldl typeStep (none, 0) = st at ih
    obtain ⟨hnone, hsome, h0, hmax⟩ := ih
    have hkeep : (st.1 = none → st.2 = 0) ∧
        (∀ t, st.1 = some t →
          ∃ x ∈ pre ++ [e], beginsLine x = true ∧ 0 < x.score ∧ t = x.entity.drop 2 ∧
            x.score = st.2) ∧
        0 ≤ st.2 ∧ ∀ x ∈ pre, beginsLine x = true → x.score ≤ st.2 := by
      refine ⟨hnone, ?_, h0, hmax⟩
      intro t ht
      obtain ⟨x, hx, h1, h2, h3, h4⟩ := hsome t ht
      exact ⟨x, List.mem_append_left _ hx, h1, h2, h3, h4⟩
    obtain ⟨k1, k2, k3, k4⟩ := hkeep
    unfold typeStep
    by_cases hq : beginsLine e = true
    · have hq' : (startsWith e.entity "B-".toList && e.index == 1) = true := hq
      rw [if_pos hq']
      by_cases hgt : e.score > st.2
      · rw [if_pos hgt]
        have hpos : 0 < e.score := lt_of_le_of_lt h0 hgt
        refine ⟨(fun h => by cases h), ?_, le_of_lt hpos, ?_⟩
        · intro t ht
          simp only [Option.some.injEq] at ht
          exact ⟨e, by simp, hq, hpos, ht.symm, rfl⟩
        · intro x hx hbx
          rcases List.mem_append.mp hx with hx | hx
          · exact le_trans (hmax x hx hbx) (le_of_lt hgt)
          · simp only [List.mem_singleton] at hx
            subst hx
            exact le_refl _
      · rw [if_neg hgt]
        refine ⟨k1, k2, k3, ?_⟩
        intro x hx hbx
        rcases List.mem_append.mp hx with hx | hx
        · exact k4 x hx hbx
        · simp only [List.mem_singleton] at hx
          subst hx
          exact not_lt.mp hgt
    · have hq' : ¬ (startsWith e.entity "B-".toList && e.index == 1) = true := hq
      rw [if_neg hq']
      refine ⟨k1, k2, k3, ?_⟩
      intro x hx hbx
      rcases List.mem_append.mp hx with hx | hx
      · exact k4 x hx hbx
      · simp only [List.mem_singleton] at hx
        subst hx
        exact absurd hbx hq

/-- C17, as amended: the dominant type of a line is the label (the tag
without its `B-`) of a token of highest confidence among the tokens with a
Begin tag at index 1, and that token has a confidence above 0; the type is
undefined exactly when no token with a Begin tag at index 1 has a confidence
above 0. -/
theorem dominantType_spec (result : List Token) :
    (dominantType result = none ↔
      ∀ e ∈ result, beginsLine e = true → e.score ≤ 0) ∧
    ∀ t, dominantType result = some t →
      ∃ e ∈ result, beginsLine e = true ∧ 0 < e.score ∧ t = e.entity.drop 2 ∧
        ∀ x ∈ result, beginsLine x = true → x.score ≤ e.score := by
  have h := typeStep_invariant result
  simp only at h
  obtain ⟨hnone, hsome, _, hmax⟩ := h
  unfold dominantType
  refine ⟨⟨?_, ?_⟩, ?_⟩
  · intro hn e he hb
    have := hmax e he hb
    rwa [hnone hn] at this
  · intro hall
    cases hst : (result.foldl typeStep (none, 0)).1 with
    | none => rfl
    | some t =>
      obtain ⟨e, he, hb, hpos, _, _⟩ := hsome t hst
      exact absurd (hall e he hb) (not_le.mpr hpos)
  · intro t ht
    obtain ⟨e, he, hb, hpos, hl, hs⟩ := hsome t ht
    exact ⟨e, he, hb, hpos, hl, fun x hx hbx => hs ▸ hmax x hx hbx⟩

/-- C17 on the tagging of "John Smith" in the card of the end-to-end
scenario, and on a tagging without a Begin tag at index 1. -/
theorem dominantType_spec_witness :
    (dominantType (cardTagger "John Smith".toList) = some "PER".toList ∧
      ∃ e ∈ cardTagger "John Smith".toList, beginsLine e = true ∧ 0 < e.score ∧
        "PER".toList = e.entity.drop 2 ∧
        ∀ x ∈ cardTagger "John Smith".toList, beginsLine x = true → x.score ≤ e.score) ∧
    ((∀ e ∈ [(⟨"I-PER".toList, "Smith".toList, 4 / 5, 2⟩ : Token)],
        beginsLine e = true → e.score ≤ 0) ∧
      dominantType [⟨"I-PER".toList, "Smith".toList, 4 / 5, 2⟩] = none) :=
  ⟨⟨by decide!,
      (dominantType_spec (cardTagger "John Smith".toList)).2 "PER".toList (by decide!)⟩,
    ⟨by decide!,
      (dominantType_spec [⟨"I-PER".toList, "Smith".toList, 4 / 5, 2⟩]).1.mpr (by decide!)⟩⟩

/-- C17 fails as stated: the token B-ORG "x" with confidence 0 and index 1 has
a Begin tag at index 1, yet the type is undefined, since the loop keeps a
token only when its confidence is above the running score, which starts at
0. -/
theorem dominantType_spec_counterexample :
    (∃ e ∈ [(⟨"B-ORG".toList, "x".toList, 0, 1⟩ : Token)], beginsLine e = true) ∧
      dominantType [⟨"B-ORG".toList, "x".toList, 0, 1⟩] = none := by
  decide!

/-! ## The noise words in the output of `cleanName` -/

/-- C19: the output of `cleanName` contains no whole-word occurrence, in any
letter case, of contact, ph, tel, phone or mobile: none of the expressions
`/\bword\b/i`, the alternatives of `/\b(contact|ph|tel|phone|mobile)\b/i`,
matches anywhere in it. -/
theorem cleanName_no_noise_word (x : Option Str) :
    test (wordRe "contact".toList) (cleanName x) = false ∧
      test (wordRe "ph".toList) (cleanName x) = false ∧
      test (wordRe "tel".toList) (cleanName x) = false ∧
      test (wordRe "phone".toList) (cleanName x) = false ∧
      test (wordRe "mobile".toList) (cleanName x) = false := by
  have h : ∀ v ∈ noiseWords, test (wordRe v) (cleanName x) = false := by
    cases x with
    | none => decide
    | some line =>
      rw [cleanName_some]
      split
      · decide
      · exact cleanSteps_no_noise line
  exact ⟨h _ (by decide), h _ (by decide), h _ (by decide), h _ (by decide), h _ (by decide)⟩

/-! ## The text of a span: whitespace and markers -/

theorem spaceOK_append_right (a r : Str) (h : spaceOK (a ++ r) = true) : spaceOK r = true := by
  induction a with
  | nil => exact h
  | cons c t ih =>
    apply ih
    simp only [List.cons_append, spaceOK, Bool.and_eq_true] at h
    exact h.2

/-- A string in normal form, read off: no whitespace at either end and no
two whitespace characters in a row. -/
theorem normalized_props (s : Str) (h : normalized s = true) :
    (∀ c, s.head? = some c → isSpace c = false) ∧
      (∀ c, s.getLast? = some c → isSpace c = false) ∧
      ∀ a b, [a, b] <:+: s → ¬ (isSpace a = true ∧ isSpace b = true) := by
  simp only [normalized, Bool.and_eq_true] at h
  obtain ⟨h1, h2⟩ := h
  refine ⟨?_, spaceOK_getLast s h2, ?_⟩
  · intro c hc
    cases s with
    | nil => simp at hc
    | cons d t =>
      simp only [List.head?_cons, Option.some.injEq] at hc
      subst hc
      simpa using h1
  · intro a b hab hsp
    obtain ⟨pre, post, hs⟩ := hab
    have h3 : spaceOK ([a, b] ++ post) = true := by
      apply spaceOK_append_right pre
      rw [← List.append_assoc, hs]
      exact h2
    have h4 : spaceOK (a :: b :: post) =
        ((if isSpace a = true then a == ' ' && !isSpace b else true) && spaceOK (b :: post)) := by
      conv_lhs => unfold spaceOK
    rw [show [a, b] ++ post = a :: b :: post from rfl, h4, if_pos hsp.1, hsp.2] at h3
    simp at h3

theorem mem_spanGroups (T : Str) (ts : List Token) :
    ∀ g ∈ spanGroups T ts, ∀ e ∈ g, e ∈ ts := by
  induction ts with
  | nil => simp [spanGroups]
  | cons x xs ih =>
    intro g hg e he
    by_cases hx : isBegin T x = true
    · simp only [spanGroups, hx, if_true, List.mem_cons] at hg
      rcases hg with rfl | hg
      · rcases List.mem_cons.mp he with rfl | he
        · exact List.mem_cons_self _ _
        · exact List.mem_cons_of_mem _ ((List.takeWhile_sublist _).subset he)
      · exact List.mem_cons_of_mem _ (ih g hg e he)
    · simp only [spanGroups, hx] at hg
      exact List.mem_cons_of_mem _ (ih g hg e he)

theorem pieces_no_hash_of (inside : List Token)
    (hw : ∀ e ∈ inside, ∀ c ∈ stripMarker e.word, c ≠ '#') :
    ∀ c ∈ (inside.map wordPiece).flatten, isChar '#' c = false := by
  intro c hc
  simp only [List.mem_flatten, List.mem_map] at hc
  obtain ⟨l, ⟨e, he, rfl⟩, hcl⟩ := hc
  have hwe := hw e he
  unfold wordPiece at hcl
  by_cases hf : startsWith e.word "##".toList = true
  · rw [if_pos hf] at hcl
    simpa [isChar] using hwe c hcl
  · rw [if_neg hf] at hcl
    rw [stripMarker_of_not hf] at hwe
    rcases List.mem_cons.mp hcl with rfl | h
    · decide
    · simpa [isChar] using hwe c h

theorem spanText_no_hash (g : List Token)
    (hw : ∀ e ∈ g, ∀ c ∈ stripMarker e.word, c ≠ '#') :
    ∀ c ∈ spanText (groupWords g), c ≠ '#' := by
  cases g with
  | nil =>
    intro c hc
    have : spanText (groupWords []) = [] := by decide
    rw [this] at hc
    simp at hc
  | cons b inside =>
    intro c hc
    unfold spanText groupWords at hc
    rw [join_foldl_absorbWord _ _ (by simp)] at hc
    simp only [join] at hc
    have hb : ∀ x ∈ stripMarker b.word, isChar '#' x = false := by
      intro x hx
      simpa [isChar] using hw b (List.mem_cons_self _ _) x hx
    have hp := pieces_no_hash_of inside (fun e he => hw e (List.mem_cons_of_mem _ he))
    rw [replaceAll_hashesRe_word _ _ hb hp] at hc
    have h1 := mem_trim _ c hc
    rcases mem_replaceAll _ _ _ c h1 with h2 | h2
    · rcases List.mem_append.mp h2 with h3 | h3
      · simpa [isChar] using hb c h3
      · simpa [isChar] using hp c h3
    · simp only [List.mem_singleton] at h2
      subst h2
      decide

theorem mem_mergeEntities (ts : List Token) (T : Str) (s : Span) (hs : s ∈ mergeEntities ts T) :
    ∃ g ∈ spanGroups T ts, s.text = spanText (groupWords g) := by
  unfold mergeEntities at hs
  rw [mergeWith_eq_groups, List.mem_map] at hs
  obtain ⟨g, hg, rfl⟩ := hs
  exact ⟨g, hg, rfl⟩

/-- C18, as amended: the text of every span of `mergeEntities` has its
whitespace normalized: no whitespace at either end and no two whitespace
characters in a row; and it contains no `##` (no `#` at all) when no word of
the sequence contains a `#` other than a leading `##` marker. -/
theorem mergeEntities_text_normalized (ts : List Token) (T : Str) :
    (∀ s ∈ mergeEntities ts T,
      (∀ c, s.text.head? = some c → isSpace c = false) ∧
      (∀ c, s.text.getLast? = some c → isSpace c = false) ∧
      ∀ a b, [a, b] <:+: s.text → ¬ (isSpace a = true ∧ isSpace b = true)) ∧
    ((∀ e ∈ ts, ∀ c ∈ stripMarker e.word, c ≠ '#') →
      ∀ s ∈ mergeEntities ts T, ¬ "##".toList <:+: s.text) := by
  constructor
  · intro s hs
    obtain ⟨g, _, ht⟩ := mem_mergeEntities ts T s hs
    rw [ht]
    exact normalized_props _ (normalized_normalize _)
  · intro hw s hs hin
    obtain ⟨g, hg, ht⟩ := mem_mergeEntities ts T s hs
    rw [ht] at hin
    have hmem : '#' ∈ spanText (groupWords g) :=
      hin.subset (by decide)
    exact spanText_no_hash g (fun e he => hw e (mem_spanGroups T ts g hg e he)) '#' hmem rfl

/-- C18 on a Begin word with whitespace around it followed by a
fragment. -/
theorem mergeEntities_text_normalized_witness :
    (∀ e ∈ [(⟨"B-ORG".toList, "  Acme ".toList, 9 / 10, 1⟩ : Token),
        ⟨"I-ORG".toList, "##Corp".toList, 4 / 5, 2⟩],
      ∀ c ∈ stripMarker e.word, c ≠ '#') ∧
    (mergeEntities [⟨"B-ORG".toList, "  Acme ".toList, 9 / 10, 1⟩,
      ⟨"I-ORG".toList, "##Corp".toList, 4 / 5, 2⟩] "ORG".toList).map (fun s => s.text) =
      ["Acme Corp".toList] ∧
    ∀ s ∈ mergeEntities [⟨"B-ORG".toList, "  Acme ".toList, 9 / 10, 1⟩,
        ⟨"I-ORG".toList, "##Corp".toList, 4 / 5, 2⟩] "ORG".toList,
      ¬ "##".toList <:+: s.text :=
  ⟨by decide, by decide!,
    (mergeEntities_text_normalized _ "ORG".toList).2 (by decide)⟩

/-- C18 fails as stated: for B-ORG "#", I-ORG "#", I-ORG "####" the
accumulated words are "#" and "###", joined as "# ###"; the step
`replace(/\s*##/g, "")` removes the space and the two `#` after it, and the
text of the span is "##". -/
theorem mergeEntities_text_normalized_counterexample :
    (mergeEntities [⟨"B-ORG".toList, "#".toList, 1 / 2, 1⟩, ⟨"I-ORG".toList, "#".toList, 1 / 2, 2⟩,
      ⟨"I-ORG".toList, "####".toList, 1 / 2, 3⟩] "ORG".toList).map (fun s => s.text) =
      ["##".toList] ∧
    ∃ s ∈ mergeEntities [⟨"B-ORG".toList, "#".toList, 1 / 2, 1⟩,
        ⟨"I-ORG".toList, "#".toList, 1 / 2, 2⟩, ⟨"I-ORG".toList, "####".toList, 1 / 2, 3⟩]
        "ORG".toList,
      "##".toList <:+: s.text := by
  refine ⟨by decide!, ⟨"##".toList, 1 / 2⟩, by decide!, List.infix_refl _⟩

/-! ## One span for each Begin token -/

theorem spanGroups_heads (T : Str) (ts : List Token) :
    (spanGroups T ts).map List.head? = (ts.filter (isBegin T)).map some := by
  induction ts with
  | nil => rfl
  | cons e rest ih =>
    by_cases he : isBegin T e = true
    · simp [spanGroups, he, ih]
    · simp [spanGroups, he, ih]

/-- C20 fails as stated: the span of the single token B-ORG "##Corp" has the
text "Corp", which does not begin with the word "##Corp" of the token, the
marker being stripped from the text. -/
theorem mergeEntities_one_span_per_begin_counterexample :
    (mergeEntities [⟨"B-ORG".toList, "##Corp".toList, 9 / 10, 1⟩] "ORG".toList).map
        (fun s => s.text) = ["Corp".toList] ∧
      ¬ "##Corp".toList <+: "Corp".toList := by
  decide!

/-! ## The handler of `POST /extract` -/

theorem extractHandler_of_not_array {ρ : Type} (run : List Json → Option ρ) (body : Body)
    (hb : body ≠ Body.undefined)
    (h : ocrLinesOf body = none ∨ ∃ v, ocrLinesOf body = some v ∧ isArray v = false) :
    extractHandler run body = ⟨400, Payload.error "ocrLines must be an array".toList⟩ := by
  cases body with
  | undefined => exact absurd rfl hb
  | obj fields =>
    unfold extractHandler
    rcases h with h | ⟨v, h, hv⟩
    · rw [h]
    · rw [h]
      simp [hv]
  | arr items => rfl

theorem extractHandler_of_array {ρ : Type} (run : List Json → Option ρ) (body : Body)
    (items : List Json) (h : ocrLinesOf body = some (Json.arr items)) :
    extractHandler run body =
      match run items with
      | some result => ⟨200, Payload.result result⟩
      | none => ⟨500, Payload.error "Internal server error".toList⟩ := by
  cases body with
  | undefined => cases h
  | obj fields =>
    unfold extractHandler
    rw [h]
    simp [truthy, isArray, itemsOf]
  | arr items2 => cases h

/-- For a body that was parsed, the handler answers with status 400 and the
payload `{ error: "ocrLines must be an array" }` exactly when `ocrLines` is
absent or is not an array, and then the answer is the same whatever `re` and
the tagger would do: they are not called. -/
theorem extract_bad_request_parsed {ρ : Type} (run other : List Json → Option ρ)
    (body : Body) (hb : body ≠ Body.undefined) :
    (extractHandler run body = ⟨400, Payload.error "ocrLines must be an array".toList⟩ ↔
      (ocrLinesOf body = none ∨ ∃ v, ocrLinesOf body = some v ∧ isArray v = false)) ∧
    ((ocrLinesOf body = none ∨ ∃ v, ocrLinesOf body = some v ∧ isArray v = false) →
      extractHandler other body = extractHandler run body) := by
  refine ⟨⟨?_, extractHandler_of_not_array run body hb⟩, ?_⟩
  · intro h
    cases ho : ocrLinesOf body with
    | none => exact Or.inl rfl
    | some v =>
      right
      refine ⟨v, rfl, ?_⟩
      cases v with
      | arr items =>
        rw [extractHandler_of_array run body items ho] at h
        split at h
        · simp at h
        · simp at h
      | null => rfl
      | bool b => rfl
      | num n => rfl
      | str s => rfl
      | obj fields => rfl
  · intro h
    rw [extractHandler_of_not_array run body hb h, extractHandler_of_not_array other body hb h]

/-- C15 at a request without a JSON body, where `req.body` is `undefined`:
`ocrLines` is absent, the destructuring of line 206 throws inside the `try`,
and the handler answers with status 500 and the payload
`{ error: "Internal server error" }`, not with status 400; the parsed body
`{}` gets status 400 and the payload `{ error: "ocrLines must be an array" }`,
as does the parsed body `{ "ocrLines": "abc" }`. -/
theorem extract_undefined_body {ρ : Type} (run : List Json → Option ρ) :
    ocrLinesOf Body.undefined = none ∧
    extractHandler run Body.undefined =
      ⟨500, Payload.error "Internal server error".toList⟩ ∧
    extractHandler run Body.undefined ≠
      ⟨400, Payload.error "ocrLines must be an array".toList⟩ ∧
    extractHandler run (Body.obj []) =
      ⟨400, Payload.error "ocrLines must be an array".toList⟩ ∧
    extractHandler run (Body.obj [("ocrLines".toList, Json.str "abc".toList)]) =
      ⟨400, Payload.error "ocrLines must be an array".toList⟩ := by
  refine ⟨rfl, rfl, ?_, rfl, rfl⟩
  intro h
  have h2 : (500 : Nat) = 400 := congrArg Response.status h
  exact absurd h2 (by decide)

/-! ## Failures of the tagger -/

theorem scanLines_none_iff (lc : Str → Str) (ner : Str → Option (List Token))
    (lines : List Str) (ex : Extracted) :
    scanLines lc ner ex lines = none ↔
      ∃ before l after, lines = before ++ l :: after ∧ (∀ x ∈ before, ner x ≠ none) ∧
        ner l = none := by
  induction lines generalizing ex with
  | nil =>
    simp only [scanLines]
    constructor
    · intro h
      cases h
    · rintro ⟨before, l, after, h, _⟩
      simp at h
  | cons line rest ih =>
    rw [scanLines]
    cases hn : ner line with
    | none =>
      simp only [true_iff]
      exact ⟨[], line, rest, rfl, by simp, hn⟩
    | some result =>
      simp only
      rw [ih]
      constructor
      · rintro ⟨before, l, after, h1, h2, h3⟩
        refine ⟨line :: before, l, after, by rw [h1]; rfl, ?_, h3⟩
        intro x hx
        rcases List.mem_cons.mp hx with rfl | hx
        · rw [hn]
          simp
        · exact h2 x hx
      · rintro ⟨before, l, after, h1, h2, h3⟩
        cases before with
        | nil =>
          simp only [List.nil_append, List.cons.injEq] at h1
          rw [← h1.1, hn] at h3
          cases h3
        | cons b bs =>
          simp only [List.cons_append, List.cons.injEq] at h1
          exact ⟨bs, l, after, h1.2, fun x hx => h2 x (List.mem_cons_of_mem _ hx), h3⟩

theorem scanLines_of_all_some (lc : Str → Str) (ner : Str → Option (List Token))
    (lines : List Str) (ex : Extracted) (h : ∀ l ∈ lines, ner l ≠ none) :
    scanLines lc ner ex lines =
      scanLines lc (totalTagger (fun l => (ner l).getD [])) ex lines := by
  induction lines generalizing ex with
  | nil => rfl
  | cons line rest ih =>
    rw [scanLines, scanLines]
    cases hn : ner line with
    | none => exact absurd hn (h line (List.mem_cons_self _ _))
    | some result =>
      simp only [totalTagger, hn, Option.getD_some]
      have := ih (lineStep lc ex line result) (fun l hl => h l (List.mem_cons_of_mem _ hl))
      simp only [totalTagger] at this
      exact this

/-- The function `re` fails exactly when a call of the tagger fails: on a
line, the lines before it having been tagged, or on the joined companies. -/
theorem re_none_iff (lc : Str → Str) (ner : Str → Option (List Token)) (lines : List Str) :
    re lc ner lines = none ↔
      (∃ before l after, lines = before ++ l :: after ∧ (∀ x ∈ before, ner x ≠ none) ∧
        ner l = none) ∨
      ((∀ l ∈ lines, ner l ≠ none) ∧
        ner (join [' '] (bucketsOf lc (fun l => (ner l).getD []) lines).companies) = none) := by
  by_cases hall : ∀ l ∈ lines, ner l ≠ none
  · have hs := scanLines_of_all_some lc ner lines ⟨[], [], [], []⟩ hall
    rw [scanLines_total] at hs
    have hno : ¬ ∃ before l after, lines = before ++ l :: after ∧
        (∀ x ∈ before, ner x ≠ none) ∧ ner l = none := by
      rintro ⟨before, l, after, h1, _, h3⟩
      exact hall l (by rw [h1]; simp) h3
    simp only [List.nil_append] at hs
    cases hc : ner (join [' '] (bucketsOf lc (fun l => (ner l).getD []) lines).companies) with
    | none =>
      constructor
      · intro _
        exact Or.inr ⟨hall, rfl⟩
      · intro _
        unfold re
        rw [hs]
        simp only [hc]
    | some companyResult =>
      constructor
      · intro h
        unfold re at h
        rw [hs] at h
        simp only [hc] at h
        cases h
      · rintro (h | ⟨_, h⟩)
        · exact absurd h hno
        · cases h
  · have hex : ∃ before l after, lines = before ++ l :: after ∧
        (∀ x ∈ before, ner x ≠ none) ∧ ner l = none :=
      (scanLines_none_iff lc ner lines ⟨[], [], [], []⟩).mp (by
        cases hsc : scanLines lc ner ⟨[], [], [], []⟩ lines with
        | none => rfl
        | some ex =>
          exfalso
          apply hall
          intro l hl hn
          have : scanLines lc ner ⟨[], [], [], []⟩ lines = none := by
            rw [scanLines_none_iff]
            obtain ⟨before, after, hsplit⟩ := List.append_of_mem hl
            clear hsc hall hl
            induction before generalizing lines with
            | nil => exact ⟨[], l, after, hsplit, by simp, hn⟩
            | cons b bs ihb =>
              cases hb : ner b with
              | none => exact ⟨[], b, bs ++ l :: after, by rw [hsplit]; rfl, by simp, hb⟩
              | some rb =>
                obtain ⟨b2, l2, a2, e1, e2, e3⟩ := ihb (bs ++ l :: after) rfl
                refine ⟨b :: b2, l2, a2, by rw [hsplit, List.cons_append, e1]; rfl, ?_, e3⟩
                intro x hx
                rcases List.mem_cons.mp hx with rfl | hx
                · rw [hb]; simp
                · exact e2 x hx
          rw [this] at hsc
          cases hsc)
    have hsn := (scanLines_none_iff lc ner lines ⟨[], [], [], []⟩).mpr hex
    constructor
    · intro _
      exact Or.inl hex
    · intro _
      unfold re
      rw [hsn]

theorem stringsOf_map_str (lines : List Str) : stringsOf (lines.map Json.str) = some lines := by
  induction lines with
  | nil => rfl
  | cons l rest ih => simp [stringsOf, ih]

/-- C16: `re` fails, and returns nothing, exactly when the tagger fails on an
input line reached in order or, every line having been tagged, on the
space-joined companies text; and when `re` fails on the lines of the request
the handler answers with status 500 and the payload
`{ error: "Internal server error" }`. -/
theorem re_fails_iff (lc : Str → Str) (ner : Str → Option (List Token)) (lines : List Str) :
    (re lc ner lines = none ↔
      (∃ before l after, lines = before ++ l :: after ∧ (∀ x ∈ before, ner x ≠ none) ∧
        ner l = none) ∨
      ((∀ l ∈ lines, ner l ≠ none) ∧
        ner (join [' '] (bucketsOf lc (fun l => (ner l).getD []) lines).companies) = none)) ∧
    (re lc ner lines = none →
      ∀ (other : List Json → Option Result) (body : Body),
        ocrLinesOf body = some (Json.arr (lines.map Json.str)) →
        extractHandler (reCall lc ner other) body =
          ⟨500, Payload.error "Internal server error".toList⟩) := by
  refine ⟨re_none_iff lc ner lines, ?_⟩
  intro h other body hb
  rw [extractHandler_of_array _ body _ hb]
  simp only [reCall, stringsOf_map_str, h]

/-- C16 on the card of the end-to-end scenario with a tagger that fails on
the line "Acme Corp": `re` fails and the handler answers 500; with the tagger
of the card the handler answers 200 with the result. -/
theorem re_fails_iff_witness :
    (cardLines = ["John Smith".toList, "Senior Software Engineer".toList] ++
        "Acme Corp".toList :: ["123 Main Street, Sector 5".toList,
          "john@acme.com +1-555-123-4567".toList] ∧
      (∀ x ∈ ["John Smith".toList, "Senior Software Engineer".toList],
        failingTagger x ≠ none) ∧
      failingTagger "Acme Corp".toList = none) ∧
    re asciiLower failingTagger cardLines = none ∧
    extractHandler (reCall asciiLower failingTagger (fun _ => none))
        (Body.obj [("ocrLines".toList, Json.arr (cardLines.map Json.str))]) =
      ⟨500, Payload.error "Internal server error".toList⟩ ∧
    extractHandler (reCall asciiLower (totalTagger cardTagger) (fun _ => none))
        (Body.obj [("ocrLines".toList, Json.arr (cardLines.map Json.str))]) =
      ⟨200, Payload.result cardResult⟩ :=
  have h : re asciiLower failingTagger cardLines = none :=
    (re_fails_iff asciiLower failingTagger cardLines).1.mpr
      (Or.inl ⟨["John Smith".toList, "Senior Software Engineer".toList], "Acme Corp".toList,
        ["123 Main Street, Sector 5".toList, "john@acme.com +1-555-123-4567".toList],
        rfl, by decide, by decide⟩)
  ⟨⟨rfl, by decide, by decide⟩, h,
    (re_fails_iff asciiLower failingTagger cardLines).2 h (fun _ => none) _ rfl,
    by decide!⟩

/-! ## The rule for telephone numbers and e-mail addresses -/

theorem matchesGo_skip (re : Regex) (n : Nat) (prev : Option Char) (s : Str) :
    matchesGo re n prev s = matchesGo re 0 (lastOf prev (s.take n)) (s.drop n) := by
  induction n generalizing prev s with
  | zero => simp [lastOf_nil]
  | succ n ih =>
    cases s with
    | nil => simp [matchesGo, lastOf_nil]
    | cons c t => rw [matchesGo, ih, List.take_succ_cons, List.drop_succ_cons, lastOf_cons]

/-- When no piece that `replace(re, "")` removes contains whitespace, the
result is the input with characters deleted that are not whitespace. -/
theorem delNS_replaceGo_of_matches (re : Regex) (prev : Option Char) (s : Str)
    (h : ∀ m ∈ matchesGo re 0 prev s, ∀ c ∈ m, isSpace c = false) :
    DelNS (replaceGo re [] 0 prev s) s := by
  generalize hlen : s.length = len
  induction len using Nat.strong_induction_on generalizing prev s with
  | _ len ih =>
    cases s with
    | nil =>
      rw [replaceGo]
      split <;> exact DelNS.nil
    | cons c t =>
      rw [replaceGo]
      rw [matchesGo] at h
      cases hm : matchAt re prev (c :: t) with
      | none =>
        rw [hm] at h
        exact DelNS.keep c (ih t.length (by simp [← hlen]) _ _ h rfl)
      | some k =>
        rw [hm] at h
        cases k with
        | zero =>
          simp only [List.nil_append]
          exact DelNS.keep c (ih t.length (by simp [← hlen]) _ _
            (fun m hmem => h m (List.mem_cons_of_mem _ hmem)) rfl)
        | succ n =>
          simp only [List.nil_append]
          rw [replaceGo_skip]
          simp only at h
          rw [matchesGo_skip] at h
          have hpiece : ∀ x ∈ (c :: t).take (n + 1), isNonSpace x = true := by
            intro x hx
            have := h _ (List.mem_cons_self _ _) x hx
            simp [isNonSpace, this]
          rw [List.take_succ_cons] at hpiece
          have hrest := ih (t.drop n).length (by simp [← hlen]; omega) _ _
            (fun m hmem => h m (List.mem_cons_of_mem _ hmem)) rfl
          refine DelNS.drop c (hpiece c (List.mem_cons_self _ _)) ?_
          have := delNS_drop_prefix (t.take n)
            (fun x hx => hpiece x (List.mem_cons_of_mem _ hx)) hrest
          rwa [List.take_append_drop] at this

theorem cleanSteps_no_email (line : Str)
    (h : ∀ m ∈ matchesOf phoneRe (beforePhone line), ∀ c ∈ m, isSpace c = false) :
    test emailRe (cleanSteps line) = false := by
  have d1 : DelNS (beforePhone line) (replaceAll emailRe [] line) :=
    delNS_trans (delNS_replaceGo _ atomsIn_wwwRe none _) (delNS_replaceGo _ atomsIn_urlRe none _)
  have d4 : DelNS (replaceAll phoneRe [] (beforePhone line)) (beforePhone line) :=
    delNS_replaceGo_of_matches phoneRe none _ h
  have h4 := test_emailRe_delNS (delNS_trans d4 d1) (test_replaceAll_emailRe line)
  unfold cleanSteps
  simp only
  apply test_emailRe_normalize
  exact test_emailRe_delNS (delNS_trans (delNS_foldl_noise _ (fun w hw => hw) _)
    (delNS_replaceGo _ atomsIn_digitsRe none _)) h4

/-- C8, as amended: the rule for e-mail addresses leaves no match of
`/\S+@\S+\.\S+/` in any string, and the output of `cleanName` contains none
for every string in which the rule for telephone numbers removes no
whitespace: no piece that `/(\+?\d[\d\-\)\( ]{5,}\d)/g` matches in the text
left by the first three rules contains a whitespace character. -/
theorem cleanName_no_email (line : Str) :
    test emailRe (replaceAll emailRe [] line) = false ∧
      ((∀ m ∈ matchesOf phoneRe (beforePhone line), ∀ c ∈ m, isSpace c = false) →
        test emailRe (cleanName (some line)) = false) := by
  refine ⟨test_replaceAll_emailRe line, ?_⟩
  intro h
  rw [cleanName_some]
  split
  · decide
  · exact cleanSteps_no_email line h

/-- C8 on the last line of the end-to-end scenario, where the rule for
telephone numbers removes `+1-555-123-4567`, and on a line with digits
where it removes nothing. -/
theorem cleanName_no_email_witness :
    (matchesOf phoneRe (beforePhone "john@acme.com +1-555-123-4567".toList) =
        ["+1-555-123-4567".toList] ∧
      (∀ m ∈ matchesOf phoneRe (beforePhone "john@acme.com +1-555-123-4567".toList),
        ∀ c ∈ m, isSpace c = false) ∧
      test emailRe (cleanName (some "john@acme.com +1-555-123-4567".toList)) = false) ∧
    (matchesOf phoneRe (beforePhone "john1@acme.com 42".toList) = [] ∧
      test emailRe (cleanName (some "john1@acme.com 42".toList)) = false) :=
  ⟨⟨by decide, by decide,
      (cleanName_no_email "john@acme.com +1-555-123-4567".toList).2 (by decide)⟩,
    ⟨by decide, (cleanName_no_email "john1@acme.com 42".toList).2 (by decide)⟩⟩

/-! ## The text of a span begins with a clean Begin word -/

theorem replaceGo_hashesRe_clean_head (w r : Str) (prev : Option Char)
    (hw : ∀ c ∈ w, isSpace c = false ∧ c ≠ '#') :
    replaceGo hashesRe [] 0 prev (w ++ r) = w ++ replaceGo hashesRe [] 0 (lastOf prev w) r := by
  induction w generalizing prev with
  | nil => rfl
  | cons c t ih =>
    obtain ⟨h1, h2⟩ := hw c (List.mem_cons_self _ _)
    have hm : matchAt hashesRe prev (c :: (t ++ r)) = none := by
      simp [hashesRe, lit, matchAt, repGo, isChar, h1, h2]
    rw [List.cons_append, replaceGo, hm]
    simp only
    rw [ih _ (fun x hx => hw x (List.mem_cons_of_mem _ hx)), lastOf_cons]
    rfl

theorem replaceGo_spacesRe_clean_head (w r : Str) (prev : Option Char)
    (hw : ∀ c ∈ w, isSpace c = false) :
    replaceGo spacesRe [' '] 0 prev (w ++ r) =
      w ++ replaceGo spacesRe [' '] 0 (lastOf prev w) r := by
  induction w generalizing prev with
  | nil => rfl
  | cons c t ih =>
    have h1 := hw c (List.mem_cons_self _ _)
    have hm : matchAt spacesRe prev (c :: (t ++ r)) = none := by
      simp [spacesRe, matchAt_rep_single, List.takeWhile, h1]
    rw [List.cons_append, replaceGo, hm]
    simp only
    rw [ih _ (fun x hx => hw x (List.mem_cons_of_mem _ hx)), lastOf_cons]
    rfl

theorem dropWhile_append_suffix {α : Type} (p : α → Bool) (a b : List α)
    (hb : ∀ c ∈ b, p c = false) : ∃ x, (a ++ b).dropWhile p = x ++ b := by
  induction a with
  | nil =>
    refine ⟨[], ?_⟩
    simp only [List.nil_append]
    apply dropWhile_eq_self_of_head
    intro c hc
    exact hb c (List.mem_of_mem_head? hc)
  | cons c t ih =>
    by_cases hc : p c = true
    · rw [List.cons_append, List.dropWhile_cons_of_pos hc]
      exact ih
    · rw [List.cons_append, List.dropWhile_cons_of_neg hc]
      exact ⟨c :: t, rfl⟩

theorem prefix_trim_of_clean (w r : Str) (hw : ∀ c ∈ w, isSpace c = false) :
    w <+: trim (w ++ r) := by
  cases w with
  | nil => exact List.nil_prefix
  | cons c t =>
    unfold trim
    have hd : ((c :: t) ++ r).dropWhile isSpace = (c :: t) ++ r := by
      apply dropWhile_eq_self_of_head
      intro d hd
      simp only [List.cons_append, List.head?_cons, Option.some.injEq] at hd
      subst hd
      exact hw _ (List.mem_cons_self _ _)
    rw [hd, List.reverse_append]
    obtain ⟨x, hx⟩ := dropWhile_append_suffix isSpace r.reverse (c :: t).reverse
      (fun d hd => hw d (List.mem_reverse.mp hd))
    rw [hx, List.reverse_append, List.reverse_reverse]
    exact List.prefix_append _ _

/-- The text of a span begins with the word of its Begin token when that
word contains no whitespace and no `#`, whatever the Inside words are. -/
theorem prefix_spanText_groupWords (b : Token) (inside : List Token)
    (hb : ∀ c ∈ b.word, isSpace c = false ∧ c ≠ '#') :
    b.word <+: spanText (groupWords (b :: inside)) := by
  unfold spanText groupWords
  rw [join_foldl_absorbWord _ _ (by simp)]
  simp only [join]
  unfold replaceAll
  rw [replaceGo_hashesRe_clean_head _ _ _ hb,
    replaceGo_spacesRe_clean_head _ _ _ (fun c hc => (hb c hc).1)]
  exact prefix_trim_of_clean _ _ (fun c hc => (hb c hc).1)

/-- C20, as amended: `mergeEntities` returns one span for each token whose tag
starts with "B-"+T, in order, and the text of the i-th span begins with the
word of the i-th such token whenever that word contains no whitespace and no
`#`, whatever the Inside words are; a sequence without such a token gives the
empty list. -/
theorem mergeEntities_one_span_per_begin (ts : List Token) (T : Str) :
    (mergeEntities ts T).length = (ts.filter (isBegin T)).length ∧
    (∀ (i : Nat) (b : Token), (ts.filter (isBegin T))[i]? = some b →
      (∀ c ∈ b.word, isSpace c = false ∧ c ≠ '#') →
      ∃ s, (mergeEntities ts T)[i]? = some s ∧ b.word <+: s.text) ∧
    ((∀ e ∈ ts, isBegin T e = false) → mergeEntities ts T = []) := by
  have hlen : (spanGroups T ts).length = (ts.filter (isBegin T)).length := by
    have := congrArg List.length (spanGroups_heads T ts)
    simpa using this
  refine ⟨?_, ?_, ?_⟩
  · unfold mergeEntities
    rw [mergeWith_eq_groups, List.length_map, hlen]
  · intro i b hb hclean
    have h1 : ((spanGroups T ts).map List.head?)[i]? = some (some b) := by
      rw [spanGroups_heads, List.getElem?_map, hb]
      rfl
    rw [List.getElem?_map] at h1
    cases hg : (spanGroups T ts)[i]? with
    | none => rw [hg] at h1; cases h1
    | some g =>
      rw [hg] at h1
      simp only [Option.map_some', Option.some.injEq] at h1
      cases g with
      | nil => simp at h1
      | cons b' inside =>
        simp only [List.head?_cons, Option.some.injEq] at h1
        subst h1
        refine ⟨closeGroup closeSpan (b' :: inside), ?_, ?_⟩
        · unfold mergeEntities
          rw [mergeWith_eq_groups, List.getElem?_map, hg]
          rfl
        · exact prefix_spanText_groupWords b' inside hclean
  · intro h
    have : ts.filter (isBegin T) = [] := by
      rw [List.filter_eq_nil_iff]
      intro e he
      simp [h e he]
    have h0 : (mergeEntities ts T).length = 0 := by
      unfold mergeEntities
      rw [mergeWith_eq_groups, List.length_map, hlen, this]
      rfl
    exact List.length_eq_zero.mp h0

/-- C20 on two adjacent Begin tokens followed by an Inside word with a `#`:
two spans, whose texts begin with "Acme" and with "Globex"; and on a sequence
without a Begin token, which gives no span. -/
theorem mergeEntities_one_span_per_begin_witness :
    ((mergeEntities [⟨"B-ORG".toList, "Acme".toList, 9 / 10, 1⟩,
        ⟨"B-ORG".toList, "Globex".toList, 4 / 5, 2⟩,
        ⟨"I-ORG".toList, " #1 ".toList, 4 / 5, 3⟩] "ORG".toList).length = 2 ∧
      (∀ c ∈ "Globex".toList, isSpace c = false ∧ c ≠ '#') ∧
      ∃ s, (mergeEntities [⟨"B-ORG".toList, "Acme".toList, 9 / 10, 1⟩,
          ⟨"B-ORG".toList, "Globex".toList, 4 / 5, 2⟩,
          ⟨"I-ORG".toList, " #1 ".toList, 4 / 5, 3⟩] "ORG".toList)[1]? = some s ∧
        "Globex".toList <+: s.text) ∧
    ((∀ e ∈ [(⟨"I-ORG".toList, "Corp".toList, 4 / 5, 1⟩ : Token), ⟨"O".toList, "x".toList, 1, 2⟩],
        isBegin "ORG".toList e = false) ∧
      mergeEntities [⟨"I-ORG".toList, "Corp".toList, 4 / 5, 1⟩, ⟨"O".toList, "x".toList, 1, 2⟩]
        "ORG".toList = []) :=
  ⟨⟨(mergeEntities_one_span_per_begin _ "ORG".toList).1, by decide,
      (mergeEntities_one_span_per_begin _ "ORG".toList).2.1 1
        ⟨"B-ORG".toList, "Globex".toList, 4 / 5, 2⟩ (by decide!) (by decide)⟩,
    ⟨by decide, (mergeEntities_one_span_per_begin _ "ORG".toList).2.2 (by decide)⟩⟩

end FieldsIdentify
